import Mathlib

set_option linter.unusedVariables false

namespace Gongo

/-! # Shallow embedding of the Gongo board engine (`gongo.go`)

Go slices are embedded as total functions `Nat → _`; in-place writes become
pointwise functional updates.  Index arithmetic on `pt` values is `Nat`
arithmetic: every index the Go code actually touches on a well-formed board is
in range (playable points `p` satisfy `stride + 1 ≤ p`), so truncated
subtraction agrees with Go's `int` arithmetic there.  The masks are embedded
arithmetically: `move & MOVE_TO_PT_MASK` (AND with `1023 = 2^10 - 1`) is
`move % 1024`, `move & ONE_CAPTURE != 0` is `Nat.testBit move 10`, and
`ONE_CAPTURE | move` for a point `move < 1024` is `1024 + move`.
The 64-bit Go hash wraps, embedded as explicit `% 2 ^ 64`. -/

/-- Pointwise update of a `Nat`-indexed map: the in-place write `arr[i] = v`. -/
def setC {α : Type} (f : Nat → α) (i : Nat) (v : α) : Nat → α :=
  fun p => if p = i then v else f p

/-- Add `d` to entry `i`: the in-place `arr[i] += d`. -/
def bumpI (f : Nat → Int) (i : Nat) (d : Int) : Nat → Int :=
  fun p => if p = i then f i + d else f p

/-- Cell values, from `gongo.go`: `EMPTY = 0`, `WHITE = 1`, `BLACK = 2`,
`EDGE = 4`, and the transient chain-traversal mark `CELL_IN_CHAIN = 64`. -/
def EMPTY : Nat := 0

def WHITE : Nat := 1

def BLACK : Nat := 2

def EDGE : Nat := 4

def CELL_IN_CHAIN : Nat := 64

/-- `PASS pt = 0`: the invalid point, interpreted as a pass move. -/
def PASS : Nat := 0

/-- Flag on a recorded move: the move captured exactly one stone. -/
def ONE_CAPTURE : Nat := 1024

/-- `moveResult` from `gongo.go`. -/
inductive moveResult where
  | played
  | passed
  | occupied
  | suicide
  | ko
  | superko
  deriving DecidableEq

/-- `func (m moveResult) ok() bool { return m == played || m == passed }` -/
def moveResult.ok : moveResult → Bool
  | .played => true
  | .passed => true
  | _ => false

/-- The `board` struct.  `dirOffset`/`diagOffset`, `allPoints` and the
`candidates` scratch slice are derived from `size`/`stride` at use sites
(`clearBoard` recomputes them from `size` and nothing mutates them
independently), so they are not stored. -/
structure board where
  size : Nat
  stride : Nat
  cells : Nat → Nat
  neighborCounts : Nat → Int
  moves : Nat → Nat
  moveCount : Nat
  commonMoveCount : Nat
  chainPoints : Nat → Nat

/-- Length of the `cells`/`neighborCounts` arrays: `(stride)*(stride+1)+1`. -/
def boardLen (b : board) : Nat := b.stride * (b.stride + 1) + 1

/-- The playable points are exactly `p = y*stride + x` with `x, y ∈ [1, size]`;
since `x < stride` this is equivalently a condition on `p % stride` and
`p / stride` (the `getCoords` decomposition). -/
def playablePt (size stride p : Nat) : Prop :=
  1 ≤ p % stride ∧ p % stride ≤ size ∧ 1 ≤ p / stride ∧ p / stride ≤ size

instance (size stride p : Nat) : Decidable (playablePt size stride p) := by
  unfold playablePt; infer_instance

/-- `b.makePt(x, y) = y*stride + x`. -/
def makePt (stride x y : Nat) : Nat := y * stride + x

/-- The `allPoints` list built by `clearBoard`: `y` outer from 1 to size,
`x` inner from 1 to size. -/
def allPoints (size stride : Nat) : List Nat :=
  ((List.range size).map (· + 1)).flatMap fun y =>
    ((List.range size).map (· + 1)).map fun x => makePt stride x y

/-- The four orthogonal neighbors of `p` in `dirOffset` order
(`+1, -1, +stride, -stride`). -/
def orthNbrs (stride p : Nat) : List Nat :=
  [p + 1, p - 1, p + stride, p - stride]

/-- The four diagonal neighbors of `p` in `diagOffset` order
(`stride-1, stride+1, -stride-1, -stride+1`). -/
def diagNbrs (stride p : Nat) : List Nat :=
  [p + stride - 1, p + stride + 1, p - stride - 1, p - stride + 1]

/-- `clearBoard(newSize)`, success path (the guard `newSize > maxBoardSize`
returns `false` in Go; reachability below only uses `newSize ≤ 25`).
All cells start as `EDGE` with neighbor count 4; each playable cell is set
`EMPTY` and decrements the counts of its four orthogonal neighbors. -/
def clearBoard (newSize : Nat) : board :=
  let stride := newSize + 1
  let len := stride * (stride + 1) + 1
  { size := newSize
    stride := stride
    cells := fun p => if playablePt newSize stride p then EMPTY else EDGE
    neighborCounts :=
      (allPoints newSize stride).foldl
        (fun f q =>
          bumpI (bumpI (bumpI (bumpI f (q + 1) (-1)) (q - 1) (-1)) (q + stride) (-1))
            (q - stride) (-1))
        (fun p => if p < len then 4 else 0)
    moves := fun _ => 0
    moveCount := 0
    commonMoveCount := 0
    chainPoints := fun _ => 0 }

/-- `getHash`: DJB hash over the playable points; Go's `int64` wraparound is
`% 2 ^ 64` (equality of wrapped values coincides with `int64` equality). -/
def getHash (b : board) : Nat :=
  (allPoints b.size b.stride).foldl
    (fun k p => ((k <<< 5) + k + b.cells p) % 2 ^ 64) 5381

/-- One extension attempt inside `markSurroundedChain`'s visit loop: if the
pre-read neighbor cell `ncell` has the chain color, either abort (the neighbor
has a liberty, `neighborCounts ≠ 4`) or mark it and append it to
`chainPoints`.  The `Bool` is the abort (goto revert) flag. -/
def mscExtend (chainColor : Nat) (st : board × Nat × Bool) (npt ncell : Nat) :
    board × Nat × Bool :=
  match st with
  | (b, chainCount, true) => (b, chainCount, true)
  | (b, chainCount, false) =>
    if ncell = chainColor then
      if b.neighborCounts npt ≠ 4 then (b, chainCount, true)
      else
        ({ b with
            chainPoints := setC b.chainPoints chainCount npt
            cells := setC b.cells npt (b.cells npt ||| CELL_IN_CHAIN) },
          chainCount + 1, false)
    else (b, chainCount, false)

/-- One iteration of `markSurroundedChain`'s visit loop: the four neighbor
cells are read up front, then the four extension blocks run in order. -/
def mscVisit (b : board) (chainColor thisPt chainCount : Nat) : board × Nat × Bool :=
  let rc := b.cells (thisPt + 1)
  let lc := b.cells (thisPt - 1)
  let uc := b.cells (thisPt + b.stride)
  let dc := b.cells (thisPt - b.stride)
  mscExtend chainColor
    (mscExtend chainColor
      (mscExtend chainColor
        (mscExtend chainColor (b, chainCount, false) (thisPt + 1) rc)
        (thisPt - 1) lc)
      (thisPt + b.stride) uc)
    (thisPt - b.stride) dc

/-- The `revert:` loop of `markSurroundedChain` (also the unmark loop of
`hasLiberties`): XOR the mark off the first `chainCount` chain points. -/
def mscRevert (b : board) (chainCount : Nat) : board :=
  { b with
      cells :=
        (List.range chainCount).foldl
          (fun f i => setC f (b.chainPoints i) (f (b.chainPoints i) ^^^ CELL_IN_CHAIN))
          b.cells }

/-- The visit loop of `markSurroundedChain`.  The Go loop terminates because
each iteration advances `visitedCount` and `chainCount` is bounded by the
number of playable points; the fuel makes that bound explicit and
`mscLoop_fuel` below proves the fuel branch is never taken from a well-formed
call. -/
def mscLoop (b : board) (chainColor visited chainCount fuel : Nat) : board × Nat :=
  if visited < chainCount then
    match fuel with
    | 0 => (mscRevert b chainCount, 0)
    | fuel + 1 =>
      match mscVisit b chainColor (b.chainPoints visited) chainCount with
      | (b1, cc1, true) => (mscRevert b1 cc1, 0)
      | (b1, cc1, false) => mscLoop b1 chainColor (visited + 1) cc1 fuel
  else (b, chainCount)

/-- `markSurroundedChain(target)`: mark and collect `target`, then run the
visit loop. -/
def markSurroundedChain (b : board) (target : Nat) : board × Nat :=
  let chainColor := b.cells target
  let b0 :=
    { b with
        chainPoints := setC b.chainPoints 0 target
        cells := setC b.cells target (b.cells target ||| CELL_IN_CHAIN) }
  mscLoop b0 chainColor 0 1 (b.size * b.size + 1)

/-- Remove the stone at `q` and decrement its four neighbor counts
(the body of `capture`'s removal loop). -/
def removePoint (bb : board) (q : Nat) : board :=
  { bb with
      cells := setC bb.cells q EMPTY
      neighborCounts :=
        bumpI (bumpI (bumpI (bumpI bb.neighborCounts (q + 1) (-1)) (q - 1) (-1))
          (q + bb.stride) (-1)) (q - bb.stride) (-1) }

/-- `capture(target)`: mark the surrounded chain, then remove each collected
chain point from the board. -/
def capture (b : board) (target : Nat) : board × Nat :=
  let (b1, chainCount) := markSurroundedChain b target
  ((List.range chainCount).foldl (fun bb i => removePoint bb (bb.chainPoints i)) b1,
    chainCount)

/-- `hasLiberties(target)`: a zero result from `markSurroundedChain` means the
chain has a liberty; otherwise unmark the chain and report no liberties. -/
def hasLiberties (b : board) (target : Nat) : Bool × board :=
  let (b1, chainCount) := markSurroundedChain b target
  if chainCount = 0 then (true, b1)
  else (false, mscRevert b1 chainCount)

/-- Place `friendly` at `move` and increment the neighbor counts
(in source order `move-1, move+1, move-stride, move+stride`). -/
def placeStone (b : board) (move friendly : Nat) : board :=
  { b with
      cells := setC b.cells move friendly
      neighborCounts :=
        bumpI (bumpI (bumpI (bumpI b.neighborCounts (move - 1) 1) (move + 1) 1)
          (move - b.stride) 1) (move + b.stride) 1 }

/-- One direction of `makeMove`'s capture scan: capture the neighbor chain if
it is an enemy stone with no liberties (`neighborCounts = 4`). -/
def captureStep (enemy : Nat) (st : board × Nat) (npt : Nat) : board × Nat :=
  if st.1.cells npt = enemy ∧ st.1.neighborCounts npt = 4 then
    let (b1, c) := capture st.1 npt
    (b1, st.2 + c)
  else st

/-- `makeMove`'s capture scan over the four directions (`dirOffset` order). -/
def captureLoop (b : board) (move enemy : Nat) : board × Nat :=
  [move + 1, move - 1, move + b.stride, move - b.stride].foldl (captureStep enemy) (b, 0)

/-- Append a recorded move: `b.moves[b.moveCount] = m; b.moveCount++`. -/
def recordMove (b : board) (m : Nat) : board :=
  { b with moves := setC b.moves b.moveCount m, moveCount := b.moveCount + 1 }

/-- The `revert:` tail of `makeMove`: remove the placed stone and decrement
the neighbor counts (`move & MOVE_TO_PT_MASK` is `move % 1024`). -/
def revertPlace (b : board) (move : Nat) : board :=
  { b with
      cells := setC b.cells move EMPTY
      neighborCounts :=
        bumpI (bumpI (bumpI (bumpI b.neighborCounts (move % 1024 + 1) (-1))
          (move % 1024 - 1) (-1)) (move % 1024 + b.stride) (-1))
          (move % 1024 - b.stride) (-1) }

/-- `wouldFillEye`: true iff playing `move` would fill a one-point eye — all
four orthogonal neighbors are friendly stones or `EDGE` (the Go loop returns
false at the first offender), and among the diagonal neighbors the number of
enemy stones plus one if any is an `EDGE` stays below 2. -/
def wouldFillEye (b : board) (move : Nat) : Bool :=
  if move = PASS then false
  else
    let friendlyStone := 2 - b.moveCount % 2
    let enemyStone := friendlyStone ^^^ 3
    if (b.cells (move + 1) = EDGE ∨ b.cells (move + 1) = friendlyStone) ∧
        (b.cells (move - 1) = EDGE ∨ b.cells (move - 1) = friendlyStone) ∧
        (b.cells (move + b.stride) = EDGE ∨ b.cells (move + b.stride) = friendlyStone) ∧
        (b.cells (move - b.stride) = EDGE ∨ b.cells (move - b.stride) = friendlyStone) then
      decide (((diagNbrs b.stride move).countP fun n => b.cells n == enemyStone) +
        (if (diagNbrs b.stride move).any (fun n => b.cells n == EDGE) then 1 else 0) < 2)
    else false

/-- `board.makeMove`, the playout-grade move executor: pass, occupied check,
tentative placement, capture scan, suicide check, simple-ko check, record. -/
def makeMove (b : board) (move : Nat) : moveResult × Nat × board :=
  let friendlyStone := 2 - b.moveCount % 2
  let enemyStone := friendlyStone ^^^ 3
  if move = PASS then (.passed, 0, recordMove b PASS)
  else if b.cells move ≠ EMPTY then (.occupied, 0, b)
  else
    let b1 := placeStone b move friendlyStone
    let (b2, captures) := captureLoop b1 move enemyStone
    if captures = 0 then
      if b2.neighborCounts move = 4 then
        match hasLiberties b2 move with
        | (true, b3) => (.played, captures, recordMove b3 move)
        | (false, b3) => (.suicide, 0, revertPlace b3 move)
      else (.played, captures, recordMove b2 move)
    else if captures = 1 then
      let lastMove := b2.moves (b2.moveCount - 1)
      if lastMove.testBit 10 ∧ b2.cells (lastMove % 1024) = EMPTY then
        let revertPt := lastMove % 1024
        let b3 :=
          { b2 with
              cells := setC b2.cells revertPt enemyStone
              neighborCounts :=
                bumpI (bumpI (bumpI (bumpI b2.neighborCounts (revertPt % 1024 + 1) 1)
                  (revertPt % 1024 - 1) 1) (revertPt % 1024 + b2.stride) 1)
                  (revertPt % 1024 - b2.stride) 1 }
        (.ko, 0, revertPlace b3 move)
      else (.played, captures, recordMove b2 (ONE_CAPTURE + move))
    else (.played, captures, recordMove b2 move)

/-! ## Specification-side notions and invariants -/

/-- Indicator: the cell at `n` is not `EMPTY` (an `EDGE` counts). -/
def nonEmptyInd (b : board) (n : Nat) : Int :=
  if b.cells n = EMPTY then 0 else 1

/-- The number of the four orthogonal neighbors of `p` whose cell is not
`EMPTY` — the value `neighborCounts[p]` is supposed to track. -/
def countNbr (b : board) (p : Nat) : Int :=
  nonEmptyInd b (p + 1) + nonEmptyInd b (p - 1) +
    nonEmptyInd b (p + b.stride) + nonEmptyInd b (p - b.stride)

/-- Structural well-formedness of a board: documented size/stride relation,
cells typed (`EMPTY`/`WHITE`/`BLACK` on playable points, `EDGE` elsewhere —
in particular no cell carries the `CELL_IN_CHAIN` mark), and correct
incremental neighbor counts. -/
structure StrInv (b : board) : Prop where
  size_le : b.size ≤ 25
  stride_eq : b.stride = b.size + 1
  cells_play : ∀ p, playablePt b.size b.stride p →
    b.cells p = EMPTY ∨ b.cells p = WHITE ∨ b.cells p = BLACK
  cells_nonplay : ∀ p, ¬ playablePt b.size b.stride p → b.cells p = EDGE
  counts_inv : ∀ p, p < boardLen b → b.neighborCounts p = countNbr b p

/-- Honesty of the simple-ko flag: if the last recorded move carries the
one-capture flag then the point it records is still occupied.  This holds in
any honest game history (the flagged move just placed a stone there) and is
what makes the ko-revert in `makeMove` exact. -/
def KoInv (b : board) : Prop :=
  (b.moves (b.moveCount - 1)).testBit 10 = true →
    b.cells (b.moves (b.moveCount - 1) % 1024) ≠ EMPTY

/-- Equality of the game-visible board state: cells, neighbor counts, move
history and move count (the scratch `chainPoints` buffer is excluded). -/
def EqG (b1 b2 : board) : Prop :=
  b1.cells = b2.cells ∧ b1.neighborCounts = b2.neighborCounts ∧
    b1.moves = b2.moves ∧ b1.moveCount = b2.moveCount

/-- Indicator used to count update hits. -/
def ind (c : Prop) [Decidable c] : Int := if c then 1 else 0

/-- Hits of the four decrement/increment sites of a move at `q` on index `p`. -/
def hit4 (stride q p : Nat) : Int :=
  ind (p = q + 1) + ind (p = q - 1) + ind (p = q + stride) + ind (p = q - stride)

/-- Occurrences of `q` among the four orthogonal neighbors of `p`. -/
def nbrInd (stride p q : Nat) : Int :=
  ind (p + 1 = q) + ind (p - 1 = q) + ind (p + stride = q) + ind (p - stride = q)

/-! ## Chains: specification-level reachability and the traversal invariant -/

/-- Specification-level chain membership: `q` is connected to `s` through
orthogonally adjacent cells of color `c` (the glossary notion of a chain). -/
def ChainReach (b : board) (c s q : Nat) : Prop :=
  Relation.ReflTransGen (fun p q => q ∈ orthNbrs b.stride p ∧ b.cells q = c) s q

/-- The first `cc` entries of the `chainPoints` scratch buffer. -/
def chainList (b : board) (cc : Nat) : List Nat :=
  (List.range cc).map b.chainPoints

/-- Invariant of `markSurroundedChain`'s visit loop, stated against the board
`borig` at entry to `markSurroundedChain`.  The collected chain points are
distinct playable stones of the chain color, currently marked and otherwise
untouched; points before `visited` have all their same-colored neighbors
collected; all collected points except the seed have full neighbor counts;
and every collected point belongs to the chain of `target`. -/
structure MscSt (borig b : board) (c target visited cc : Nat) : Prop where
  hvc : visited ≤ cc
  hcc1 : 1 ≤ cc
  target0 : b.chainPoints 0 = target
  nodup : (chainList b cc).Nodup
  mem_play : ∀ q ∈ chainList b cc, playablePt borig.size borig.stride q
  mem_cell : ∀ q ∈ chainList b cc, borig.cells q = c
  cells_eq : ∀ p, b.cells p =
    if p ∈ chainList b cc then c ||| CELL_IN_CHAIN else borig.cells p
  counts_eq : b.neighborCounts = borig.neighborCounts
  moves_eq : b.moves = borig.moves
  mc_eq : b.moveCount = borig.moveCount
  cmc_eq : b.commonMoveCount = borig.commonMoveCount
  size_eq : b.size = borig.size
  stride_eq : b.stride = borig.stride
  closure : ∀ i < visited, ∀ n ∈ orthNbrs borig.stride (b.chainPoints i),
    borig.cells n = c → n ∈ chainList b cc
  counts4 : ∀ i, 0 < i → i < cc → borig.neighborCounts (b.chainPoints i) = 4
  reach : ∀ q ∈ chainList b cc, ChainReach borig c target q

/-- Typing of non-playable cells: the only precondition on the original board
the traversal needs. -/
def CellsOK (b : board) : Prop :=
  ∀ p, ¬ playablePt b.size b.stride p → b.cells p = EDGE

/-- Outcome of `markSurroundedChain` on `borig`: either nothing happened
(except `chainPoints` scribbling) and the chain of `target` has a member with
a liberty, or the full invariant holds with every point visited. -/
def MscOut (borig b' : board) (c target n : Nat) : Prop :=
  (n = 0 ∧ (∀ p, b'.cells p = borig.cells p) ∧
    b'.neighborCounts = borig.neighborCounts ∧ b'.moves = borig.moves ∧
    b'.moveCount = borig.moveCount ∧ b'.commonMoveCount = borig.commonMoveCount ∧
    b'.size = borig.size ∧ b'.stride = borig.stride ∧
    ∃ q, ChainReach borig c target q ∧ borig.cells q = c ∧
      borig.neighborCounts q ≠ 4) ∨
  (1 ≤ n ∧ MscSt borig b' c target n n)

/-- Decrement the neighbor counts of the four orthogonal neighbors of `q`
(the count effect of removing the stone at `q`). -/
def dec4 (f : Nat → Int) (q stride : Nat) : Nat → Int :=
  bumpI (bumpI (bumpI (bumpI f (q + 1) (-1)) (q - 1) (-1)) (q + stride) (-1))
    (q - stride) (-1)

/-- Invariant of `makeMove`'s capture scan relative to the board `b1` after
stone placement: `R` is the cumulative list of removed enemy stones. -/
def CapInv (b1 : board) (enemy : Nat) (R : List Nat) (bmid : board) : Prop :=
  R.Nodup ∧
  (∀ q ∈ R, playablePt b1.size b1.stride q ∧ b1.cells q = enemy) ∧
  (∀ p, bmid.cells p = if p ∈ R then EMPTY else b1.cells p) ∧
  bmid.neighborCounts =
    R.foldl (fun f q => dec4 f q b1.stride) b1.neighborCounts ∧
  bmid.moves = b1.moves ∧ bmid.moveCount = b1.moveCount ∧
  bmid.commonMoveCount = b1.commonMoveCount ∧ bmid.size = b1.size ∧
  bmid.stride = b1.stride

/-- The simple-ko revert board built inside `makeMove` (before the placed
stone itself is removed): the previously captured stone is put back and its
neighbor counts are restored. -/
def koRevertBoard (b2 : board) (enemyStone : Nat) : board :=
  let lastMove := b2.moves (b2.moveCount - 1)
  let revertPt := lastMove % 1024
  { b2 with
      cells := setC b2.cells revertPt enemyStone
      neighborCounts :=
        bumpI (bumpI (bumpI (bumpI b2.neighborCounts (revertPt % 1024 + 1) 1)
          (revertPt % 1024 - 1) 1) (revertPt % 1024 + b2.stride) 1)
          (revertPt % 1024 - b2.stride) 1 }

/-! ## `playRandomGame` -/

/-- A source of randomness: `f t n` is the raw value of the `t`-th call to
`Intn n`.  The interface contract (a result in `[0, n)`) is imposed by the
explicit `% n`, matching the provided implementation `int63 % n`. -/
structure Rng where
  f : Nat → Nat → Nat

/-- `rand.Intn(n)` at call counter `t`. -/
def intn (r : Rng) (t n : Nat) : Nat := r.f t n % n

inductive PrgEvent where
  | captured
  | moved
  | passedTurn
  deriving DecidableEq

/-- The candidate scan of `playRandomGame`'s `played:` loop, from index
`i = candCount - r`: pick a uniformly random remaining candidate, swap it to
the front, skip it if it would fill an eye, and try to play it.  The scan
returns at the first move made: a capturing play, a plain play, or the pass
played when no candidate worked.  `t` is the randomness call counter. -/
def prgScan (rng : Rng) (candCount : Nat) :
    Nat → board → Nat → (Nat → Nat) → board × Nat × (Nat → Nat) × PrgEvent
  | 0, b, t, cand => ((makeMove b PASS).2.2, t, cand, .passedTurn)
  | r + 1, b, t, cand =>
    let i := candCount - (r + 1)
    let randomIndex := i + intn rng t (candCount - i)
    let randomPt := cand randomIndex
    let cand' := setC (setC cand randomIndex (cand i)) i randomPt
    if wouldFillEye b randomPt then prgScan rng candCount r b (t + 1) cand'
    else
      match makeMove b randomPt with
      | (res, caps, b') =>
        if res = .played then
          if 0 < caps then (b', t + 1, cand', .captured)
          else (b', t + 1, cand', .moved)
        else prgScan rng candCount r b' (t + 1) cand'

/-- The `played:` loop of `playRandomGame`, running the candidate scan while
`moveCount < maxMoves`; a capture restarts with a fresh candidate collection,
two consecutive passes end the game.  The fuel bounds the number of moves
still allowed; `playRandomGame` supplies enough for the fuel branch to be
unreachable (`prgPlayed_spec`). -/
def prgPlayed (rng : Rng) (maxMoves : Nat) :
    Nat → Nat → (Nat → Nat) → Nat → Nat → board → Nat → Option (board × Nat)
  | 0, _, _, _, _, b, t =>
    if b.moveCount < maxMoves then none else some (b, t)
  | fuel + 1, candCount, cand, playedCount, passedCount, b, t =>
    if b.moveCount < maxMoves then
      match prgScan rng candCount (candCount - playedCount) b t cand with
      | (b', t', cand', ev) =>
        match ev with
        | .captured =>
          let cands := (allPoints b'.size b'.stride).filter fun p =>
            b'.cells p == EMPTY
          prgPlayed rng maxMoves fuel cands.length (fun i => cands.getD i 0)
            0 0 b' t'
        | .moved =>
          prgPlayed rng maxMoves fuel candCount cand' (playedCount + 1) 0 b' t'
        | .passedTurn =>
          if passedCount + 1 = 2 then some (b', t')
          else prgPlayed rng maxMoves fuel candCount cand' playedCount
            (passedCount + 1) b' t'
    else some (b, t)

/-- Entry into the `captured:` loop: collect the empty points as candidates
and run the `played:` loop. -/
def prgCollect (rng : Rng) (maxMoves fuel : Nat) (b : board) (t : Nat) :
    Option (board × Nat) :=
  let cands := (allPoints b.size b.stride).filter fun p => b.cells p == EMPTY
  prgPlayed rng maxMoves fuel cands.length (fun i => cands.getD i 0) 0 0 b t

/-- `playRandomGame`, with the explicit fuel `maxMoves + 1` (one fuel per
move made; proven sufficient in `prgPlayed_spec`). -/
def playRandomGame (b : board) (rng : Rng) (t : Nat) : board × Nat :=
  let maxMoves := (allPoints b.size b.stride).length * 3
  match prgCollect rng maxMoves (maxMoves + 1) b t with
  | some result => result
  | none => (b, t)

/-- The game ends with two consecutive passes on record. -/
def lastTwoPass (b : board) : Prop :=
  2 ≤ b.moveCount ∧ b.moves (b.moveCount - 1) = PASS ∧
    b.moves (b.moveCount - 2) = PASS

/-- The states reachable from `clearBoard` by any sequence of `makeMove`,
`capture` (under its documented precondition of an occupied target) and
`playRandomGame` operations. -/
inductive Reach : board → Prop where
  | base {n : Nat} (h : n ≤ 25) : Reach (clearBoard n)
  | mk {b : board} (move : Nat) (h : Reach b) : Reach (makeMove b move).2.2
  | cap {b : board} {target : Nat}
      (hc : b.cells target = WHITE ∨ b.cells target = BLACK) (h : Reach b) :
      Reach (capture b target).1
  | prg {b : board} (rng : Rng) (t : Nat) (h : Reach b) :
      Reach (playRandomGame b rng t).1

/-- The states reachable from `clearBoard` by game-level operations only
(`makeMove` and `playRandomGame`, no raw `capture`). -/
inductive ReachG : board → Prop where
  | base {n : Nat} (h : n ≤ 25) : ReachG (clearBoard n)
  | mk {b : board} (move : Nat) (h : ReachG b) : ReachG (makeMove b move).2.2
  | prg {b : board} (rng : Rng) (t : Nat) (h : ReachG b) :
      ReachG (playRandomGame b rng t).1

/-! ## Spec-level liberties -/

/-- The chain of the stone at `p` has a liberty: some chain stone has an
orthogonally adjacent `EMPTY` cell. -/
def ChainHasLiberty (b : board) (p : Nat) : Prop :=
  ∃ q r, ChainReach b (b.cells p) p q ∧ r ∈ orthNbrs b.stride q ∧
    b.cells r = EMPTY

/-! ## The robot -/

/-- `board.copyFrom(other)`: copy cells and neighbor counts at the playable
points, top off the move list from `commonMoveCount`, and synchronize the
move counts.  (The scratch `chainPoints` buffer and the non-playable entries
are not copied.) -/
def copyFrom (b other : board) : board :=
  { b with
      cells := fun p =>
        if playablePt b.size b.stride p then other.cells p else b.cells p
      neighborCounts := fun p =>
        if playablePt b.size b.stride p then other.neighborCounts p
        else b.neighborCounts p
      moves := fun i =>
        if b.commonMoveCount ≤ i ∧ i < other.moveCount then other.moves i
        else b.moves i
      moveCount := other.moveCount
      commonMoveCount := other.moveCount }

/-- The per-point contribution category of `getEasyScore`: occupied cells
count as their color; empty cells count as the OR of their four neighbors
masked to the color bits (`& 3`). -/
def scoreContrib (b : board) (p : Nat) : Nat :=
  if b.cells p = BLACK ∨ b.cells p = WHITE then b.cells p
  else if b.cells p = EMPTY then
    (b.cells (p + 1) ||| b.cells (p - 1) ||| b.cells (p + b.stride) |||
      b.cells (p - b.stride)) % 4
  else 0

/-- `getEasyScore`: black points minus white points under the area count of
the source (empty points surrounded by exactly one color count for it). -/
def getEasyScore (b : board) : Int :=
  ((allPoints b.size b.stride).countP fun p => scoreContrib b p == BLACK : Nat) -
    ((allPoints b.size b.stride).countP fun p => scoreContrib b p == WHITE : Nat)

/-- The `robot` struct.  `randomness` carries the pure random source; `rngT`
is the running call counter of the stateful `rand` object it stands for.
(The `board` field is named `rboard` because a field cannot shadow its own
type name.) -/
structure robot where
  rboard : board
  randomness : Rng
  rngT : Nat
  komi : Rat
  sampleCount : Nat
  boardHashes : Nat → Nat
  scratchBoard : board
  candidates : Nat → Nat
  wins : Nat → Int
  hits : Nat → Nat
  updated : Nat → Nat

/-- `robot.SetBoardSize` (success path `newSize ≤ 25`): clear both boards and
zero the hash history and the statistics arrays. -/
def setBoardSize (r : robot) (newSize : Nat) : robot :=
  { r with
      rboard := clearBoard newSize
      scratchBoard := clearBoard newSize
      boardHashes := fun _ => 0
      candidates := fun _ => 0
      wins := fun _ => 0
      hits := fun _ => 0
      updated := fun _ => 0 }

/-- `robot.checkLegalMove`: try the move on the scratch board (synchronized
via `copyFrom`); a `played` outcome whose position hash matches any entry of
`boardHashes[0..moveCount)` is reported as `superko`. -/
def checkLegalMove (r : robot) (move : Nat) : moveResult × robot :=
  let sb := copyFrom r.scratchBoard r.rboard
  match makeMove sb move with
  | (result, _, sb2) =>
    let r2 := { r with scratchBoard := sb2 }
    if result = .played then
      let newHash := getHash sb2
      if (List.range r.rboard.moveCount).any fun i => newHash == r.boardHashes i
      then (.superko, r2)
      else (result, r2)
    else (result, r2)

/-- The strict `robot.makeMove`: reject anything `checkLegalMove` rejects,
otherwise play on the real board and record the new position hash.  The
`none` result is the `panic` branch (`checkLegalMove` said ok but the real
`makeMove` rejected). -/
def robot.makeMove (r : robot) (move : Nat) : Option (moveResult × Nat × robot) :=
  match checkLegalMove r move with
  | (chk, r1) =>
    if chk.ok = false then some (chk, 0, r1)
    else
      match Gongo.makeMove r1.rboard move with
      | (result, captures, b2) =>
        if result.ok = false then none
        else some (result, captures,
          { r1 with
              rboard := b2
              boardHashes :=
                setC r1.boardHashes (b2.moveCount - 1) (getHash b2) })

/-- The AMAF walk indices: from `start`, stride 2, while below `stop`. -/
def amafIndices (start stop : Nat) : List Nat :=
  (List.range ((stop - start + 1) / 2)).map fun k => start + 2 * k

/-- One step of the AMAF update on `(updated, wins, hits)`: extract the point
from the recorded move, skip it if already credited, otherwise mark it and
credit `winAmount` and one hit. -/
def amafUpdate (winAmount : Int)
    (st : (Nat → Nat) × (Nat → Int) × (Nat → Nat)) (mv : Nat) :
    (Nat → Nat) × (Nat → Int) × (Nat → Nat) :=
  let p := mv % 1024
  if st.1 p ≠ 0 then st
  else (setC st.1 p 1, setC st.2.1 p (st.2.1 p + winAmount),
    setC st.2.2 p (st.2.2 p + 1))

/-- The per-playout win amount: +1, -1 or 0 by comparing the scratch score
with the komi, negated when White is the side to move on the real board. -/
def winAmountOf (r : robot) (sb2 : board) : Int :=
  let score := getEasyScore sb2
  let winAmount0 : Int :=
    if (score : Rat) > r.komi then 1
    else if (score : Rat) < r.komi then -1 else 0
  if 2 - r.rboard.moveCount % 2 = WHITE then -winAmount0 else winAmount0

/-- One sample of `findWins`: copy the position to the scratch board, play a
random game, score it, choose the win amount for the color to move, and walk
the new part of the scratch move history with stride 2 crediting each
first-seen point. -/
def findWinsSample (r : robot) : robot :=
  let sb := copyFrom r.scratchBoard r.rboard
  match playRandomGame sb r.randomness r.rngT with
  | (sb2, t2) =>
    match (amafIndices r.rboard.moveCount sb2.moveCount).foldl
        (fun st i => amafUpdate (winAmountOf r sb2) st (sb2.moves i))
        (fun _ => 0, r.wins, r.hits) with
    | (upd, wins, hits) =>
      { r with
          scratchBoard := sb2
          rngT := t2
          wins := wins
          hits := hits
          updated := upd }

/-- `robot.findWins`: zero the statistics and run `numSamples` samples. -/
def findWins (r : robot) (numSamples : Nat) : robot :=
  (List.range numSamples).foldl (fun rr _ => findWinsSample rr)
    { r with wins := fun _ => 0, hits := fun _ => 0 }

/-- Play a sequence of moves (ignoring the reported results), as the tests
do to set up positions. -/
def playSeq (b : board) (ms : List Nat) : board :=
  ms.foldl (fun b m => (makeMove b m).2.2) b

instance (b : board) : Decidable (lastTwoPass b) := by
  unfold lastTwoPass
  infer_instance

/-! ## Weak structural invariant (for boards synchronized via `copyFrom`)

`copyFrom` copies cells and neighbor counts only at the playable points, so
the scratch board's counts at `EDGE` positions drift from the true values.
Those entries are never read, and the weak invariant below (counts correct at
playable points only) is what the copied board satisfies and what the
lockstep argument for `checkLegalMove` needs. -/

structure StrInvW (b : board) : Prop where
  stride_eq : b.stride = b.size + 1
  cells_play : ∀ p, playablePt b.size b.stride p →
    b.cells p = EMPTY ∨ b.cells p = WHITE ∨ b.cells p = BLACK
  cells_nonplay : ∀ p, ¬ playablePt b.size b.stride p → b.cells p = EDGE
  counts_invP : ∀ p, playablePt b.size b.stride p →
    b.neighborCounts p = countNbr b p

/-- The lockstep relation for `checkLegalMove`: equal sizes and strides,
pointwise equal cells, and the weak structural invariant on both sides
(counts correct at the playable points — where they are read). -/
def SimB (bA bB : board) : Prop :=
  bA.size = bB.size ∧ bA.stride = bB.stride ∧
  (∀ p, bA.cells p = bB.cells p) ∧ StrInvW bA ∧ StrInvW bB

theorem EqG.refl (b : board) : EqG b b := ⟨rfl, rfl, rfl, rfl⟩

theorem EqG.trans {a b c : board} (h1 : EqG a b) (h2 : EqG b c) : EqG a c :=
  ⟨h1.1.trans h2.1, h1.2.1.trans h2.2.1, h1.2.2.1.trans h2.2.2.1,
    h1.2.2.2.trans h2.2.2.2⟩

/-! ## Basic update lemmas -/

theorem setC_apply {α : Type} (f : Nat → α) (i : Nat) (v : α) (p : Nat) :
    setC f i v p = if p = i then v else f p := rfl

theorem bumpI_apply (f : Nat → Int) (i : Nat) (d : Int) (p : Nat) :
    bumpI f i d p = if p = i then f i + d else f p := rfl

theorem bump4_apply (f : Nat → Int) (a1 a2 a3 a4 : Nat) (d : Int) (p : Nat) :
    bumpI (bumpI (bumpI (bumpI f a1 d) a2 d) a3 d) a4 d p =
      f p + d * (ind (p = a1) + ind (p = a2) + ind (p = a3) + ind (p = a4)) := by
  simp only [bumpI, ind]
  split_ifs <;> simp_all <;> ring

theorem foldl_dec4_apply (stride : Nat) (l : List Nat) (f : Nat → Int) (p : Nat) :
    (l.foldl
      (fun g q =>
        bumpI (bumpI (bumpI (bumpI g (q + 1) (-1)) (q - 1) (-1)) (q + stride) (-1))
          (q - stride) (-1)) f) p
      = f p - (l.map fun q => hit4 stride q p).sum := by
  induction l generalizing f with
  | nil => simp
  | cons a l ih =>
    simp only [List.foldl_cons, List.map_cons, List.sum_cons]
    rw [ih, bump4_apply, hit4]
    ring

/-- For a playable `q` (so `q ≥ stride + 1` and `stride ≥ 2`), being an
update site of `q` is the same as having `q` as an orthogonal neighbor. -/
theorem hit4_eq_nbrInd {size stride : Nat} {q : Nat} (hs : stride = size + 1)
    (hq : playablePt size stride q) (p : Nat) :
    hit4 stride q p = nbrInd stride p q := by
  have hstride : 2 ≤ stride := by
    rcases hq with ⟨h1, h2, h3, h4⟩
    omega
  have hq' : stride + 1 ≤ q := by
    rcases hq with ⟨h1, h2, h3, h4⟩
    have := Nat.div_add_mod q stride
    nlinarith [Nat.div_add_mod q stride]
  unfold hit4 nbrInd ind
  have e1 : (if p = q + 1 then (1:Int) else 0) = if p - 1 = q then 1 else 0 := by
    split_ifs <;> omega
  have e2 : (if p = q - 1 then (1:Int) else 0) = if p + 1 = q then 1 else 0 := by
    split_ifs <;> omega
  have e3 : (if p = q + stride then (1:Int) else 0) = if p - stride = q then 1 else 0 := by
    split_ifs <;> omega
  have e4 : (if p = q - stride then (1:Int) else 0) = if p + stride = q then 1 else 0 := by
    split_ifs <;> omega
  rw [e1, e2, e3, e4]
  ring

/-! ## Playable points and `allPoints` -/

theorem mem_allPoints {size stride p : Nat} (h : size < stride) :
    p ∈ allPoints size stride ↔ playablePt size stride p := by
  unfold allPoints makePt playablePt
  simp only [List.mem_flatMap, List.mem_map, List.mem_range]
  constructor
  · rintro ⟨y, ⟨y0, hy0, rfl⟩, x, ⟨x0, hx0, rfl⟩, rfl⟩
    have hx : x0 + 1 < stride := by omega
    have hmod : ((y0 + 1) * stride + (x0 + 1)) % stride = x0 + 1 := by
      rw [Nat.add_comm, Nat.mul_comm, Nat.add_mul_mod_self_left,
        Nat.mod_eq_of_lt hx]
    have hdiv : ((y0 + 1) * stride + (x0 + 1)) / stride = y0 + 1 := by
      rw [Nat.add_comm, Nat.mul_comm, Nat.add_mul_div_left _ _ (by omega : 0 < stride),
        Nat.div_eq_of_lt hx]
      omega
    refine ⟨?_, ?_, ?_, ?_⟩ <;> omega
  · rintro ⟨h1, h2, h3, h4⟩
    refine ⟨p / stride, ⟨p / stride - 1, by omega, by omega⟩,
      p % stride, ⟨p % stride - 1, by omega, by omega⟩, ?_⟩
    have h5 := Nat.div_add_mod p stride
    have h6 : stride * (p / stride) = p / stride * stride := Nat.mul_comm _ _
    omega

theorem allPoints_nodup {size stride : Nat} (h : size < stride) :
    (allPoints size stride).Nodup := by
  unfold allPoints
  rw [List.nodup_flatMap]
  constructor
  · intro y hy
    refine List.Nodup.map ?_ (List.Nodup.map ?_ (List.nodup_range size))
    · intro a b hab
      simp only [makePt] at hab
      omega
    · intro a b hab
      simpa using hab
  · rw [List.pairwise_map]
    refine List.Pairwise.imp ?_ (List.pairwise_lt_range size)
    intro a b hab
    simp only [Function.onFun, List.disjoint_left, List.mem_map, List.mem_range]
    rintro x ⟨x1, ⟨x1b, hx1b, rfl⟩, rfl⟩ ⟨x2, ⟨x2b, hx2b, rfl⟩, hx⟩
    simp only [makePt] at hx
    nlinarith

theorem allPoints_length (size stride : Nat) :
    (allPoints size stride).length = size * size := by
  unfold allPoints
  rw [List.length_flatMap]
  have h1 :
      List.map
          (List.length ∘ fun y => List.map (fun x => makePt stride x y)
            (List.map (fun x => x + 1) (List.range size)))
        (List.map (fun x => x + 1) (List.range size)) =
      List.map (fun _ => size) ((List.range size).map (· + 1)) := by
    apply List.map_congr_left
    intro y hy
    simp [Function.comp]
  rw [h1]
  rw [List.map_const', List.sum_replicate]
  simp [Nat.mul_comm]

/-- A playable point is at least `stride + 1` and small enough that all of
its orthogonal and diagonal neighbors stay below `boardLen`. -/
theorem playable_bounds {size stride p : Nat} (hs : stride = size + 1)
    (hp : playablePt size stride p) :
    stride + 1 ≤ p ∧ p + stride + 1 ≤ stride * (stride + 1) := by
  rcases hp with ⟨h1, h2, h3, h4⟩
  have hd := Nat.div_add_mod p stride
  have hlt : p % stride < stride := Nat.mod_lt _ (by omega)
  constructor
  · nlinarith
  · nlinarith

/-- On boards of size at most 25 every playable point is below 1024, so the
`MOVE_TO_PT_MASK` extraction (`% 1024`) is the identity on it. -/
theorem playable_lt_1024 {size stride p : Nat} (hs : stride = size + 1)
    (h25 : size ≤ 25) (hp : playablePt size stride p) : p < 1024 := by
  rcases hp with ⟨h1, h2, h3, h4⟩
  have hd := Nat.div_add_mod p stride
  have hlt : p % stride < stride := Nat.mod_lt _ (by omega)
  nlinarith

/-! ## `clearBoard` establishes the invariants -/

theorem sum_map_add {α : Type} (l : List α) (f g : α → Int) :
    (l.map fun x => f x + g x).sum = (l.map f).sum + (l.map g).sum := by
  induction l with
  | nil => simp
  | cons a l ih => simp [ih]; ring

theorem sum_ind_not_mem {l : List Nat} {c : Nat} (h : c ∉ l) :
    (l.map fun q => ind (c = q)).sum = 0 := by
  induction l with
  | nil => simp
  | cons a l ih =>
    simp only [List.mem_cons, not_or] at h
    rw [List.map_cons, List.sum_cons, ih h.2]
    simp [ind, h.1]

theorem sum_ind_mem (l : List Nat) (hnd : l.Nodup) (c : Nat) :
    (l.map fun q => ind (c = q)).sum = ind (c ∈ l) := by
  induction l with
  | nil => simp [ind]
  | cons a l ih =>
    rcases List.nodup_cons.mp hnd with ⟨ha, hl⟩
    by_cases hc : c = a
    · subst hc
      rw [List.map_cons, List.sum_cons, sum_ind_not_mem ha]
      simp [ind]
    · rw [List.map_cons, List.sum_cons, ih hl]
      simp [ind, hc, List.mem_cons]

theorem boardLen_clearBoard (n : Nat) :
    boardLen (clearBoard n) = (n + 1) * ((n + 1) + 1) + 1 := rfl

theorem clearBoard_cells (n p : Nat) :
    (clearBoard n).cells p = if playablePt n (n + 1) p then EMPTY else EDGE := rfl

theorem nonEmptyInd_clearBoard (n site : Nat) :
    nonEmptyInd (clearBoard n) site = 1 - ind (playablePt n (n + 1) site) := by
  rw [nonEmptyInd, clearBoard_cells, ind]
  split_ifs <;> simp_all [EMPTY, EDGE]

theorem clearBoard_counts (n p : Nat) (hp : p < boardLen (clearBoard n)) :
    (clearBoard n).neighborCounts p = countNbr (clearBoard n) p := by
  have hcounts : (clearBoard n).neighborCounts p =
      (if p < (n + 1) * ((n + 1) + 1) + 1 then (4:Int) else 0) -
        ((allPoints n (n + 1)).map fun q => hit4 (n + 1) q p).sum :=
    foldl_dec4_apply (n + 1) (allPoints n (n + 1))
      (fun p => if p < (n + 1) * ((n + 1) + 1) + 1 then (4:Int) else 0) p
  have hmap : ((allPoints n (n + 1)).map fun q => hit4 (n + 1) q p) =
      (allPoints n (n + 1)).map fun q => nbrInd (n + 1) p q := by
    apply List.map_congr_left
    intro q hq
    exact hit4_eq_nbrInd rfl ((mem_allPoints (by omega)).mp hq) p
  have hnd : (allPoints n (n + 1)).Nodup := allPoints_nodup (by omega)
  have hsum : ((allPoints n (n + 1)).map fun q => nbrInd (n + 1) p q).sum =
      ind (playablePt n (n + 1) (p + 1)) + ind (playablePt n (n + 1) (p - 1)) +
        ind (playablePt n (n + 1) (p + (n + 1))) + ind (playablePt n (n + 1) (p - (n + 1))) := by
    unfold nbrInd
    rw [sum_map_add, sum_map_add, sum_map_add,
      sum_ind_mem _ hnd, sum_ind_mem _ hnd, sum_ind_mem _ hnd, sum_ind_mem _ hnd]
    have hmem : ∀ c, ind (c ∈ allPoints n (n + 1)) = ind (playablePt n (n + 1) c) := by
      intro c
      unfold ind
      split_ifs with h1 h2 <;> first
        | rfl
        | exact absurd ((mem_allPoints (by omega)).mp h1) h2
        | exact absurd ((mem_allPoints (by omega)).mpr ‹_›) h1
    rw [hmem, hmem, hmem, hmem]
  rw [hcounts, hmap, hsum]
  rw [boardLen_clearBoard] at hp
  have hlt : p < (n + 1) * ((n + 1) + 1) + 1 := by omega
  rw [if_pos hlt]
  show _ = countNbr (clearBoard n) p
  unfold countNbr
  have hstr : (clearBoard n).stride = n + 1 := rfl
  rw [hstr, nonEmptyInd_clearBoard, nonEmptyInd_clearBoard, nonEmptyInd_clearBoard,
    nonEmptyInd_clearBoard]
  ring

theorem strInv_clearBoard {n : Nat} (h : n ≤ 25) : StrInv (clearBoard n) where
  size_le := h
  stride_eq := rfl
  cells_play := by
    intro p hp
    rw [clearBoard_cells, if_pos (show playablePt n (n + 1) p from hp)]
    left; rfl
  cells_nonplay := by
    intro p hp
    rw [clearBoard_cells, if_neg (show ¬ playablePt n (n + 1) p from hp)]
  counts_inv := fun p hp => clearBoard_counts n p hp

theorem koInv_clearBoard (n : Nat) : KoInv (clearBoard n) := by
  intro h
  have : (0 : Nat).testBit 10 = false := Nat.zero_testBit 10
  exact absurd h (by rw [show (clearBoard n).moves ((clearBoard n).moveCount - 1) = 0 from rfl, this]; simp)

theorem chainList_succ (b : board) (cc : Nat) :
    chainList b (cc + 1) = chainList b cc ++ [b.chainPoints cc] := by
  simp [chainList, List.range_succ]

theorem chainList_length (b : board) (cc : Nat) : (chainList b cc).length = cc := by
  simp [chainList]

theorem mem_chainList {b : board} {cc q : Nat} :
    q ∈ chainList b cc ↔ ∃ i < cc, b.chainPoints i = q := by
  simp [chainList]

theorem mark_ne_of_color {c : Nat} (hc : c = WHITE ∨ c = BLACK) :
    c ||| CELL_IN_CHAIN ≠ c := by
  rcases hc with h | h <;> subst h <;> decide

theorem mark_xor_of_color {c : Nat} (hc : c = WHITE ∨ c = BLACK) :
    (c ||| CELL_IN_CHAIN) ^^^ CELL_IN_CHAIN = c := by
  rcases hc with h | h <;> subst h <;> decide

/-- Unwinding the mark-revert loop: if the current cells are exactly the
original ones with the collected chain marked, the revert restores the
original cells pointwise. -/
theorem mscRevert_cells {borig b : board} {c target visited cc : Nat}
    (hc : c = WHITE ∨ c = BLACK)
    (hst : MscSt borig b c target visited cc) :
    ∀ p, (mscRevert b cc).cells p = borig.cells p := by
  have key : ∀ k ≤ cc, ∀ p,
      ((List.range k).foldl
        (fun f i => setC f (b.chainPoints i) (f (b.chainPoints i) ^^^ CELL_IN_CHAIN))
        b.cells) p =
      if p ∈ chainList b k then borig.cells p else b.cells p := by
    intro k
    induction k with
    | zero => intro _ p; simp [chainList]
    | succ k ih =>
      intro hk p
      rw [List.range_succ, List.foldl_append]
      simp only [List.foldl_cons, List.foldl_nil]
      rw [setC_apply]
      have hploc := ih (by omega)
      have hk_not : b.chainPoints k ∉ chainList b k := by
        intro hmem
        rcases mem_chainList.mp hmem with ⟨j, hj, hjq⟩
        have hnd := hst.nodup
        have : (chainList b cc)[j]? = (chainList b cc)[k]? := by
          rw [chainList]
          rw [List.getElem?_map, List.getElem?_map]
          rw [List.getElem?_range (by omega), List.getElem?_range (by omega)]
          simp [hjq]
        have := List.getElem?_inj (by simp [chainList_length]; omega) hnd this
        omega
      have hcells_k : b.cells (b.chainPoints k) = c ||| CELL_IN_CHAIN := by
        rw [hst.cells_eq]
        rw [if_pos (mem_chainList.mpr ⟨k, by omega, rfl⟩)]
      by_cases hpk : p = b.chainPoints k
      · subst hpk
        rw [if_pos rfl, hploc, if_neg hk_not, hcells_k, mark_xor_of_color hc]
        have : borig.cells (b.chainPoints k) = c :=
          hst.mem_cell _ (mem_chainList.mpr ⟨k, by omega, rfl⟩)
        rw [this]
        rw [chainList_succ]
        simp
      · rw [if_neg hpk, hploc]
        rw [chainList_succ]
        have : p ∈ chainList b k ++ [b.chainPoints k] ↔ p ∈ chainList b k := by
          simp [hpk]
        rw [if_congr this rfl rfl]
  intro p
  show ((List.range cc).foldl _ b.cells) p = _
  rw [key cc (le_refl cc) p]
  by_cases hp : p ∈ chainList b cc
  · rw [if_pos hp]
  · rw [if_neg hp, hst.cells_eq, if_neg hp]

theorem chainList_index_inj {b : board} {cc : Nat} (hnd : (chainList b cc).Nodup)
    {i j : Nat} (hi : i < cc) (hj : j < cc)
    (heq : b.chainPoints i = b.chainPoints j) : i = j := by
  have h1 : (chainList b cc)[i]? = (chainList b cc)[j]? := by
    rw [chainList, List.getElem?_map, List.getElem?_map,
      List.getElem?_range hi, List.getElem?_range hj]
    simp [heq]
  exact List.getElem?_inj (by simp [chainList_length]; omega) hnd h1

theorem playable_of_cell_color {b : board} {p c : Nat} (hOK : CellsOK b)
    (hc : c = WHITE ∨ c = BLACK) (hcell : b.cells p = c) :
    playablePt b.size b.stride p := by
  by_contra hnp
  have := hOK p hnp
  rw [hcell] at this
  rcases hc with h | h <;> subst h <;> simp [WHITE, BLACK, EDGE] at this

theorem chainList_of_setC {b b' : board} {cc npt : Nat}
    (h : b'.chainPoints = setC b.chainPoints cc npt) :
    chainList b' (cc + 1) = chainList b cc ++ [npt] := by
  rw [chainList_succ]
  congr 1
  · apply List.map_congr_left
    intro i hi
    simp only [List.mem_range] at hi
    rw [h, setC_apply, if_neg (by omega)]
  · rw [h, setC_apply, if_pos rfl]

/-- One extension block of the visit loop: either it continues (with the
invariant maintained and the neighbor collected whenever it has the chain
color), or it aborts because the same-colored neighbor has a liberty. -/
theorem mscExtend_step {borig b : board} {c target visited cc npt ncell : Nat}
    (hc : c = WHITE ∨ c = BLACK) (hOK : CellsOK borig)
    (hst : MscSt borig b c target visited cc)
    (hv : visited < cc)
    (hnbr : npt ∈ orthNbrs borig.stride (b.chainPoints visited))
    (hncell : ncell = b.cells npt) :
    (∃ b' cc', mscExtend c (b, cc, false) npt ncell = (b', cc', false) ∧
      MscSt borig b' c target visited cc' ∧ cc ≤ cc' ∧
      (∀ i, i < cc → b'.chainPoints i = b.chainPoints i) ∧
      chainList b cc ⊆ chainList b' cc' ∧
      (borig.cells npt = c → npt ∈ chainList b' cc') ∧
      (∀ p, p ≠ npt → b'.cells p = b.cells p)) ∨
    (mscExtend c (b, cc, false) npt ncell = (b, cc, true) ∧
      borig.cells npt = c ∧ borig.neighborCounts npt ≠ 4) := by
  subst hncell
  by_cases hmem : npt ∈ chainList b cc
  · -- already collected: its cell reads as the marked color, so skip
    left
    have hread : b.cells npt = c ||| CELL_IN_CHAIN := by
      rw [hst.cells_eq, if_pos hmem]
    refine ⟨b, cc, ?_, hst, le_refl _, fun _ _ => rfl, fun q h => h,
      fun _ => hmem, fun _ _ => rfl⟩
    rw [mscExtend, hread, if_neg (mark_ne_of_color hc)]
  · have hread : b.cells npt = borig.cells npt := by
      rw [hst.cells_eq, if_neg hmem]
    by_cases hcol : borig.cells npt = c
    · -- same-colored, not yet collected
      by_cases h4 : borig.neighborCounts npt = 4
      · -- append and mark
        left
        have hb4 : b.neighborCounts npt = 4 := by rw [hst.counts_eq]; exact h4
        have hchl : chainList
            { b with
                chainPoints := setC b.chainPoints cc npt
                cells := setC b.cells npt (b.cells npt ||| CELL_IN_CHAIN) }
            (cc + 1) = chainList b cc ++ [npt] := chainList_of_setC rfl
        have hplay : playablePt borig.size borig.stride npt :=
          playable_of_cell_color hOK hc hcol
        refine ⟨{ b with
            chainPoints := setC b.chainPoints cc npt
            cells := setC b.cells npt (b.cells npt ||| CELL_IN_CHAIN) },
          cc + 1, ?_, ?_, by omega, ?_, ?_, ?_, ?_⟩
        · show mscExtend c (b, cc, false) npt (b.cells npt) = _
          rw [mscExtend, hread, if_pos hcol, if_neg (by simp [hb4])]
        · refine ⟨by omega, by omega, ?_, ?_, ?_, ?_, ?_, hst.counts_eq, hst.moves_eq,
            hst.mc_eq, hst.cmc_eq, hst.size_eq, hst.stride_eq, ?_, ?_, ?_⟩
          · show setC b.chainPoints cc npt 0 = target
            rw [setC_apply, if_neg (by omega)]
            exact hst.target0
          · rw [hchl, List.nodup_append]
            exact ⟨hst.nodup, List.nodup_singleton _, by simp [hmem]⟩
          · rw [hchl]
            intro q hq
            rcases List.mem_append.mp hq with h | h
            · exact hst.mem_play q h
            · rw [List.mem_singleton.mp h]; exact hplay
          · rw [hchl]
            intro q hq
            rcases List.mem_append.mp hq with h | h
            · exact hst.mem_cell q h
            · rw [List.mem_singleton.mp h]; exact hcol
          · rw [hchl]
            intro p
            show setC b.cells npt (b.cells npt ||| CELL_IN_CHAIN) p = _
            rw [setC_apply]
            by_cases hp : p = npt
            · subst hp
              rw [if_pos rfl, hread, if_pos (by simp), hcol]
            · rw [if_neg hp, hst.cells_eq]
              have hiff : (p ∈ chainList b cc ++ [npt]) ↔ p ∈ chainList b cc := by
                simp [hp]
              rw [if_congr hiff rfl rfl]
          · intro i hi n hn hcol2
            rw [hchl]
            have hcp : setC b.chainPoints cc npt i = b.chainPoints i := by
              rw [setC_apply, if_neg (by omega)]
            rw [show ({ b with
                chainPoints := setC b.chainPoints cc npt
                cells := setC b.cells npt (b.cells npt ||| CELL_IN_CHAIN) } : board).chainPoints i
              = setC b.chainPoints cc npt i from rfl, hcp] at hn
            exact List.mem_append_left _ (hst.closure i hi n hn hcol2)
          · intro i h0 hi
            show borig.neighborCounts (setC b.chainPoints cc npt i) = 4
            rw [setC_apply]
            by_cases hieq : i = cc
            · rw [if_pos hieq]; exact h4
            · rw [if_neg hieq]
              exact hst.counts4 i h0 (by omega)
          · rw [hchl]
            intro q hq
            rcases List.mem_append.mp hq with h | h
            · exact hst.reach q h
            · rw [List.mem_singleton.mp h]
              have hthis : b.chainPoints visited ∈ chainList b cc :=
                mem_chainList.mpr ⟨visited, hv, rfl⟩
              exact Relation.ReflTransGen.tail (hst.reach _ hthis) ⟨hnbr, hcol⟩
        · intro i hi
          show setC b.chainPoints cc npt i = b.chainPoints i
          rw [setC_apply, if_neg (by omega)]
        · intro q hq
          rw [hchl]
          exact List.mem_append_left _ hq
        · intro _
          rw [hchl]
          simp
        · intro p hp
          show setC b.cells npt (b.cells npt ||| CELL_IN_CHAIN) p = b.cells p
          rw [setC_apply, if_neg hp]
      · -- liberty found: abort
        right
        have hb4 : b.neighborCounts npt ≠ 4 := by rw [hst.counts_eq]; exact h4
        refine ⟨?_, hcol, h4⟩
        rw [mscExtend, hread, if_pos hcol, if_pos (by simp [hb4])]
    · -- different color: skip
      left
      refine ⟨b, cc, ?_, hst, le_refl _, fun _ _ => rfl, fun q h => h,
        fun h => absurd h hcol, fun _ _ => rfl⟩
      rw [mscExtend, hread, if_neg hcol]

theorem mscExtend_true (c : Nat) (b : board) (cc npt ncell : Nat) :
    mscExtend c (b, cc, true) npt ncell = (b, cc, true) := rfl

theorem size_pos_of_playable {size stride p : Nat}
    (hp : playablePt size stride p) : 1 ≤ size := by
  rcases hp with ⟨h1, h2, _, _⟩
  omega

/-- One full iteration of the visit loop: either the invariant advances to
`visited + 1`, or the traversal aborts and the chain of `target` has a point
with a liberty (neighbor count below 4). -/
theorem mscVisit_spec {borig b : board} {c target visited cc : Nat}
    (hc : c = WHITE ∨ c = BLACK) (hOK : CellsOK borig)
    (hstride : borig.stride = borig.size + 1)
    (hst : MscSt borig b c target visited cc)
    (hv : visited < cc) :
    (∃ b' cc', mscVisit b c (b.chainPoints visited) cc = (b', cc', false) ∧
      MscSt borig b' c target (visited + 1) cc') ∨
    (∃ b' cc', mscVisit b c (b.chainPoints visited) cc = (b', cc', true) ∧
      MscSt borig b' c target visited cc' ∧
      ∃ q, ChainReach borig c target q ∧ borig.cells q = c ∧
        borig.neighborCounts q ≠ 4) := by
  have hthis_mem : b.chainPoints visited ∈ chainList b cc :=
    mem_chainList.mpr ⟨visited, hv, rfl⟩
  have hplay := hst.mem_play _ hthis_mem
  have hbounds := playable_bounds hstride hplay
  have hsize := size_pos_of_playable hplay
  have hstride2 : 2 ≤ borig.stride := by omega
  set thisPt := b.chainPoints visited with hthisPt
  have hreach_this : ChainReach borig c target thisPt := hst.reach _ hthis_mem
  have hstep : ∀ n, n ∈ orthNbrs borig.stride thisPt → borig.cells n = c →
      ChainReach borig c target n := fun n hn hcn =>
    Relation.ReflTransGen.tail hreach_this ⟨hn, hcn⟩
  -- the four neighbor points, pairwise distinct
  have hm1 : thisPt + 1 ∈ orthNbrs borig.stride thisPt := by simp [orthNbrs]
  have hm2 : thisPt - 1 ∈ orthNbrs borig.stride thisPt := by simp [orthNbrs]
  have hm3 : thisPt + borig.stride ∈ orthNbrs borig.stride thisPt := by
    simp [orthNbrs]
  have hm4 : thisPt - borig.stride ∈ orthNbrs borig.stride thisPt := by
    simp [orthNbrs]
  have hd12 : thisPt + 1 ≠ thisPt - 1 := by omega
  have hd13 : thisPt + 1 ≠ thisPt + borig.stride := by omega
  have hd14 : thisPt + 1 ≠ thisPt - borig.stride := by omega
  have hd23 : thisPt - 1 ≠ thisPt + borig.stride := by omega
  have hd24 : thisPt - 1 ≠ thisPt - borig.stride := by omega
  have hd34 : thisPt + borig.stride ≠ thisPt - borig.stride := by omega
  have hbst : b.stride = borig.stride := hst.stride_eq
  have hunfold : mscVisit b c thisPt cc =
      mscExtend c
        (mscExtend c
          (mscExtend c
            (mscExtend c (b, cc, false) (thisPt + 1) (b.cells (thisPt + 1)))
            (thisPt - 1) (b.cells (thisPt - 1)))
          (thisPt + borig.stride) (b.cells (thisPt + borig.stride)))
        (thisPt - borig.stride) (b.cells (thisPt - borig.stride)) := by
    rw [mscVisit, hbst]
  rcases mscExtend_step hc hOK hst hv hm1 rfl with
    ⟨b1, cc1, he1, hst1, hle1, hag1, hsub1, hmem1, hcells1⟩ | ⟨he1, hc1, h41⟩
  · -- first extension continued
    have hv1 : visited < cc1 := by omega
    have hag1v : b1.chainPoints visited = thisPt := hag1 visited hv
    have hnbr2 : thisPt - 1 ∈ orthNbrs borig.stride (b1.chainPoints visited) := by
      rw [hag1v]; exact hm2
    have hcellval2 : b.cells (thisPt - 1) = b1.cells (thisPt - 1) :=
      (hcells1 _ (fun h => hd12 h.symm)).symm
    rcases mscExtend_step hc hOK hst1 hv1 hnbr2 hcellval2 with
      ⟨b2, cc2, he2, hst2, hle2, hag2, hsub2, hmem2, hcells2⟩ | ⟨he2, hc2, h42⟩
    · have hv2 : visited < cc2 := by omega
      have hag2v : b2.chainPoints visited = thisPt := by
        rw [hag2 visited hv1, hag1v]
      have hnbr3 : thisPt + borig.stride ∈
          orthNbrs borig.stride (b2.chainPoints visited) := by
        rw [hag2v]; exact hm3
      have hcellval3 : b.cells (thisPt + borig.stride) =
          b2.cells (thisPt + borig.stride) := by
        rw [← hcells1 _ (fun h => hd13 h.symm), ← hcells2 _ (fun h => hd23 h.symm)]
      rcases mscExtend_step hc hOK hst2 hv2 hnbr3 hcellval3 with
        ⟨b3, cc3, he3, hst3, hle3, hag3, hsub3, hmem3, hcells3⟩ | ⟨he3, hc3, h43⟩
      · have hv3 : visited < cc3 := by omega
        have hag3v : b3.chainPoints visited = thisPt := by
          rw [hag3 visited hv2, hag2v]
        have hnbr4 : thisPt - borig.stride ∈
            orthNbrs borig.stride (b3.chainPoints visited) := by
          rw [hag3v]; exact hm4
        have hcellval4 : b.cells (thisPt - borig.stride) =
            b3.cells (thisPt - borig.stride) := by
          rw [← hcells1 _ (fun h => hd14 h.symm), ← hcells2 _ (fun h => hd24 h.symm),
            ← hcells3 _ (fun h => hd34 h.symm)]
        rcases mscExtend_step hc hOK hst3 hv3 hnbr4 hcellval4 with
          ⟨b4, cc4, he4, hst4, hle4, hag4, hsub4, hmem4, hcells4⟩ | ⟨he4, hc4, h44⟩
        · -- all four processed: the invariant advances
          left
          refine ⟨b4, cc4, ?_, ?_⟩
          · rw [hunfold, he1, he2, he3, he4]
          · have hag4v : b4.chainPoints visited = thisPt := by
              rw [hag4 visited hv3, hag3v]
            refine ⟨by omega, hst4.hcc1, hst4.target0, hst4.nodup, hst4.mem_play,
              hst4.mem_cell, hst4.cells_eq, hst4.counts_eq, hst4.moves_eq,
              hst4.mc_eq, hst4.cmc_eq, hst4.size_eq, hst4.stride_eq, ?_,
              hst4.counts4, hst4.reach⟩
            intro i hi n hn hcoln
            rcases Nat.lt_or_ge i visited with hiv | hiv
            · exact hst4.closure i hiv n hn hcoln
            · have hieq : i = visited := by omega
              subst hieq
              rw [hag4v] at hn
              have hn' : n = thisPt + 1 ∨ n = thisPt - 1 ∨
                  n = thisPt + borig.stride ∨ n = thisPt - borig.stride := by
                simpa [orthNbrs] using hn
              rcases hn' with rfl | rfl | rfl | rfl
              · exact hsub4 (hsub3 (hsub2 (hmem1 hcoln)))
              · exact hsub4 (hsub3 (hmem2 hcoln))
              · exact hsub4 (hmem3 hcoln)
              · exact hmem4 hcoln
        · -- abort at the fourth neighbor
          right
          refine ⟨b3, cc3, ?_, hst3, thisPt - borig.stride, hstep _ hm4 hc4, hc4, h44⟩
          rw [hunfold, he1, he2, he3, he4]
      · right
        refine ⟨b2, cc2, ?_, hst2, thisPt + borig.stride, hstep _ hm3 hc3, hc3, h43⟩
        rw [hunfold, he1, he2, he3, mscExtend_true]
    · right
      refine ⟨b1, cc1, ?_, hst1, thisPt - 1, hstep _ hm2 hc2, hc2, h42⟩
      rw [hunfold, he1, he2, mscExtend_true, mscExtend_true]
  · right
    refine ⟨b, cc, ?_, hst, thisPt + 1, hstep _ hm1 hc1, hc1, h41⟩
    rw [hunfold, he1, mscExtend_true, mscExtend_true, mscExtend_true]

theorem mscSt_cc_le {borig b : board} {c target visited cc : Nat}
    (hstride : borig.stride = borig.size + 1)
    (hst : MscSt borig b c target visited cc) :
    cc ≤ borig.size * borig.size := by
  have hlen : (chainList b cc).length = cc := chainList_length b cc
  have hsub : (chainList b cc).toFinset ⊆ (allPoints borig.size borig.stride).toFinset := by
    intro q hq
    rw [List.mem_toFinset] at hq ⊢
    exact (mem_allPoints (by omega)).mpr (hst.mem_play q hq)
  have h1 : (chainList b cc).toFinset.card = cc := by
    rw [List.toFinset_card_of_nodup hst.nodup, hlen]
  have h2 := Finset.card_le_card hsub
  have h3 := List.toFinset_card_le (allPoints borig.size borig.stride)
  have h4 := allPoints_length borig.size borig.stride
  omega

theorem mscLoop_spec {borig : board} {c target : Nat}
    (hc : c = WHITE ∨ c = BLACK) (hOK : CellsOK borig)
    (hstride : borig.stride = borig.size + 1) :
    ∀ (fuel : Nat) (b : board) (visited cc : Nat),
      MscSt borig b c target visited cc →
      borig.size * borig.size + 1 ≤ fuel + visited →
      MscOut borig (mscLoop b c visited cc fuel).1 c target
        (mscLoop b c visited cc fuel).2 := by
  intro fuel
  induction fuel with
  | zero =>
    intro b visited cc hst hfuel
    have h1 := mscSt_cc_le hstride hst
    have h2 := hst.hvc
    omega
  | succ fuel ih =>
    intro b visited cc hst hfuel
    by_cases hv : visited < cc
    · rcases mscVisit_spec hc hOK hstride hst hv with
        ⟨b', cc', heq, hst'⟩ | ⟨b', cc', heq, hst', hw⟩
      · have hstep : mscLoop b c visited cc (fuel + 1) =
            mscLoop b' c (visited + 1) cc' fuel := by
          rw [mscLoop, if_pos hv, heq]
        rw [hstep]
        exact ih b' (visited + 1) cc' hst' (by omega)
      · have hstep : mscLoop b c visited cc (fuel + 1) = (mscRevert b' cc', 0) := by
          rw [mscLoop, if_pos hv, heq]
        rw [hstep]
        left
        exact ⟨rfl, mscRevert_cells hc hst', hst'.counts_eq, hst'.moves_eq,
          hst'.mc_eq, hst'.cmc_eq, hst'.size_eq, hst'.stride_eq, hw⟩
    · have hstep : mscLoop b c visited cc (fuel + 1) = (b, cc) := by
        rw [mscLoop, if_neg hv]
      rw [hstep]
      have hvc := hst.hvc
      have heq : visited = cc := by omega
      subst heq
      exact Or.inr ⟨hst.hcc1, hst⟩

/-- Full characterization of `markSurroundedChain` on a board whose
non-playable cells are all `EDGE` and whose target is a stone. -/
theorem markSurroundedChain_spec (borig : board) (target : Nat)
    (hc : borig.cells target = WHITE ∨ borig.cells target = BLACK)
    (hOK : CellsOK borig) (hstride : borig.stride = borig.size + 1) :
    MscOut borig (markSurroundedChain borig target).1 (borig.cells target) target
      (markSurroundedChain borig target).2 := by
  set c := borig.cells target with hcdef
  set b0 : board :=
    { borig with
        chainPoints := setC borig.chainPoints 0 target
        cells := setC borig.cells target (borig.cells target ||| CELL_IN_CHAIN) }
    with hb0
  have hchl : chainList b0 1 = [target] := by
    simp [chainList, List.range_succ, hb0, setC]
  have hst0 : MscSt borig b0 c target 0 1 := by
    refine ⟨by omega, by omega, ?_, ?_, ?_, ?_, ?_, rfl, rfl, rfl, rfl, rfl, rfl,
      ?_, ?_, ?_⟩
    · show setC borig.chainPoints 0 target 0 = target
      rw [setC_apply, if_pos rfl]
    · rw [hchl]; exact List.nodup_singleton _
    · rw [hchl]
      intro q hq
      rw [List.mem_singleton.mp hq]
      exact playable_of_cell_color hOK hc rfl
    · rw [hchl]
      intro q hq
      rw [List.mem_singleton.mp hq]
    · rw [hchl]
      intro p
      show setC borig.cells target (borig.cells target ||| CELL_IN_CHAIN) p = _
      rw [setC_apply]
      by_cases hp : p = target
      · subst hp
        rw [if_pos rfl, if_pos (by simp)]
      · rw [if_neg hp, if_neg (by simp [hp])]
    · intro i hi
      omega
    · intro i h0 h1
      omega
    · rw [hchl]
      intro q hq
      rw [List.mem_singleton.mp hq]
      exact Relation.ReflTransGen.refl
  have hrun : markSurroundedChain borig target =
      mscLoop b0 c 0 1 (borig.size * borig.size + 1) := rfl
  rw [hrun]
  exact mscLoop_spec hc hOK hstride (borig.size * borig.size + 1) b0 0 1 hst0
    (by omega)

/-! ## `hasLiberties` and `capture` -/

/-- `hasLiberties` restores the board (cells, counts, history) and reports:
`true` comes with a chain member that has a neighbor count below 4, `false`
with the completed traversal invariant. -/
theorem hasLiberties_spec (borig : board) (target : Nat)
    (hc : borig.cells target = WHITE ∨ borig.cells target = BLACK)
    (hOK : CellsOK borig) (hstride : borig.stride = borig.size + 1) :
    ∃ hl b', hasLiberties borig target = (hl, b') ∧
      (∀ p, b'.cells p = borig.cells p) ∧
      b'.neighborCounts = borig.neighborCounts ∧ b'.moves = borig.moves ∧
      b'.moveCount = borig.moveCount ∧ b'.commonMoveCount = borig.commonMoveCount ∧
      b'.size = borig.size ∧ b'.stride = borig.stride ∧
      (hl = true → ∃ q, ChainReach borig (borig.cells target) target q ∧
        borig.cells q = borig.cells target ∧ borig.neighborCounts q ≠ 4) ∧
      (hl = false → ∃ b1 n, markSurroundedChain borig target = (b1, n) ∧ 1 ≤ n ∧
        MscSt borig b1 (borig.cells target) target n n) := by
  have hout := markSurroundedChain_spec borig target hc hOK hstride
  rcases hmsc : markSurroundedChain borig target with ⟨b1, n⟩
  rw [hmsc] at hout
  have hrun : hasLiberties borig target =
      (if n = 0 then (true, b1) else (false, mscRevert b1 n)) := by
    rw [hasLiberties, hmsc]
  rcases hout with ⟨hn0, hcells, hcounts, hmoves, hmc, hcmc, hsz, hstr, hw⟩ |
    ⟨hn1, hst⟩
  · subst hn0
    rw [if_pos rfl] at hrun
    exact ⟨true, b1, hrun, hcells, hcounts, hmoves, hmc, hcmc, hsz, hstr,
      fun _ => hw, fun h => absurd h (by simp)⟩
  · rw [if_neg (by omega)] at hrun
    refine ⟨false, mscRevert b1 n, hrun, mscRevert_cells hc hst, hst.counts_eq,
      hst.moves_eq, hst.mc_eq, hst.cmc_eq, hst.size_eq, hst.stride_eq,
      fun h => absurd h (by simp), fun _ => ⟨b1, n, rfl, hn1, hst⟩⟩

theorem nonEmptyInd_bounds (b : board) (n : Nat) :
    0 ≤ nonEmptyInd b n ∧ nonEmptyInd b n ≤ 1 := by
  unfold nonEmptyInd
  split_ifs <;> omega

theorem countNbr_ne_four_empty {b : board} {q : Nat} (h : countNbr b q ≠ 4) :
    ∃ r ∈ orthNbrs b.stride q, b.cells r = EMPTY := by
  by_contra hno
  push_neg at hno
  have h1 : nonEmptyInd b (q + 1) = 1 := by
    unfold nonEmptyInd
    rw [if_neg (hno _ (by simp [orthNbrs]))]
  have h2 : nonEmptyInd b (q - 1) = 1 := by
    unfold nonEmptyInd
    rw [if_neg (hno _ (by simp [orthNbrs]))]
  have h3 : nonEmptyInd b (q + b.stride) = 1 := by
    unfold nonEmptyInd
    rw [if_neg (hno _ (by simp [orthNbrs]))]
  have h4 : nonEmptyInd b (q - b.stride) = 1 := by
    unfold nonEmptyInd
    rw [if_neg (hno _ (by simp [orthNbrs]))]
  exact h (by rw [countNbr, h1, h2, h3, h4]; norm_num)

theorem countNbr_le_of_empty {b : board} {q r : Nat}
    (hr : r ∈ orthNbrs b.stride q) (he : b.cells r = EMPTY) :
    countNbr b q ≤ 3 := by
  have hz : nonEmptyInd b r = 0 := by
    unfold nonEmptyInd
    rw [if_pos he]
  have b1 := nonEmptyInd_bounds b (q + 1)
  have b2 := nonEmptyInd_bounds b (q - 1)
  have b3 := nonEmptyInd_bounds b (q + b.stride)
  have b4 := nonEmptyInd_bounds b (q - b.stride)
  have hr' : r = q + 1 ∨ r = q - 1 ∨ r = q + b.stride ∨ r = q - b.stride := by
    simpa [orthNbrs] using hr
  unfold countNbr
  rcases hr' with rfl | rfl | rfl | rfl <;> omega

theorem removePoint_eq (bb : board) (q : Nat) :
    removePoint bb q =
      { bb with
          cells := setC bb.cells q EMPTY
          neighborCounts := dec4 bb.neighborCounts q bb.stride } := rfl

/-- Characterization of `capture`'s removal loop. -/
theorem remFold_spec (b1 : board) (n : Nat) :
    ∃ bout, (List.range n).foldl (fun bb i => removePoint bb (bb.chainPoints i)) b1 =
        bout ∧
      (∀ p, bout.cells p = if p ∈ chainList b1 n then EMPTY else b1.cells p) ∧
      bout.neighborCounts =
        (chainList b1 n).foldl (fun f q => dec4 f q b1.stride) b1.neighborCounts ∧
      bout.moves = b1.moves ∧ bout.moveCount = b1.moveCount ∧
      bout.commonMoveCount = b1.commonMoveCount ∧ bout.size = b1.size ∧
      bout.stride = b1.stride ∧ bout.chainPoints = b1.chainPoints := by
  induction n with
  | zero =>
    refine ⟨b1, rfl, ?_, rfl, rfl, rfl, rfl, rfl, rfl, rfl⟩
    intro p
    rw [if_neg (by simp [chainList])]
  | succ n ih =>
    rcases ih with ⟨bmid, hfold, hcells, hcounts, hmoves, hmc, hcmc, hsz, hstr, hcp⟩
    refine ⟨removePoint bmid (bmid.chainPoints n), ?_, ?_, ?_, hmoves, hmc, hcmc,
      hsz, hstr, hcp⟩
    · rw [List.range_succ, List.foldl_append, hfold]
      simp
    · intro p
      rw [removePoint_eq]
      show setC bmid.cells (bmid.chainPoints n) EMPTY p = _
      rw [setC_apply, hcp, chainList_succ]
      by_cases hp : p = b1.chainPoints n
      · rw [if_pos hp, if_pos (by simp [hp])]
      · rw [if_neg hp, hcells p]
        have hiff : (p ∈ chainList b1 n ++ [b1.chainPoints n]) ↔
            p ∈ chainList b1 n := by simp [hp]
        rw [if_congr hiff rfl rfl]
    · rw [removePoint_eq]
      show dec4 bmid.neighborCounts (bmid.chainPoints n) bmid.stride = _
      rw [hcp, hstr, hcounts, chainList_succ, List.foldl_append]
      simp

/-- Full characterization of `capture` on a stone target: either the chain
had a liberty and nothing changed, or a nonempty distinct list of same-colored
stones was removed, with the matching count decrements. -/
theorem capture_spec (borig : board) (target : Nat)
    (hc : borig.cells target = WHITE ∨ borig.cells target = BLACK)
    (hOK : CellsOK borig) (hstride : borig.stride = borig.size + 1) :
    ∃ b' n, capture borig target = (b', n) ∧
      ((n = 0 ∧ (∀ p, b'.cells p = borig.cells p) ∧
        b'.neighborCounts = borig.neighborCounts ∧ b'.moves = borig.moves ∧
        b'.moveCount = borig.moveCount ∧ b'.commonMoveCount = borig.commonMoveCount ∧
        b'.size = borig.size ∧ b'.stride = borig.stride) ∨
      (1 ≤ n ∧ ∃ ps : List Nat, ps.length = n ∧ ps.Nodup ∧
        (∀ q ∈ ps, playablePt borig.size borig.stride q ∧
          borig.cells q = borig.cells target) ∧
        (∀ p, b'.cells p = if p ∈ ps then EMPTY else borig.cells p) ∧
        b'.neighborCounts =
          ps.foldl (fun f q => dec4 f q borig.stride) borig.neighborCounts ∧
        b'.moves = borig.moves ∧ b'.moveCount = borig.moveCount ∧
        b'.commonMoveCount = borig.commonMoveCount ∧ b'.size = borig.size ∧
        b'.stride = borig.stride)) := by
  have hout := markSurroundedChain_spec borig target hc hOK hstride
  rcases hmsc : markSurroundedChain borig target with ⟨b1, n⟩
  rw [hmsc] at hout
  rcases remFold_spec b1 n with
    ⟨bout, hfold, hcells, hcounts, hmoves, hmc, hcmc, hsz, hstr, hcp⟩
  have hrun : capture borig target = (bout, n) := by
    rw [capture, hmsc]
    simp [hfold]
  rcases hout with ⟨hn0, h1cells, h1counts, h1moves, h1mc, h1cmc, h1sz, h1str, _⟩ |
    ⟨hn1, hst⟩
  · subst hn0
    refine ⟨bout, 0, hrun, Or.inl ⟨rfl, ?_, ?_, ?_, ?_, ?_, ?_, ?_⟩⟩
    · intro p
      rw [hcells p, if_neg (by simp [chainList]), h1cells p]
    · rw [hcounts]
      simp only [chainList, List.range_zero, List.map_nil, List.foldl_nil]
      exact h1counts
    · rw [hmoves, h1moves]
    · rw [hmc, h1mc]
    · rw [hcmc, h1cmc]
    · rw [hsz, h1sz]
    · rw [hstr, h1str]
  · refine ⟨bout, n, hrun, Or.inr ⟨hn1, chainList b1 n, chainList_length b1 n,
      hst.nodup, ?_, ?_, ?_, ?_, ?_, ?_, ?_, ?_⟩⟩
    · intro q hq
      exact ⟨hst.mem_play q hq, hst.mem_cell q hq⟩
    · intro p
      rw [hcells p]
      by_cases hp : p ∈ chainList b1 n
      · rw [if_pos hp, if_pos hp]
      · rw [if_neg hp, if_neg hp, hst.cells_eq, if_neg hp]
    · rw [hcounts, hst.counts_eq, hst.stride_eq]
    · rw [hmoves, hst.moves_eq]
    · rw [hmc, hst.mc_eq]
    · rw [hcmc, hst.cmc_eq]
    · rw [hsz, hst.size_eq]
    · rw [hstr, hst.stride_eq]

theorem captureSteps_spec {b1 : board} {enemy : Nat}
    (henemy : enemy = WHITE ∨ enemy = BLACK)
    (hOK : CellsOK b1) (hstride : b1.stride = b1.size + 1) :
    ∀ (dirs : List Nat) (bmid : board) (caps : Nat) (R : List Nat),
      caps = R.length → CapInv b1 enemy R bmid →
      ∃ b2 R2, dirs.foldl (captureStep enemy) (bmid, caps) = (b2, R2.length) ∧
        CapInv b1 enemy R2 b2 := by
  intro dirs
  induction dirs with
  | nil =>
    intro bmid caps R hcaps hinv
    subst hcaps
    exact ⟨bmid, R, rfl, hinv⟩
  | cons npt rest ih =>
    intro bmid caps R hcaps hinv
    obtain ⟨hnd, hRprops, hcells, hcounts, hmoves, hmc, hcmc, hsz, hstr⟩ := hinv
    rw [List.foldl_cons]
    by_cases hguard : bmid.cells npt = enemy ∧ bmid.neighborCounts npt = 4
    · have hstep : captureStep enemy (bmid, caps) npt =
          ((capture bmid npt).1, caps + (capture bmid npt).2) := by
        rw [captureStep, if_pos hguard]
      have hmidOK : CellsOK bmid := by
        intro p hp
        rw [hsz, hstr] at hp
        rw [hcells p]
        have hnotR : p ∉ R := fun hmem => hp (hRprops p hmem).1
        rw [if_neg hnotR]
        exact hOK p hp
      have hmidstride : bmid.stride = bmid.size + 1 := by
        rw [hsz, hstr]; exact hstride
      have hmidcell : bmid.cells npt = WHITE ∨ bmid.cells npt = BLACK := by
        rw [hguard.1]; exact henemy
      rcases capture_spec bmid npt hmidcell hmidOK hmidstride with
        ⟨b', n, hcap, hcase⟩
      rw [hstep, hcap]
      rcases hcase with ⟨hn0, h2cells, h2counts, h2moves, h2mc, h2cmc, h2sz, h2str⟩ |
        ⟨hn1, ps, hpslen, hpsnd, hpsprops, h2cells, h2counts, h2moves, h2mc, h2cmc,
          h2sz, h2str⟩
      · subst hn0
        apply ih b' (caps + 0) R (by omega)
        refine ⟨hnd, hRprops, ?_, ?_, ?_, ?_, ?_, ?_, ?_⟩
        · intro p; rw [h2cells p, hcells p]
        · rw [h2counts, hcounts]
        · rw [h2moves, hmoves]
        · rw [h2mc, hmc]
        · rw [h2cmc, hcmc]
        · rw [h2sz, hsz]
        · rw [h2str, hstr]
      · -- a chain of `n` stones was removed; extend `R`
        have hpsnotR : ∀ q ∈ ps, q ∉ R := by
          intro q hq hmem
          have h1 := (hpsprops q hq).2
          rw [hcells q, if_pos hmem, hguard.1] at h1
          rcases henemy with h | h <;> rw [h] at h1 <;> simp [EMPTY, WHITE, BLACK] at h1
        have hpsb1 : ∀ q ∈ ps, playablePt b1.size b1.stride q ∧ b1.cells q = enemy := by
          intro q hq
          have h1 := (hpsprops q hq).1
          have h2 := (hpsprops q hq).2
          rw [hcells q, if_neg (hpsnotR q hq), hguard.1] at h2
          rw [hsz, hstr] at h1
          exact ⟨h1, h2⟩
        apply ih b' (caps + n) (R ++ ps) (by rw [List.length_append]; omega)
        refine ⟨?_, ?_, ?_, ?_, ?_, ?_, ?_, ?_, ?_⟩
        · rw [List.nodup_append]
          exact ⟨hnd, hpsnd, fun q hq hq2 => hpsnotR q hq2 hq⟩
        · intro q hq
          rcases List.mem_append.mp hq with h | h
          · exact hRprops q h
          · exact hpsb1 q h
        · intro p
          rw [h2cells p]
          by_cases hp : p ∈ ps
          · rw [if_pos hp, if_pos (List.mem_append_right _ hp)]
          · rw [if_neg hp, hcells p]
            have hiff : (p ∈ R ++ ps) ↔ p ∈ R := by simp [hp]
            rw [if_congr hiff rfl rfl]
        · rw [h2counts, hcounts, hstr, List.foldl_append]
        · rw [h2moves, hmoves]
        · rw [h2mc, hmc]
        · rw [h2cmc, hcmc]
        · rw [h2sz, hsz]
        · rw [h2str, hstr]
    · have hstep : captureStep enemy (bmid, caps) npt = (bmid, caps) := by
        rw [captureStep, if_neg hguard]
      rw [hstep]
      exact ih bmid caps R hcaps
        ⟨hnd, hRprops, hcells, hcounts, hmoves, hmc, hcmc, hsz, hstr⟩

/-- Full characterization of `makeMove`'s capture scan: the result removes a
distinct list `R` of enemy stones (possibly empty), decrements the matching
neighbor counts, and reports `R.length` captures. -/
theorem captureLoop_spec (b1 : board) (move enemy : Nat)
    (henemy : enemy = WHITE ∨ enemy = BLACK)
    (hOK : CellsOK b1) (hstride : b1.stride = b1.size + 1) :
    ∃ b2 R, captureLoop b1 move enemy = (b2, R.length) ∧ CapInv b1 enemy R b2 := by
  have hinit : CapInv b1 enemy [] b1 := by
    refine ⟨List.nodup_nil, by simp, ?_, by simp, rfl, rfl, rfl, rfl, rfl⟩
    intro p
    rw [if_neg (by simp)]
  rcases captureSteps_spec henemy hOK hstride
      [move + 1, move - 1, move + b1.stride, move - b1.stride] b1 0 [] rfl hinit with
    ⟨b2, R2, hfold, hinv⟩
  exact ⟨b2, R2, hfold, hinv⟩

/-! ## `makeMove`: helper lemmas -/

/-- The friendly/enemy stones of the side to move: Black when `moveCount` is
even, White when odd. -/
theorem fe_cases (mc : Nat) :
    (mc % 2 = 0 ∧ 2 - mc % 2 = BLACK ∧ (2 - mc % 2) ^^^ 3 = WHITE) ∨
    (mc % 2 = 1 ∧ 2 - mc % 2 = WHITE ∧ (2 - mc % 2) ^^^ 3 = BLACK) := by
  rcases Nat.mod_two_eq_zero_or_one mc with h | h
  · left
    rw [h]
    exact ⟨rfl, rfl, by decide⟩
  · right
    rw [h]
    exact ⟨rfl, rfl, by decide⟩

theorem friendly_cases (mc : Nat) :
    2 - mc % 2 = WHITE ∨ 2 - mc % 2 = BLACK := by
  rcases fe_cases mc with ⟨_, h, _⟩ | ⟨_, h, _⟩
  · right; exact h
  · left; exact h

theorem enemy_cases (mc : Nat) :
    (2 - mc % 2) ^^^ 3 = WHITE ∨ (2 - mc % 2) ^^^ 3 = BLACK := by
  rcases fe_cases mc with ⟨_, _, h⟩ | ⟨_, _, h⟩
  · left; exact h
  · right; exact h

theorem friendly_ne_enemy (mc : Nat) : 2 - mc % 2 ≠ (2 - mc % 2) ^^^ 3 := by
  rcases fe_cases mc with ⟨_, h1, h2⟩ | ⟨_, h1, h2⟩ <;> rw [h1] <;> decide

/-- Pointwise congruence for `countNbr`. -/
theorem countNbr_congr {b b' : board} (hc : ∀ p, b'.cells p = b.cells p)
    (hs : b'.stride = b.stride) (p : Nat) : countNbr b' p = countNbr b p := by
  unfold countNbr nonEmptyInd
  rw [hs, hc, hc, hc, hc]

theorem nonEmptyInd_setC {b b' : board} {q v : Nat}
    (hcell : b'.cells = setC b.cells q v) (site : Nat) :
    nonEmptyInd b' site = nonEmptyInd b site +
      ((if v = EMPTY then 0 else 1) - (if b.cells q = EMPTY then (0:Int) else 1)) *
        ind (site = q) := by
  unfold nonEmptyInd ind
  rw [hcell, setC_apply]
  split_ifs <;> simp_all <;> ring

/-- Effect of a single cell write on the true neighbor count. -/
theorem countNbr_setC {b b' : board} {q v : Nat}
    (hcell : b'.cells = setC b.cells q v) (hs : b'.stride = b.stride) (p : Nat) :
    countNbr b' p = countNbr b p +
      ((if v = EMPTY then 0 else 1) - (if b.cells q = EMPTY then (0:Int) else 1)) *
        nbrInd b.stride p q := by
  unfold countNbr
  rw [hs, nonEmptyInd_setC hcell, nonEmptyInd_setC hcell, nonEmptyInd_setC hcell,
    nonEmptyInd_setC hcell, nbrInd]
  ring

/-- A cell write at a playable point, accompanied by the matching four-site
count update, preserves the neighbor count invariant. -/
theorem counts_inv_step {b b' : board}
    (hinv : ∀ p, p < boardLen b → b.neighborCounts p = countNbr b p)
    (hstride : b.stride = b.size + 1)
    {q v : Nat} (hq : playablePt b.size b.stride q)
    (hcell : b'.cells = setC b.cells q v) (hs : b'.stride = b.stride)
    (hcounts : ∀ p, b'.neighborCounts p = b.neighborCounts p +
      ((if v = EMPTY then 0 else 1) - (if b.cells q = EMPTY then (0:Int) else 1)) *
        hit4 b.stride q p) :
    ∀ p, p < boardLen b' → b'.neighborCounts p = countNbr b' p := by
  intro p hp
  have hlen : boardLen b' = boardLen b := by unfold boardLen; rw [hs]
  rw [hcounts p, countNbr_setC hcell hs p, hinv p (by omega),
    hit4_eq_nbrInd hstride hq p]

theorem placeStone_counts (b : board) (move friendly : Nat) (p : Nat) :
    (placeStone b move friendly).neighborCounts p =
      b.neighborCounts p + 1 * hit4 b.stride move p := by
  show (bumpI (bumpI (bumpI (bumpI b.neighborCounts (move - 1) 1) (move + 1) 1)
    (move - b.stride) 1) (move + b.stride) 1) p = _
  rw [bump4_apply, hit4]
  ring

theorem dec4_apply (f : Nat → Int) (q stride p : Nat) :
    dec4 f q stride p = f p + (-1) * hit4 stride q p := by
  rw [dec4, bump4_apply, hit4]

/-- Removing a nonempty list of distinct occupied playable stones (setting
them `EMPTY` with the matching count decrements) preserves the neighbor-count
invariant. -/
theorem counts_inv_capfold :
    ∀ (R : List Nat) (b bfin : board),
      R.Nodup →
      (∀ q ∈ R, playablePt b.size b.stride q ∧ b.cells q ≠ EMPTY) →
      b.stride = b.size + 1 →
      (∀ p, p < boardLen b → b.neighborCounts p = countNbr b p) →
      (∀ p, bfin.cells p = if p ∈ R then EMPTY else b.cells p) →
      bfin.neighborCounts =
        R.foldl (fun f q => dec4 f q b.stride) b.neighborCounts →
      bfin.stride = b.stride → bfin.size = b.size →
      ∀ p, p < boardLen bfin → bfin.neighborCounts p = countNbr bfin p := by
  intro R
  induction R with
  | nil =>
    intro b bfin _ _ hstride hinv hcells hcounts hstr hsz p hp
    have hlen : boardLen bfin = boardLen b := by unfold boardLen; rw [hstr]
    rw [hcounts]
    simp only [List.foldl_nil]
    rw [hinv p (by omega), countNbr_congr (fun p => by rw [hcells p, if_neg (by simp)]) hstr p]
  | cons q R ih =>
    intro b bfin hnd hprops hstride hinv hcells hcounts hstr hsz p hp
    rcases List.nodup_cons.mp hnd with ⟨hqR, hndR⟩
    have hq := hprops q (by simp)
    set bmid := removePoint b q with hbmid
    have hmidcells : bmid.cells = setC b.cells q EMPTY := rfl
    have hmidcounts : ∀ p, bmid.neighborCounts p = b.neighborCounts p +
        ((if EMPTY = EMPTY then 0 else 1) - (if b.cells q = EMPTY then (0:Int) else 1)) *
          hit4 b.stride q p := by
      intro p
      show dec4 b.neighborCounts q b.stride p = _
      rw [dec4_apply]
      rw [if_pos rfl, if_neg hq.2]
      ring
    have hmidinv : ∀ p, p < boardLen bmid → bmid.neighborCounts p = countNbr bmid p :=
      counts_inv_step hinv hstride hq.1 hmidcells rfl hmidcounts
    apply ih bmid bfin hndR ?_ hstride hmidinv ?_ ?_ hstr hsz p hp
    · intro r hr
      have hrq : r ≠ q := fun h => hqR (h ▸ hr)
      have := hprops r (by simp [hr])
      refine ⟨this.1, ?_⟩
      rw [hmidcells, setC_apply, if_neg hrq]
      exact this.2
    · intro p
      rw [hcells p, hmidcells, setC_apply]
      by_cases hpq : p = q
      · subst hpq
        rw [if_pos (by simp), if_pos rfl]
        by_cases hpR : p ∈ R
        · rw [if_pos hpR]
        · rw [if_neg hpR]
      · have hiff : (p ∈ q :: R) ↔ p ∈ R := by simp [hpq]
        rw [if_congr hiff rfl rfl, if_neg hpq]
    · rw [hcounts]
      simp only [List.foldl_cons]
      rfl

theorem makeMove_pass (b : board) : makeMove b PASS = (.passed, 0, recordMove b PASS) :=
  rfl

theorem makeMove_occupied {b : board} {move : Nat} (hpass : move ≠ PASS)
    (he : b.cells move ≠ EMPTY) : makeMove b move = (.occupied, 0, b) := by
  rw [makeMove, if_neg hpass, if_pos he]

/-- Unfolding of `makeMove` on an empty target point, given the result of the
capture scan on the board with the stone tentatively placed. -/
theorem makeMove_main {b : board} {move : Nat} (hpass : move ≠ PASS)
    (he : b.cells move = EMPTY) {b2 : board} {caps : Nat}
    (hcap : captureLoop (placeStone b move (2 - b.moveCount % 2)) move
      ((2 - b.moveCount % 2) ^^^ 3) = (b2, caps)) :
    makeMove b move =
      (if caps = 0 then
        (if b2.neighborCounts move = 4 then
          match hasLiberties b2 move with
          | (true, b3) => (moveResult.played, caps, recordMove b3 move)
          | (false, b3) => (moveResult.suicide, 0, revertPlace b3 move)
        else (moveResult.played, caps, recordMove b2 move))
      else if caps = 1 then
        (if (b2.moves (b2.moveCount - 1)).testBit 10 ∧
            b2.cells (b2.moves (b2.moveCount - 1) % 1024) = EMPTY then
          (moveResult.ko, 0,
            revertPlace (koRevertBoard b2 ((2 - b.moveCount % 2) ^^^ 3)) move)
        else (moveResult.played, caps, recordMove b2 (ONE_CAPTURE + move)))
      else (moveResult.played, caps, recordMove b2 move)) := by
  rw [makeMove, if_neg hpass, if_neg (fun h => h he), koRevertBoard]
  simp only [hcap]

theorem playable_of_empty {b : board} {move : Nat} (hS : StrInv b)
    (he : b.cells move = EMPTY) : playablePt b.size b.stride move := by
  by_contra hnp
  have := hS.cells_nonplay move hnp
  rw [he] at this
  simp [EMPTY, EDGE] at this

theorem strInv_placeStone {b : board} {move f : Nat} (hS : StrInv b)
    (hmove : playablePt b.size b.stride move) (hempty : b.cells move = EMPTY)
    (hf : f = WHITE ∨ f = BLACK) : StrInv (placeStone b move f) := by
  have hcell : (placeStone b move f).cells = setC b.cells move f := rfl
  refine ⟨hS.size_le, hS.stride_eq, ?_, ?_, ?_⟩
  · intro p hp
    rw [hcell, setC_apply]
    by_cases hpm : p = move
    · rw [if_pos hpm]
      rcases hf with h | h <;> rw [h] <;> simp [WHITE, BLACK]
    · rw [if_neg hpm]
      exact hS.cells_play p hp
  · intro p hp
    rw [hcell, setC_apply, if_neg (fun h => hp (by rw [h]; exact hmove))]
    exact hS.cells_nonplay p hp
  · apply counts_inv_step hS.counts_inv hS.stride_eq hmove hcell rfl
    intro p
    rw [placeStone_counts, if_neg ?_, if_pos hempty]
    · ring_nf
    · rcases hf with h | h <;> rw [h] <;> simp [WHITE, BLACK, EMPTY]

theorem strInv_capinv {b1 b2 : board} {e : Nat} {R : List Nat}
    (hS : StrInv b1) (he : e = WHITE ∨ e = BLACK)
    (hinv : CapInv b1 e R b2) : StrInv b2 := by
  obtain ⟨hnd, hprops, hcells, hcounts, hmoves, hmc, hcmc, hsz, hstr⟩ := hinv
  refine ⟨by rw [hsz]; exact hS.size_le, by rw [hsz, hstr]; exact hS.stride_eq,
    ?_, ?_, ?_⟩
  · intro p hp
    rw [hsz, hstr] at hp
    rw [hcells p]
    by_cases hpR : p ∈ R
    · rw [if_pos hpR]; left; rfl
    · rw [if_neg hpR]; exact hS.cells_play p hp
  · intro p hp
    rw [hsz, hstr] at hp
    rw [hcells p, if_neg (fun h => hp (hprops p h).1)]
    exact hS.cells_nonplay p hp
  · apply counts_inv_capfold R b1 b2 hnd ?_ hS.stride_eq hS.counts_inv hcells
      (by rw [hcounts]) hstr hsz
    intro q hq
    refine ⟨(hprops q hq).1, ?_⟩
    rw [(hprops q hq).2]
    rcases he with h | h <;> rw [h] <;> simp [WHITE, BLACK, EMPTY]

/-- Undoing a tentative placement: `revertPlace` applied to any board whose
cells and counts agree with `placeStone b move f` restores the cells and
counts of `b` exactly. -/
theorem revertPlace_restore {b bx : board} {move : Nat} (f : Nat)
    (hmove : move < 1024) (hempty : b.cells move = EMPTY)
    (hcells : ∀ p, bx.cells p = (placeStone b move f).cells p)
    (hcounts : ∀ p, bx.neighborCounts p = (placeStone b move f).neighborCounts p)
    (hstr : bx.stride = b.stride) :
    (∀ p, (revertPlace bx move).cells p = b.cells p) ∧
    (∀ p, (revertPlace bx move).neighborCounts p = b.neighborCounts p) := by
  have hmod : move % 1024 = move := Nat.mod_eq_of_lt hmove
  constructor
  · intro p
    show setC bx.cells move EMPTY p = b.cells p
    rw [setC_apply]
    by_cases hp : p = move
    · rw [if_pos hp, hp, hempty]
    · rw [if_neg hp, hcells p]
      show setC b.cells move f p = b.cells p
      rw [setC_apply, if_neg hp]
  · intro p
    show (bumpI (bumpI (bumpI (bumpI bx.neighborCounts (move % 1024 + 1) (-1))
      (move % 1024 - 1) (-1)) (move % 1024 + bx.stride) (-1))
      (move % 1024 - bx.stride) (-1)) p = _
    rw [bump4_apply]
    rw [hcounts p, placeStone_counts, hmod, hstr, hit4]
    ring

/-- Master case analysis of `makeMove` on an empty target point of a
well-formed board: the capture scan removes a list `R` of enemy stones, and
the move resolves to exactly one of five outcomes (suicide, plain play,
simple-ko rejection, flagged one-capture play, multi-capture play). -/
theorem makeMove_master {b : board} {move : Nat} (hS : StrInv b)
    (hpass : move ≠ PASS) (he : b.cells move = EMPTY) :
    ∃ b2 R,
      captureLoop (placeStone b move (2 - b.moveCount % 2)) move
        ((2 - b.moveCount % 2) ^^^ 3) = (b2, R.length) ∧
      CapInv (placeStone b move (2 - b.moveCount % 2))
        ((2 - b.moveCount % 2) ^^^ 3) R b2 ∧
      StrInv b2 ∧ b2.cells move = 2 - b.moveCount % 2 ∧
      b2.moves = b.moves ∧ b2.moveCount = b.moveCount ∧
      b2.size = b.size ∧ b2.stride = b.stride ∧
      ((R.length = 0 ∧ b2.neighborCounts move = 4 ∧
        ∃ b3, hasLiberties b2 move = (false, b3) ∧
          makeMove b move = (.suicide, 0, revertPlace b3 move) ∧
          EqG (revertPlace b3 move) b ∧ b3.size = b2.size ∧ b3.stride = b2.stride) ∨
      (R.length = 0 ∧
        ∃ b3, makeMove b move = (.played, 0, recordMove b3 move) ∧
          (∀ p, b3.cells p = b2.cells p) ∧
          (∀ p, b3.neighborCounts p = b2.neighborCounts p) ∧
          b3.moves = b2.moves ∧ b3.moveCount = b2.moveCount ∧
          b3.size = b2.size ∧ b3.stride = b2.stride) ∨
      (R.length = 1 ∧
        ((b2.moves (b2.moveCount - 1)).testBit 10 = true ∧
          b2.cells (b2.moves (b2.moveCount - 1) % 1024) = EMPTY) ∧
        makeMove b move = (.ko, 0,
          revertPlace (koRevertBoard b2 ((2 - b.moveCount % 2) ^^^ 3)) move)) ∨
      (R.length = 1 ∧
        ¬((b2.moves (b2.moveCount - 1)).testBit 10 = true ∧
          b2.cells (b2.moves (b2.moveCount - 1) % 1024) = EMPTY) ∧
        makeMove b move = (.played, 1, recordMove b2 (ONE_CAPTURE + move))) ∨
      (2 ≤ R.length ∧
        makeMove b move = (.played, R.length, recordMove b2 move))) := by
  set f := 2 - b.moveCount % 2 with hf
  set e := (2 - b.moveCount % 2) ^^^ 3 with he'
  have hfc : f = WHITE ∨ f = BLACK := friendly_cases b.moveCount
  have hec : e = WHITE ∨ e = BLACK := enemy_cases b.moveCount
  have hfe : f ≠ e := friendly_ne_enemy b.moveCount
  have hmovePlay : playablePt b.size b.stride move := playable_of_empty hS he
  have hmove1024 : move < 1024 := playable_lt_1024 hS.stride_eq hS.size_le hmovePlay
  set b1 := placeStone b move f with hb1
  have hb1S : StrInv b1 := strInv_placeStone hS hmovePlay he hfc
  have hb1cell : b1.cells move = f := by
    show setC b.cells move f move = f
    rw [setC_apply, if_pos rfl]
  rcases captureLoop_spec b1 move e hec hb1S.cells_nonplay hb1S.stride_eq with
    ⟨b2, R, hcap, hinv⟩
  have hb2S : StrInv b2 := strInv_capinv hb1S hec hinv
  obtain ⟨hnd, hprops, hcells, hcounts, hmoves, hmc, hcmc, hsz, hstr⟩ := hinv
  have hmove_notR : move ∉ R := by
    intro h
    exact hfe ((hb1cell.symm.trans (hprops move h).2).symm ▸ rfl)
  have hb2move : b2.cells move = f := by
    rw [hcells move, if_neg hmove_notR, hb1cell]
  have hmoves2 : b2.moves = b.moves := hmoves
  have hmc2 : b2.moveCount = b.moveCount := hmc
  have hsz2 : b2.size = b.size := hsz
  have hstr2 : b2.stride = b.stride := hstr
  have hmain := makeMove_main hpass he hcap
  refine ⟨b2, R, hcap, ⟨hnd, hprops, hcells, hcounts, hmoves, hmc, hcmc, hsz, hstr⟩,
    hb2S, hb2move, hmoves2, hmc2, hsz2, hstr2, ?_⟩
  by_cases h0 : R.length = 0
  · have hRnil : R = [] := List.length_eq_zero.mp h0
    have hb2cells1 : ∀ p, b2.cells p = b1.cells p := by
      intro p
      rw [hcells p, if_neg (by rw [hRnil]; simp)]
    have hb2counts1 : ∀ p, b2.neighborCounts p = b1.neighborCounts p := by
      intro p
      rw [hcounts, hRnil]
      simp
    by_cases h4 : b2.neighborCounts move = 4
    · have hb2c : b2.cells move = WHITE ∨ b2.cells move = BLACK := by
        rw [hb2move]; exact hfc
      rcases hasLiberties_spec b2 move hb2c hb2S.cells_nonplay hb2S.stride_eq with
        ⟨hl, b3, hhl, h3cells, h3counts, h3moves, h3mc, h3cmc, h3sz, h3str, hwt, hwf⟩
      cases hl
      · -- no liberties: suicide
        left
        have hrest := revertPlace_restore f hmove1024 he
          (fun p => by rw [h3cells p, hb2cells1 p])
          (fun p => by rw [h3counts, hb2counts1 p])
          (by rw [h3str, hstr2])
        refine ⟨h0, h4, b3, hhl, ?_, ?_, h3sz, h3str⟩
        · rw [hmain, if_pos h0, if_pos h4, hhl]
        · refine ⟨funext hrest.1, funext hrest.2, ?_, ?_⟩
          · show b3.moves = b.moves
            rw [h3moves, hmoves2]
          · show b3.moveCount = b.moveCount
            rw [h3mc, hmc2]
      · -- liberties found: played
        right; left
        refine ⟨h0, b3, ?_, h3cells, fun p => by rw [h3counts], h3moves, h3mc,
          h3sz, h3str⟩
        rw [hmain, if_pos h0, if_pos h4, hhl, h0]
    · right; left
      refine ⟨h0, b2, ?_, fun _ => rfl, fun _ => rfl, rfl, rfl, rfl, rfl⟩
      rw [hmain, if_pos h0, if_neg h4, h0]
  · by_cases h1 : R.length = 1
    · by_cases hko : (b2.moves (b2.moveCount - 1)).testBit 10 = true ∧
        b2.cells (b2.moves (b2.moveCount - 1) % 1024) = EMPTY
      · right; right; left
        refine ⟨h1, hko, ?_⟩
        rw [hmain, if_neg (by omega), if_pos h1, if_pos hko]
      · right; right; right; left
        refine ⟨h1, hko, ?_⟩
        rw [hmain, if_neg (by omega), if_pos h1, if_neg hko, h1]
    · right; right; right; right
      refine ⟨by omega, ?_⟩
      rw [hmain, if_neg h0, if_neg h1]

/-! ## Rejection restores the board; invariant preservation -/

theorem testBit10_of_lt {m : Nat} (h : m < 1024) : m.testBit 10 = false := by
  rw [Nat.testBit_to_div_mod]
  have : m / 2 ^ 10 = 0 := Nat.div_eq_of_lt (by omega)
  rw [this]
  decide

theorem testBit10_add {m : Nat} (h : m < 1024) : (1024 + m).testBit 10 = true := by
  rw [Nat.testBit_to_div_mod]
  have : (1024 + m) / 2 ^ 10 = 1 := by
    rw [show (2:Nat) ^ 10 = 1024 from rfl]
    omega
  rw [this]
  decide

theorem mod1024_add {m : Nat} (h : m < 1024) : (1024 + m) % 1024 = m := by
  omega

/-- Transport `StrInv` across pointwise equality of cells and counts. -/
theorem strInv_congr {b b' : board} (hS : StrInv b)
    (hcells : ∀ p, b'.cells p = b.cells p)
    (hcounts : ∀ p, b'.neighborCounts p = b.neighborCounts p)
    (hsz : b'.size = b.size) (hstr : b'.stride = b.stride) : StrInv b' := by
  refine ⟨by rw [hsz]; exact hS.size_le, by rw [hsz, hstr]; exact hS.stride_eq,
    ?_, ?_, ?_⟩
  · intro p hp
    rw [hsz, hstr] at hp
    rw [hcells p]
    exact hS.cells_play p hp
  · intro p hp
    rw [hsz, hstr] at hp
    rw [hcells p]
    exact hS.cells_nonplay p hp
  · intro p hp
    have hlen : boardLen b' = boardLen b := by unfold boardLen; rw [hstr]
    rw [hcounts p, countNbr_congr hcells hstr p]
    exact hS.counts_inv p (by omega)

theorem strInv_recordMove {b : board} (hS : StrInv b) (m : Nat) :
    StrInv (recordMove b m) :=
  strInv_congr hS (fun _ => rfl) (fun _ => rfl) rfl rfl

/-- The board-level half of claim C1: a rejected `makeMove` (occupied,
suicide or simple ko) leaves cells, neighbor counts, move history and move
count exactly as they were. -/
theorem makeMove_reject_eqg {b : board} {move : Nat} (hS : StrInv b)
    (hK : KoInv b) (hrej : (makeMove b move).1.ok = false) :
    EqG (makeMove b move).2.2 b := by
  by_cases hpass : move = PASS
  · subst hpass
    rw [makeMove_pass] at hrej
    simp [moveResult.ok] at hrej
  by_cases he : b.cells move = EMPTY
  · rcases makeMove_master hS hpass he with
      ⟨b2, R, hcap, hinv, hb2S, hb2move, hmoves2, hmc2, hsz2, hstr2, hout⟩
    obtain ⟨hnd, hprops, hcells, hcounts, hmoves, hmc, hcmc, hsz, hstr⟩ := hinv
    set f := 2 - b.moveCount % 2 with hf
    set e := (2 - b.moveCount % 2) ^^^ 3 with he'
    have hfc : f = WHITE ∨ f = BLACK := friendly_cases b.moveCount
    have hec : e = WHITE ∨ e = BLACK := enemy_cases b.moveCount
    have hfe : f ≠ e := friendly_ne_enemy b.moveCount
    have hmovePlay : playablePt b.size b.stride move := playable_of_empty hS he
    have hmove1024 : move < 1024 :=
      playable_lt_1024 hS.stride_eq hS.size_le hmovePlay
    rcases hout with ⟨h0, h4, b3, hhl, heq, heqg, _, _⟩ |
      ⟨h0, b3, heq, _⟩ | ⟨h1, hko, heq⟩ | ⟨h1, hko, heq⟩ | ⟨h2, heq⟩
    · rw [heq]
      exact heqg
    · rw [heq] at hrej
      simp [moveResult.ok] at hrej
    · -- the simple-ko revert is exact under the ko-honesty invariant
      rw [heq]
      set lastMove := b2.moves (b2.moveCount - 1) with hlast
      set rp := lastMove % 1024 with hrp
      have hlastb : lastMove = b.moves (b.moveCount - 1) := by
        rw [hlast, hmoves2, hmc2]
      have hKlast : b.cells rp ≠ EMPTY := by
        rw [hrp, hlastb]
        exact hK (by rw [← hlastb]; exact hko.1)
      have hrp1024 : rp < 1024 := Nat.mod_lt _ (by omega)
      -- the single removed stone is exactly the flagged point
      obtain ⟨q, hRq⟩ : ∃ q, R = [q] := by
        rcases R with _ | ⟨q, rest⟩
        · simp at h1
        · rcases rest with _ | _
          · exact ⟨q, rfl⟩
          · simp at h1
      have hrp_ne_move : rp ≠ move := by
        intro hcontr
        have := hko.2
        rw [hcontr, hb2move] at this
        rcases hfc with h | h <;> rw [h] at this <;> simp [WHITE, BLACK, EMPTY] at this
      have hrpR : rp ∈ R := by
        by_contra hnot
        have := hko.2
        rw [hcells rp, if_neg hnot] at this
        have hb1rp : (placeStone b move f).cells rp = b.cells rp := by
          show setC b.cells move f rp = b.cells rp
          rw [setC_apply, if_neg hrp_ne_move]
        rw [hb1rp] at this
        exact hKlast this
      have hq_rp : q = rp := by
        rw [hRq] at hrpR
        exact (List.mem_singleton.mp hrpR).symm
      subst hq_rp
      have hrp_playable : playablePt b.size b.stride rp := by
        have := (hprops rp (by rw [hRq]; simp)).1
        exact this
      have hb1rp_e : (placeStone b move f).cells rp = e :=
        (hprops rp (by rw [hRq]; simp)).2
      have hbrp_e : b.cells rp = e := by
        have : (placeStone b move f).cells rp = b.cells rp := by
          show setC b.cells move f rp = b.cells rp
          rw [setC_apply, if_neg hrp_ne_move]
        rw [← this, hb1rp_e]
      -- cells and counts of the ko-revert board agree with the placed board
      set bk := koRevertBoard b2 e with hbk
      have hrpmod : rp % 1024 = rp := Nat.mod_eq_of_lt hrp1024
      have hbkcells : ∀ p, bk.cells p = (placeStone b move f).cells p := by
        intro p
        show setC b2.cells rp e p = _
        rw [setC_apply]
        by_cases hp : p = rp
        · rw [if_pos hp, hp, hb1rp_e]
        · rw [if_neg hp, hcells p]
          rw [if_neg (by rw [hRq]; simp [hp])]
      have hbkcounts : ∀ p, bk.neighborCounts p =
          (placeStone b move f).neighborCounts p := by
        intro p
        show (bumpI (bumpI (bumpI (bumpI b2.neighborCounts (rp % 1024 + 1) 1)
          (rp % 1024 - 1) 1) (rp % 1024 + b2.stride) 1)
          (rp % 1024 - b2.stride) 1) p = _
        rw [bump4_apply, hrpmod, hcounts, hRq]
        simp only [List.foldl_cons, List.foldl_nil]
        rw [dec4_apply]
        have hstr1 : b2.stride = (placeStone b move f).stride := hstr
        rw [← hstr1, hit4]
        ring
      have hrest := revertPlace_restore f hmove1024 he hbkcells hbkcounts
        (by show b2.stride = b.stride; exact hstr2)
      refine ⟨funext hrest.1, funext hrest.2, ?_, ?_⟩
      · show bk.moves = b.moves
        rw [show bk.moves = b2.moves from rfl, hmoves2]
      · show bk.moveCount = b.moveCount
        rw [show bk.moveCount = b2.moveCount from rfl, hmc2]
    · rw [heq] at hrej
      simp [moveResult.ok] at hrej
    · rw [heq] at hrej
      simp [moveResult.ok] at hrej
  · rw [makeMove_occupied hpass he]
    exact EqG.refl b

theorem strInv_revertPlace {bx : board} (hx : StrInv bx) {move : Nat}
    (hplay : playablePt bx.size bx.stride move) (hocc : bx.cells move ≠ EMPTY) :
    StrInv (revertPlace bx move) := by
  have hmove1024 : move < 1024 := playable_lt_1024 hx.stride_eq hx.size_le hplay
  have hmod : move % 1024 = move := Nat.mod_eq_of_lt hmove1024
  have hcell : (revertPlace bx move).cells = setC bx.cells move EMPTY := rfl
  refine ⟨hx.size_le, hx.stride_eq, ?_, ?_, ?_⟩
  · intro p hp
    rw [hcell, setC_apply]
    by_cases hpm : p = move
    · rw [if_pos hpm]; left; rfl
    · rw [if_neg hpm]; exact hx.cells_play p hp
  · intro p hp
    rw [hcell, setC_apply, if_neg (fun h => hp (by rw [h]; exact hplay))]
    exact hx.cells_nonplay p hp
  · apply counts_inv_step hx.counts_inv hx.stride_eq hplay hcell rfl
    intro p
    show (bumpI (bumpI (bumpI (bumpI bx.neighborCounts (move % 1024 + 1) (-1))
      (move % 1024 - 1) (-1)) (move % 1024 + bx.stride) (-1))
      (move % 1024 - bx.stride) (-1)) p = _
    rw [bump4_apply, hmod, if_pos rfl, if_neg hocc, hit4]
    ring

theorem strInv_koRevert {b2 : board} (hb2S : StrInv b2) {e : Nat}
    (hec : e = WHITE ∨ e = BLACK)
    (hempty : b2.cells (b2.moves (b2.moveCount - 1) % 1024) = EMPTY) :
    StrInv (koRevertBoard b2 e) := by
  set rp := b2.moves (b2.moveCount - 1) % 1024 with hrp
  have hrp1024 : rp < 1024 := Nat.mod_lt _ (by omega)
  have hrpmod : rp % 1024 = rp := Nat.mod_eq_of_lt hrp1024
  have hplay : playablePt b2.size b2.stride rp := playable_of_empty hb2S hempty
  have hplaceS : StrInv (placeStone b2 rp e) :=
    strInv_placeStone hb2S hplay hempty hec
  apply strInv_congr hplaceS
  · intro p; rfl
  · intro p
    show (bumpI (bumpI (bumpI (bumpI b2.neighborCounts (rp % 1024 + 1) 1)
      (rp % 1024 - 1) 1) (rp % 1024 + b2.stride) 1)
      (rp % 1024 - b2.stride) 1) p = _
    rw [bump4_apply, hrpmod, placeStone_counts, hit4]
  · rfl
  · rfl

/-- `makeMove` preserves structural well-formedness (any move, any result). -/
theorem strInv_makeMove {b : board} (hS : StrInv b) (move : Nat) :
    StrInv (makeMove b move).2.2 := by
  by_cases hpass : move = PASS
  · subst hpass
    rw [makeMove_pass]
    exact strInv_recordMove hS PASS
  by_cases he : b.cells move = EMPTY
  · rcases makeMove_master hS hpass he with
      ⟨b2, R, hcap, hinv, hb2S, hb2move, hmoves2, hmc2, hsz2, hstr2, hout⟩
    have hec : (2 - b.moveCount % 2) ^^^ 3 = WHITE ∨
        (2 - b.moveCount % 2) ^^^ 3 = BLACK := enemy_cases b.moveCount
    have hfc := friendly_cases b.moveCount
    rcases hout with ⟨h0, h4, b3, hhl, heq, heqg, h3sz, h3str⟩ |
      ⟨h0, b3, heq, h3cells, h3counts, h3moves, h3mc, h3sz, h3str⟩ |
      ⟨h1, hko, heq⟩ | ⟨h1, hko, heq⟩ | ⟨h2, heq⟩
    · rw [heq]
      refine strInv_congr hS (fun p => by rw [heqg.1]) (fun p => by rw [heqg.2.1])
        ?_ ?_
      · show b3.size = b.size
        rw [h3sz, hsz2]
      · show b3.stride = b.stride
        rw [h3str, hstr2]
    · rw [heq]
      exact strInv_recordMove
        (strInv_congr hb2S h3cells h3counts h3sz h3str) move
    · rw [heq]
      have hbkS : StrInv (koRevertBoard b2 ((2 - b.moveCount % 2) ^^^ 3)) :=
        strInv_koRevert hb2S hec hko.2
      apply strInv_revertPlace hbkS
      · show playablePt b2.size b2.stride move
        rw [hsz2, hstr2]
        exact playable_of_empty hS he
      · show setC b2.cells (b2.moves (b2.moveCount - 1) % 1024) _ move ≠ EMPTY
        rw [setC_apply]
        have hne : move ≠ b2.moves (b2.moveCount - 1) % 1024 := by
          intro hcontr
          rw [← hcontr, hb2move] at hko
          rcases hfc with h | h <;> rw [h] at hko <;>
            simp [WHITE, BLACK, EMPTY] at hko
        rw [if_neg hne, hb2move]
        rcases hfc with h | h <;> rw [h] <;> simp [WHITE, BLACK, EMPTY]
    · rw [heq]
      exact strInv_recordMove hb2S _
    · rw [heq]
      exact strInv_recordMove hb2S _
  · rw [makeMove_occupied hpass he]
    exact hS

theorem koInv_congr {b b' : board} (hK : KoInv b) (heqg : EqG b' b) : KoInv b' := by
  intro h
  rw [heqg.1, heqg.2.2.1, heqg.2.2.2]
  rw [heqg.2.2.1, heqg.2.2.2] at h
  exact hK h

theorem recordMove_moves_last (b : board) (m : Nat) :
    (recordMove b m).moves ((recordMove b m).moveCount - 1) = m := by
  show setC b.moves b.moveCount m (b.moveCount + 1 - 1) = m
  rw [setC_apply, if_pos (by omega)]

/-- `makeMove` preserves the ko-honesty invariant on well-formed boards. -/
theorem koInv_makeMove {b : board} (hS : StrInv b) (hK : KoInv b) (move : Nat) :
    KoInv (makeMove b move).2.2 := by
  by_cases hpass : move = PASS
  · subst hpass
    rw [makeMove_pass]
    intro h
    rw [recordMove_moves_last] at h
    rw [show (PASS : Nat).testBit 10 = false from rfl] at h
    simp at h
  by_cases he : b.cells move = EMPTY
  · have hmove1024 : move < 1024 :=
      playable_lt_1024 hS.stride_eq hS.size_le (playable_of_empty hS he)
    rcases makeMove_master hS hpass he with
      ⟨b2, R, hcap, hinv, hb2S, hb2move, hmoves2, hmc2, hsz2, hstr2, hout⟩
    have hfc := friendly_cases b.moveCount
    rcases hout with ⟨h0, h4, b3, hhl, heq, heqg, h3sz, h3str⟩ |
      ⟨h0, b3, heq, h3cells, h3counts, h3moves, h3mc, h3sz, h3str⟩ |
      ⟨h1, hko, heq⟩ | ⟨h1, hko, heq⟩ | ⟨h2, heq⟩
    · rw [heq]
      apply koInv_congr hK
      rw [heq] at *
      exact heqg
    · rw [heq]
      intro h
      rw [recordMove_moves_last, testBit10_of_lt hmove1024] at h
      simp at h
    · have hrej : (makeMove b move).1.ok = false := by
        rw [heq]; rfl
      exact koInv_congr hK (makeMove_reject_eqg hS hK hrej)
    · rw [heq]
      intro h
      rw [recordMove_moves_last] at h ⊢
      rw [ONE_CAPTURE, mod1024_add hmove1024]
      show (recordMove b2 (1024 + move)).cells move ≠ EMPTY
      show b2.cells move ≠ EMPTY
      rw [hb2move]
      rcases hfc with hcol | hcol <;> rw [hcol] <;> simp [WHITE, BLACK, EMPTY]
    · rw [heq]
      intro h
      rw [recordMove_moves_last, testBit10_of_lt hmove1024] at h
      simp at h
  · rw [makeMove_occupied hpass he]
    exact hK

/-- Bookkeeping of `makeMove` on a well-formed board: size and stride are
unchanged, the existing history is never rewritten, an accepted move appends
exactly one entry (a `PASS` sentinel when passing), and a rejected move
leaves history and count alone. -/
theorem makeMove_fields {b : board} (hS : StrInv b) (move : Nat) :
    (makeMove b move).2.2.size = b.size ∧ (makeMove b move).2.2.stride = b.stride ∧
    (∀ i, i < b.moveCount → (makeMove b move).2.2.moves i = b.moves i) ∧
    ((makeMove b move).1.ok = true →
      (makeMove b move).2.2.moveCount = b.moveCount + 1) ∧
    ((makeMove b move).1.ok = false →
      (makeMove b move).2.2.moveCount = b.moveCount ∧
      (makeMove b move).2.2.moves = b.moves) ∧
    ((makeMove b move).1 = .passed →
      (makeMove b move).2.2.moves b.moveCount = PASS) := by
  by_cases hpass : move = PASS
  · subst hpass
    rw [makeMove_pass]
    refine ⟨rfl, rfl, ?_, fun _ => rfl, ?_, ?_⟩
    · intro i hi
      show setC b.moves b.moveCount PASS i = b.moves i
      rw [setC_apply, if_neg (by omega)]
    · intro h
      simp [moveResult.ok] at h
    · intro _
      show setC b.moves b.moveCount PASS b.moveCount = PASS
      rw [setC_apply, if_pos rfl]
  by_cases he : b.cells move = EMPTY
  · rcases makeMove_master hS hpass he with
      ⟨b2, R, hcap, hinv, hb2S, hb2move, hmoves2, hmc2, hsz2, hstr2, hout⟩
    rcases hout with ⟨h0, h4, b3, hhl, heq, heqg, h3sz, h3str⟩ |
      ⟨h0, b3, heq, h3cells, h3counts, h3moves, h3mc, h3sz, h3str⟩ |
      ⟨h1, hko, heq⟩ | ⟨h1, hko, heq⟩ | ⟨h2, heq⟩ <;> rw [heq]
    · refine ⟨by show b3.size = b.size; rw [h3sz, hsz2],
        by show b3.stride = b.stride; rw [h3str, hstr2],
        ?_, ?_, ?_, ?_⟩
      · intro i hi
        have hmv : b3.moves = b.moves := heqg.2.2.1
        show b3.moves i = b.moves i
        rw [hmv]
      · intro h; simp [moveResult.ok] at h
      · intro _
        exact ⟨heqg.2.2.2, heqg.2.2.1⟩
      · intro h; simp at h
    · have hms : b3.moves = b.moves := by rw [h3moves, hmoves2]
      have hmcs : b3.moveCount = b.moveCount := by rw [h3mc, hmc2]
      refine ⟨by show b3.size = b.size; rw [h3sz, hsz2],
        by show b3.stride = b.stride; rw [h3str, hstr2], ?_, ?_, ?_, ?_⟩
      · intro i hi
        show setC b3.moves b3.moveCount move i = b.moves i
        rw [setC_apply, if_neg (by omega), hms]
      · intro _
        show b3.moveCount + 1 = b.moveCount + 1
        rw [hmcs]
      · intro h; simp [moveResult.ok] at h
      · intro h; simp at h
    · refine ⟨by show b2.size = b.size; exact hsz2,
        by show b2.stride = b.stride; exact hstr2, ?_, ?_, ?_, ?_⟩
      · intro i hi
        show b2.moves i = b.moves i
        rw [hmoves2]
      · intro h; simp [moveResult.ok] at h
      · intro _
        constructor
        · show b2.moveCount = b.moveCount
          exact hmc2
        · show b2.moves = b.moves
          exact hmoves2
      · intro h; simp at h
    · refine ⟨by show b2.size = b.size; exact hsz2,
        by show b2.stride = b.stride; exact hstr2, ?_, ?_, ?_, ?_⟩
      · intro i hi
        show setC b2.moves b2.moveCount _ i = b.moves i
        rw [setC_apply, if_neg (by rw [hmc2]; omega), hmoves2]
      · intro _
        show b2.moveCount + 1 = b.moveCount + 1
        rw [hmc2]
      · intro h; simp [moveResult.ok] at h
      · intro h; simp at h
    · refine ⟨by show b2.size = b.size; exact hsz2,
        by show b2.stride = b.stride; exact hstr2, ?_, ?_, ?_, ?_⟩
      · intro i hi
        show setC b2.moves b2.moveCount _ i = b.moves i
        rw [setC_apply, if_neg (by rw [hmc2]; omega), hmoves2]
      · intro _
        show b2.moveCount + 1 = b.moveCount + 1
        rw [hmc2]
      · intro h; simp [moveResult.ok] at h
      · intro h; simp at h
  · rw [makeMove_occupied hpass he]
    exact ⟨rfl, rfl, fun _ _ => rfl, fun h => by simp [moveResult.ok] at h,
      fun _ => ⟨rfl, rfl⟩, fun h => by simp at h⟩

/-- `makeMove` only reports `passed` for the `PASS` move. -/
theorem makeMove_ne_passed {b : board} {move : Nat} (hpass : move ≠ PASS) :
    (makeMove b move).1 ≠ .passed := by
  by_cases he : b.cells move = EMPTY
  · rcases hcap : captureLoop (placeStone b move (2 - b.moveCount % 2)) move
        ((2 - b.moveCount % 2) ^^^ 3) with ⟨b2, caps⟩
    rw [makeMove_main hpass he hcap]
    rcases hhl : hasLiberties b2 move with ⟨hl, b3⟩
    split_ifs <;> cases hl <;> exact fun h => nomatch h
  · rw [makeMove_occupied hpass he]
    exact fun h => nomatch h

/-- The candidate scan makes exactly one move and otherwise preserves any
invariant `P` that `makeMove` preserves.  Candidates below `candCount` are
required to be actual points (never the `PASS` sentinel), which the
collection loop guarantees. -/
theorem prgScan_spec (P : board → Prop)
    (hPmk : ∀ b move, P b → P (makeMove b move).2.2)
    (hPS : ∀ b, P b → StrInv b) (rng : Rng) (candCount : Nat) :
    ∀ (r : Nat) (b : board) (t : Nat) (cand : Nat → Nat), P b →
      r ≤ candCount → (∀ j, j < candCount → cand j ≠ PASS) →
      ∃ b' t' cand' ev, prgScan rng candCount r b t cand = (b', t', cand', ev) ∧
        P b' ∧ b'.moveCount = b.moveCount + 1 ∧
        (∀ i, i < b.moveCount → b'.moves i = b.moves i) ∧
        b'.size = b.size ∧ b'.stride = b.stride ∧
        (∀ j, j < candCount → cand' j ≠ PASS) ∧
        (ev = .passedTurn → b'.moves b.moveCount = PASS) := by
  intro r
  induction r with
  | zero =>
    intro b t cand hP _ hcand
    have hf := makeMove_fields (hPS b hP) PASS
    refine ⟨(makeMove b PASS).2.2, t, cand, .passedTurn, rfl, hPmk b PASS hP,
      ?_, hf.2.2.1, hf.1, hf.2.1, hcand, ?_⟩
    · rw [makeMove_pass]
      rfl
    · intro _
      exact hf.2.2.2.2.2 (by rw [makeMove_pass])
  | succ r ih =>
    intro b t cand hP hr hcand
    rw [prgScan]
    have hi : candCount - (candCount - (r + 1)) = r + 1 := by omega
    set i := candCount - (r + 1) with hidef
    set randomIndex := i + intn rng t (candCount - i) with hri
    have hrilt : randomIndex < candCount := by
      have h2 : intn rng t (candCount - i) < candCount - i := by
        rw [hi]
        exact Nat.mod_lt _ (by omega)
      omega
    set randomPt := cand randomIndex with hrp
    have hrp0 : randomPt ≠ PASS := hcand randomIndex hrilt
    set cand1 := setC (setC cand randomIndex (cand i)) i randomPt with hc1
    have hcand1 : ∀ j, j < candCount → cand1 j ≠ PASS := by
      intro j hj
      rw [hc1, setC_apply, setC_apply]
      split_ifs
      · exact hrp0
      · exact hcand i (by omega)
      · exact hcand j hj
    by_cases heye : wouldFillEye b randomPt
    · rw [if_pos heye]
      exact ih b (t + 1) cand1 hP (by omega) hcand1
    · rw [if_neg heye]
      have hf := makeMove_fields (hPS b hP) randomPt
      have hnp : (makeMove b randomPt).1 ≠ .passed :=
        makeMove_ne_passed hrp0
      rcases hmk : makeMove b randomPt with ⟨res, caps, b'⟩
      rw [hmk] at hf hnp
      simp only
      by_cases hres : res = .played
      · rw [if_pos hres]
        have hok : res.ok = true := by rw [hres]; rfl
        by_cases hcaps : 0 < caps
        · rw [if_pos hcaps]
          exact ⟨b', t + 1, cand1, .captured, rfl, (by
              have := hPmk b randomPt hP
              rw [hmk] at this
              exact this),
            hf.2.2.2.1 hok, hf.2.2.1, hf.1, hf.2.1, hcand1, fun h => by cases h⟩
        · rw [if_neg hcaps]
          exact ⟨b', t + 1, cand1, .moved, rfl, (by
              have := hPmk b randomPt hP
              rw [hmk] at this
              exact this),
            hf.2.2.2.1 hok, hf.2.2.1, hf.1, hf.2.1, hcand1, fun h => by cases h⟩
      · rw [if_neg hres]
        have hok : res.ok = false := by
          cases res
          · exact absurd rfl hres
          · exact absurd rfl hnp
          all_goals rfl
        have hPb' : P b' := by
          have := hPmk b randomPt hP
          rw [hmk] at this
          exact this
        rcases ih b' (t + 1) cand1 hPb' (by omega) hcand1 with
          ⟨b'', t'', cand'', ev, hrun, hP'', hmc'', hmoves'', hsz'', hstr'',
            hcand'', hpass''⟩
        have hrj := hf.2.2.2.2.1 hok
        refine ⟨b'', t'', cand'', ev, hrun, hP'', ?_, ?_, ?_, ?_, hcand'', ?_⟩
        · rw [hmc'', hrj.1]
        · intro j hj
          rw [hmoves'' j (by rw [hrj.1]; omega), hrj.2]
        · rw [hsz'', hf.1]
        · rw [hstr'', hf.2.1]
        · intro h
          rw [← hrj.1]
          exact hpass'' h

/-- The fresh candidate collection (the empty points of the board) never
contains the `PASS` sentinel: every playable point is at least `stride + 1`. -/
theorem cands_ne_pass {b : board} (hS : StrInv b) :
    ∀ j, j < ((allPoints b.size b.stride).filter
        fun p => b.cells p == EMPTY).length →
      ((allPoints b.size b.stride).filter
        fun p => b.cells p == EMPTY).getD j 0 ≠ PASS := by
  intro j hj
  set l := (allPoints b.size b.stride).filter fun p => b.cells p == EMPTY
    with hl
  have hmem : l.getD j 0 ∈ l := by
    rw [List.getD_eq_getElem l 0 hj]
    exact List.getElem_mem hj
  have hmem2 : l.getD j 0 ∈ allPoints b.size b.stride :=
    List.mem_of_mem_filter hmem
  have hp : playablePt b.size b.stride (l.getD j 0) :=
    (mem_allPoints (by rw [hS.stride_eq]; omega)).1 hmem2
  have hb := playable_bounds hS.stride_eq hp
  have : l.getD j 0 ≠ 0 := by omega
  exact this

/-- The `played:` loop of `playRandomGame`: with fuel covering the remaining
move budget it never runs out, preserves any invariant `P` that `makeMove`
preserves, and on return either the last two recorded moves are passes or the
final `moveCount` stays below `max` of the starting `moveCount` and
`maxMoves`. -/
theorem prgPlayed_spec (P : board → Prop)
    (hPmk : ∀ b move, P b → P (makeMove b move).2.2)
    (hPS : ∀ b, P b → StrInv b) (rng : Rng) (maxMoves : Nat) :
    ∀ (fuel candCount : Nat) (cand : Nat → Nat)
      (playedCount passedCount : Nat) (b : board) (t : Nat), P b →
      maxMoves + 1 ≤ fuel + b.moveCount →
      (∀ j, j < candCount → cand j ≠ PASS) →
      (passedCount = 1 → 1 ≤ b.moveCount ∧ b.moves (b.moveCount - 1) = PASS) →
      passedCount ≤ 1 →
      ∃ b' t', prgPlayed rng maxMoves fuel candCount cand playedCount
          passedCount b t = some (b', t') ∧ P b' ∧
        (lastTwoPass b' ∨ b'.moveCount ≤ max b.moveCount maxMoves) := by
  intro fuel
  induction fuel with
  | zero =>
    intro candCount cand playedCount passedCount b t hP hfuel hcand hpassmv hp1
    rw [prgPlayed, if_neg (by omega)]
    exact ⟨b, t, rfl, hP, Or.inr (Nat.le_max_left _ _)⟩
  | succ fuel ih =>
    intro candCount cand playedCount passedCount b t hP hfuel hcand hpassmv hp1
    by_cases hmc : b.moveCount < maxMoves
    · rcases prgScan_spec P hPmk hPS rng candCount (candCount - playedCount)
          b t cand hP (by omega) hcand with
        ⟨b1, t1, cand1, ev, hrun, hP1, hmc1, hmoves1, hsz1, hstr1, hcand1,
          hpassm⟩
      cases ev with
      | captured =>
        have hred : prgPlayed rng maxMoves (fuel + 1) candCount cand
            playedCount passedCount b t =
            prgPlayed rng maxMoves fuel
              ((allPoints b1.size b1.stride).filter
                fun p => b1.cells p == EMPTY).length
              (fun i => ((allPoints b1.size b1.stride).filter
                fun p => b1.cells p == EMPTY).getD i 0) 0 0 b1 t1 := by
          rw [prgPlayed, if_pos hmc, hrun]
        rcases ih ((allPoints b1.size b1.stride).filter
              fun p => b1.cells p == EMPTY).length
            (fun i => ((allPoints b1.size b1.stride).filter
              fun p => b1.cells p == EMPTY).getD i 0) 0 0 b1 t1 hP1
            (by omega) (cands_ne_pass (hPS b1 hP1)) (by omega) (by omega) with
          ⟨b2, t2, hrun2, hP2, hbound2⟩
        refine ⟨b2, t2, by rw [hred]; exact hrun2, hP2, ?_⟩
        rcases hbound2 with h | h
        · exact Or.inl h
        · exact Or.inr (by omega)
      | moved =>
        have hred : prgPlayed rng maxMoves (fuel + 1) candCount cand
            playedCount passedCount b t =
            prgPlayed rng maxMoves fuel candCount cand1 (playedCount + 1)
              0 b1 t1 := by
          rw [prgPlayed, if_pos hmc, hrun]
        rcases ih candCount cand1 (playedCount + 1) 0 b1 t1 hP1
            (by omega) hcand1 (by omega) (by omega) with
          ⟨b2, t2, hrun2, hP2, hbound2⟩
        refine ⟨b2, t2, by rw [hred]; exact hrun2, hP2, ?_⟩
        rcases hbound2 with h | h
        · exact Or.inl h
        · exact Or.inr (by omega)
      | passedTurn =>
        by_cases hp2 : passedCount + 1 = 2
        · have hred : prgPlayed rng maxMoves (fuel + 1) candCount cand
              playedCount passedCount b t = some (b1, t1) := by
            rw [prgPlayed, if_pos hmc, hrun]
            exact if_pos hp2
          refine ⟨b1, t1, hred, hP1, Or.inl ?_⟩
          rcases hpassmv (by omega) with ⟨hmcge, hlast⟩
          refine ⟨by omega, ?_, ?_⟩
          · have h1 : b1.moveCount - 1 = b.moveCount := by omega
            rw [h1]
            exact hpassm rfl
          · have h2 : b1.moveCount - 2 = b.moveCount - 1 := by omega
            rw [h2, hmoves1 _ (by omega)]
            exact hlast
        · have hred : prgPlayed rng maxMoves (fuel + 1) candCount cand
              playedCount passedCount b t =
              prgPlayed rng maxMoves fuel candCount cand1 playedCount
                (passedCount + 1) b1 t1 := by
            rw [prgPlayed, if_pos hmc, hrun]
            exact if_neg hp2
          rcases ih candCount cand1 playedCount (passedCount + 1) b1 t1 hP1
              (by omega) hcand1
              (fun _ => ⟨by omega, by
                have h1 : b1.moveCount - 1 = b.moveCount := by omega
                rw [h1]
                exact hpassm rfl⟩)
              (by omega) with
            ⟨b2, t2, hrun2, hP2, hbound2⟩
          refine ⟨b2, t2, by rw [hred]; exact hrun2, hP2, ?_⟩
          rcases hbound2 with h | h
          · exact Or.inl h
          · exact Or.inr (by omega)
    · rw [prgPlayed, if_neg hmc]
      exact ⟨b, t, rfl, hP, Or.inr (Nat.le_max_left _ _)⟩

/-- `playRandomGame` preserves any invariant `P` that `makeMove` preserves,
and on return either the last two recorded moves are passes or the final
`moveCount` is at most the larger of the starting `moveCount` and three times
the number of playable points. -/
theorem playRandomGame_spec (P : board → Prop)
    (hPmk : ∀ b move, P b → P (makeMove b move).2.2)
    (hPS : ∀ b, P b → StrInv b) {b : board} (rng : Rng) (t : Nat) (hP : P b) :
    P (playRandomGame b rng t).1 ∧
      (lastTwoPass (playRandomGame b rng t).1 ∨
        (playRandomGame b rng t).1.moveCount ≤
          max b.moveCount (3 * (b.size * b.size))) := by
  rcases prgPlayed_spec P hPmk hPS rng ((allPoints b.size b.stride).length * 3)
      ((allPoints b.size b.stride).length * 3 + 1)
      ((allPoints b.size b.stride).filter fun p => b.cells p == EMPTY).length
      (fun i => ((allPoints b.size b.stride).filter
        fun p => b.cells p == EMPTY).getD i 0) 0 0 b t hP (by omega)
      (cands_ne_pass (hPS b hP)) (by omega) (by omega) with
    ⟨b', t', hrun, hP', hbound⟩
  have hred : playRandomGame b rng t = (b', t') := by
    simp only [playRandomGame, prgCollect]
    rw [hrun]
  rw [hred]
  refine ⟨hP', ?_⟩
  rcases hbound with h | h
  · exact Or.inl h
  · right
    rw [allPoints_length] at h
    show b'.moveCount ≤ max b.moveCount (3 * (b.size * b.size))
    omega

/-- A raw `capture` call on an occupied point (the documented precondition)
preserves the structural invariant. -/
theorem strInv_capture {b : board} (hS : StrInv b) {target : Nat}
    (hc : b.cells target = WHITE ∨ b.cells target = BLACK) :
    StrInv (capture b target).1 := by
  rcases capture_spec b target hc hS.cells_nonplay hS.stride_eq with
    ⟨b', n, hrun, hcase⟩
  rw [hrun]
  rcases hcase with ⟨_, hcells, hcounts, _, _, _, hsz, hstr⟩ |
    ⟨_, ps, _, hnd, hprops, hcells, hcounts, _, _, _, hsz, hstr⟩
  · exact strInv_congr hS hcells (fun p => by rw [hcounts]) hsz hstr
  · refine ⟨by rw [hsz]; exact hS.size_le,
      by rw [hsz, hstr]; exact hS.stride_eq, ?_, ?_, ?_⟩
    · intro p hp
      rw [hsz, hstr] at hp
      rw [hcells p]
      by_cases hpR : p ∈ ps
      · rw [if_pos hpR]; left; rfl
      · rw [if_neg hpR]; exact hS.cells_play p hp
    · intro p hp
      rw [hsz, hstr] at hp
      rw [hcells p, if_neg (fun h => hp (hprops p h).1)]
      exact hS.cells_nonplay p hp
    · apply counts_inv_capfold ps b _ hnd ?_ hS.stride_eq hS.counts_inv hcells
        (by rw [hcounts]) hstr hsz
      intro q hq
      refine ⟨(hprops q hq).1, ?_⟩
      rw [(hprops q hq).2]
      rcases hc with h | h <;> rw [h] <;> simp [WHITE, BLACK, EMPTY]

/-- `playRandomGame` preserves the structural invariant. -/
theorem strInv_playRandomGame {b : board} (hS : StrInv b) (rng : Rng)
    (t : Nat) : StrInv (playRandomGame b rng t).1 :=
  (playRandomGame_spec StrInv (fun _ move h => strInv_makeMove h move)
    (fun _ h => h) rng t hS).1

/-- `playRandomGame` preserves the structural and ko-honesty invariants. -/
theorem strKoInv_playRandomGame {b : board} (hS : StrInv b) (hK : KoInv b)
    (rng : Rng) (t : Nat) : StrInv (playRandomGame b rng t).1 ∧
      KoInv (playRandomGame b rng t).1 :=
  (playRandomGame_spec (fun b => StrInv b ∧ KoInv b)
    (fun _ move h => ⟨strInv_makeMove h.1 move, koInv_makeMove h.1 h.2 move⟩)
    (fun _ h => h.1) rng t ⟨hS, hK⟩).1

/-- Every reachable state satisfies the structural invariant: cells typed,
no marks, `neighborCounts` correct. -/
theorem strInv_reach {b : board} (h : Reach b) : StrInv b := by
  induction h with
  | base h => exact strInv_clearBoard h
  | mk move _ ih => exact strInv_makeMove ih move
  | cap hc _ ih => exact strInv_capture ih hc
  | prg rng t _ ih => exact strInv_playRandomGame ih rng t

/-- Game-level reachable states satisfy both the structural invariant and
the ko-honesty invariant. -/
theorem strKoInv_reachG {b : board} (h : ReachG b) : StrInv b ∧ KoInv b := by
  induction h with
  | base h => exact ⟨strInv_clearBoard h, koInv_clearBoard _⟩
  | mk move _ ih => exact ⟨strInv_makeMove ih.1 move, koInv_makeMove ih.1 ih.2 move⟩
  | prg rng t _ ih => exact strKoInv_playRandomGame ih.1 ih.2 rng t

/-- `ChainHasLiberty` only reads the cells and the stride. -/
theorem chainHasLiberty_congr {b b' : board}
    (hc : ∀ p, b'.cells p = b.cells p) (hs : b'.stride = b.stride) (p : Nat) :
    ChainHasLiberty b' p ↔ ChainHasLiberty b p := by
  unfold ChainHasLiberty ChainReach
  simp only [hc, hs]

/-- A completed `markSurroundedChain` run collected every point of the chain:
the collected list is closed under same-colored orthogonal steps, so it
absorbs every chain-reachable point. -/
theorem mscSt_reach_mem {borig b : board} {c target n : Nat}
    (hst : MscSt borig b c target n n) :
    ∀ x, ChainReach borig c target x → x ∈ chainList b n := by
  intro x hx
  induction hx with
  | refl => exact mem_chainList.mpr ⟨0, hst.hcc1, hst.target0⟩
  | tail _ hstep ih =>
    rcases mem_chainList.mp ih with ⟨i, hi, hpi⟩
    exact hst.closure i hi _ (by rw [hpi]; exact hstep.1) hstep.2

/-- After a completed `markSurroundedChain` run whose seed has full neighbor
count, the chain has no liberty: every chain point was collected, every
collected point has neighbor count 4 (the seed by hypothesis), and a full
count means no `EMPTY` orthogonal neighbor. -/
theorem mscSt_no_liberty {b2 b3 : board} {c move n : Nat}
    (hS2 : StrInv b2) (hcell : b2.cells move = c)
    (h4 : b2.neighborCounts move = 4)
    (hst : MscSt b2 b3 c move n n) : ¬ ChainHasLiberty b2 move := by
  rintro ⟨q, r, hreach, hr, hre⟩
  rw [hcell] at hreach
  have hqmem := mscSt_reach_mem hst q hreach
  rcases mem_chainList.mp hqmem with ⟨i, hi, hpi⟩
  have hq4 : b2.neighborCounts q = 4 := by
    by_cases hi0 : i = 0
    · rw [← hpi, hi0, hst.target0]
      exact h4
    · rw [← hpi]
      exact hst.counts4 i (by omega) hi
  have hqplay : playablePt b2.size b2.stride q := hst.mem_play q hqmem
  have hqlen : q < boardLen b2 := by
    have hb := playable_bounds hS2.stride_eq hqplay
    unfold boardLen
    omega
  have hcnt : countNbr b2 q = 4 := by
    rw [← hS2.counts_inv q hqlen]
    exact hq4
  have := countNbr_le_of_empty hr hre
  omega

/-- Conversely, a stone whose chain contains a point with neighbor count
below 4 has a liberty. -/
theorem liberty_of_counts {b2 : board} {c move q : Nat} (hS2 : StrInv b2)
    (hcell : b2.cells move = c) (hc : c = WHITE ∨ c = BLACK)
    (hreach : ChainReach b2 c move q) (hq : b2.cells q = c)
    (hq4 : b2.neighborCounts q ≠ 4) : ChainHasLiberty b2 move := by
  have hqplay : playablePt b2.size b2.stride q :=
    playable_of_cell_color hS2.cells_nonplay hc hq
  have hqlen : q < boardLen b2 := by
    have hb := playable_bounds hS2.stride_eq hqplay
    unfold boardLen
    omega
  have hcnt : countNbr b2 q ≠ 4 := by
    rw [← hS2.counts_inv q hqlen]
    exact hq4
  rcases countNbr_ne_four_empty hcnt with ⟨r, hr, hre⟩
  exact ⟨q, r, by rw [hcell]; exact hreach, hr, hre⟩

theorem reachG_playSeq {b : board} (h : ReachG b) (ms : List Nat) :
    ReachG (playSeq b ms) := by
  induction ms generalizing b with
  | nil => exact h
  | cons m ms ih => exact ih (ReachG.mk m h)

/-- On a structurally well-formed board no cell carries the in-chain mark. -/
theorem noMark_of_strInv {b : board} (hS : StrInv b) :
    ∀ p, b.cells p &&& CELL_IN_CHAIN = 0 := by
  intro p
  by_cases hp : playablePt b.size b.stride p
  · rcases hS.cells_play p hp with h | h | h <;> rw [h] <;> decide
  · rw [hS.cells_nonplay p hp]
    decide

/-- `board.makeMove` never reports `superko` (only the robot day-job does). -/
theorem makeMove_ne_superko (b : board) (move : Nat) :
    (makeMove b move).1 ≠ .superko := by
  by_cases hpass : move = PASS
  · subst hpass
    rw [makeMove_pass]
    exact fun h => nomatch h
  by_cases he : b.cells move = EMPTY
  · rcases hcap : captureLoop (placeStone b move (2 - b.moveCount % 2)) move
        ((2 - b.moveCount % 2) ^^^ 3) with ⟨b2, caps⟩
    rw [makeMove_main hpass he hcap]
    rcases hhl : hasLiberties b2 move with ⟨hl, b3⟩
    split_ifs <;> cases hl <;> exact fun h => nomatch h
  · rw [makeMove_occupied hpass he]
    exact fun h => nomatch h

/-- Closed form of the AMAF crediting fold: a point is credited exactly once
if it was not credited before the fold and some walked move records it. -/
theorem amafFold_apply (winAmount : Int) :
    ∀ (mvs : List Nat) (upd : Nat → Nat) (w : Nat → Int) (h : Nat → Nat)
      (p : Nat),
      (mvs.foldl (amafUpdate winAmount) (upd, w, h)).1 p =
        (if upd p = 0 ∧ (∃ m ∈ mvs, m % 1024 = p) then 1 else upd p) ∧
      (mvs.foldl (amafUpdate winAmount) (upd, w, h)).2.1 p =
        w p + (if upd p = 0 ∧ (∃ m ∈ mvs, m % 1024 = p) then winAmount else 0) ∧
      (mvs.foldl (amafUpdate winAmount) (upd, w, h)).2.2 p =
        h p + (if upd p = 0 ∧ (∃ m ∈ mvs, m % 1024 = p) then 1 else 0) := by
  intro mvs
  induction mvs with
  | nil =>
    intro upd w h p
    simp
  | cons m rest ih =>
    intro upd w h p
    simp only [List.foldl_cons]
    by_cases hq : upd (m % 1024) = 0
    · have hstep : amafUpdate winAmount (upd, w, h) m =
          (setC upd (m % 1024) 1,
            setC w (m % 1024) (w (m % 1024) + winAmount),
            setC h (m % 1024) (h (m % 1024) + 1)) := by
        simp only [amafUpdate]
        rw [if_neg (by simp [hq])]
      rw [hstep]
      rcases ih (setC upd (m % 1024) 1)
          (setC w (m % 1024) (w (m % 1024) + winAmount))
          (setC h (m % 1024) (h (m % 1024) + 1)) p with ⟨ih1, ih2, ih3⟩
      rw [ih1, ih2, ih3, setC_apply, setC_apply, setC_apply]
      by_cases hpq : p = m % 1024
      · subst hpq
        rw [if_pos rfl, if_pos rfl, if_pos rfl]
        have hcR : ¬ ((1 : Nat) = 0 ∧ ∃ x ∈ rest, x % 1024 = m % 1024) :=
          fun hh => one_ne_zero hh.1
        have hcC : upd (m % 1024) = 0 ∧ ∃ x ∈ m :: rest, x % 1024 = m % 1024 :=
          ⟨hq, ⟨m, by simp, rfl⟩⟩
        rw [if_neg hcR, if_neg hcR, if_neg hcR, if_pos hcC, if_pos hcC,
          if_pos hcC]
        exact ⟨rfl, by omega, by omega⟩
      · rw [if_neg hpq, if_neg hpq, if_neg hpq]
        have hcond : (upd p = 0 ∧ ∃ x ∈ rest, x % 1024 = p) ↔
            (upd p = 0 ∧ ∃ x ∈ m :: rest, x % 1024 = p) := by
          constructor
          · rintro ⟨h1, x, hx, hxp⟩
            exact ⟨h1, x, by simp [hx], hxp⟩
          · rintro ⟨h1, x, hx, hxp⟩
            rcases List.mem_cons.mp hx with rfl | hx
            · exact absurd hxp (fun hh => hpq hh.symm)
            · exact ⟨h1, x, hx, hxp⟩
        rw [if_congr hcond rfl rfl, if_congr hcond rfl rfl,
          if_congr hcond rfl rfl]
        exact ⟨rfl, rfl, rfl⟩
    · have hstep : amafUpdate winAmount (upd, w, h) m = (upd, w, h) := by
        simp only [amafUpdate]
        rw [if_pos hq]
      rw [hstep]
      rcases ih upd w h p with ⟨ih1, ih2, ih3⟩
      rw [ih1, ih2, ih3]
      by_cases hpq : p = m % 1024
      · subst hpq
        have hc1 : ¬ (upd (m % 1024) = 0 ∧ ∃ x ∈ rest, x % 1024 = m % 1024) :=
          fun hh => hq hh.1
        have hc2 : ¬ (upd (m % 1024) = 0 ∧
            ∃ x ∈ m :: rest, x % 1024 = m % 1024) :=
          fun hh => hq hh.1
        rw [if_neg hc1, if_neg hc1, if_neg hc1, if_neg hc2, if_neg hc2,
          if_neg hc2]
        exact ⟨rfl, rfl, rfl⟩
      · have hcond : (upd p = 0 ∧ ∃ x ∈ rest, x % 1024 = p) ↔
            (upd p = 0 ∧ ∃ x ∈ m :: rest, x % 1024 = p) := by
          constructor
          · rintro ⟨h1, x, hx, hxp⟩
            exact ⟨h1, x, by simp [hx], hxp⟩
          · rintro ⟨h1, x, hx, hxp⟩
            rcases List.mem_cons.mp hx with rfl | hx
            · exact absurd hxp (fun hh => hpq hh.symm)
            · exact ⟨h1, x, hx, hxp⟩
        rw [if_congr hcond rfl rfl, if_congr hcond rfl rfl,
          if_congr hcond rfl rfl]
        exact ⟨rfl, rfl, rfl⟩

/-- Unfolding of `checkLegalMove`, given the scratch move's result. -/
theorem checkLegalMove_run (r : robot) (move : Nat) {res : moveResult}
    {caps : Nat} {sb2 : board}
    (hmk : makeMove (copyFrom r.scratchBoard r.rboard) move = (res, caps, sb2)) :
    checkLegalMove r move =
      (if res = .played then
        (if ((List.range r.rboard.moveCount).any
            fun i => getHash sb2 == r.boardHashes i) = true
          then (.superko, { r with scratchBoard := sb2 })
          else (res, { r with scratchBoard := sb2 }))
        else (res, { r with scratchBoard := sb2 })) := by
  simp only [checkLegalMove]
  rw [hmk]

/-- The scratch-board component of `checkLegalMove`: only the scratch board
is replaced. -/
theorem checkLegalMove_snd (r : robot) (move : Nat) :
    (checkLegalMove r move).2 =
      { r with scratchBoard :=
          (makeMove (copyFrom r.scratchBoard r.rboard) move).2.2 } := by
  rcases hmk : makeMove (copyFrom r.scratchBoard r.rboard) move with
    ⟨res, caps, sb2⟩
  rw [checkLegalMove_run r move hmk]
  split_ifs <;> rfl

/-- Unfolding of the strict `robot.makeMove` given the results of the
legality check and of the real move. -/
theorem robot_makeMove_run (r : robot) (move : Nat) {chk : moveResult}
    {r1 : robot} (hchk : checkLegalMove r move = (chk, r1))
    {res1 : moveResult} {caps1 : Nat} {b2 : board}
    (hmk : makeMove r1.rboard move = (res1, caps1, b2)) :
    robot.makeMove r move =
      if chk.ok = false then some (chk, 0, r1)
      else if res1.ok = false then none
      else some (res1, caps1,
        { r1 with
            rboard := b2
            boardHashes :=
              setC r1.boardHashes (b2.moveCount - 1) (getHash b2) }) := by
  unfold robot.makeMove
  rw [hchk]
  show (if chk.ok = false then some (chk, 0, r1)
      else (match makeMove r1.rboard move with
        | (result, captures, b2) =>
          if result.ok = false then none
          else some (result, captures,
            { r1 with
                rboard := b2
                boardHashes :=
                  setC r1.boardHashes (b2.moveCount - 1) (getHash b2) }))) = _
  rw [hmk]

/-- A rejected strict `robot.makeMove` only swaps the scratch board: the hash
history and the real board are untouched. -/
theorem robot_makeMove_reject {r : robot} {mv : Nat} {res : moveResult}
    {caps : Nat} {r' : robot}
    (hrun : robot.makeMove r mv = some (res, caps, r'))
    (hres : res.ok = false) :
    r'.boardHashes = r.boardHashes ∧ r'.rboard = r.rboard := by
  rcases hchk2 : checkLegalMove r mv with ⟨chk, r1⟩
  rcases hmk2 : makeMove r1.rboard mv with ⟨res1, caps1, b2⟩
  rw [robot_makeMove_run r mv hchk2 hmk2] at hrun
  have hr1 : r1 = { r with scratchBoard :=
      (makeMove (copyFrom r.scratchBoard r.rboard) mv).2.2 } := by
    rw [show r1 = (checkLegalMove r mv).2 from (congrArg Prod.snd hchk2).symm]
    exact checkLegalMove_snd r mv
  by_cases hco : chk.ok = false
  · rw [if_pos hco] at hrun
    injection hrun with heq
    injection heq with h3 h45
    injection h45 with h4 h5
    rw [← h5, hr1]
    exact ⟨rfl, rfl⟩
  · rw [if_neg hco] at hrun
    by_cases h3 : res1.ok = false
    · rw [if_pos h3] at hrun
      exact nomatch hrun
    · rw [if_neg h3] at hrun
      injection hrun with heq
      injection heq with h4 h45
      rw [h4] at h3
      exact absurd hres h3

theorem StrInv.toW {b : board} (hS : StrInv b) : StrInvW b :=
  ⟨hS.stride_eq, hS.cells_play, hS.cells_nonplay, fun p hp =>
    hS.counts_inv p (by
      have := playable_bounds hS.stride_eq hp
      unfold boardLen
      omega)⟩

theorem playableW_of_empty {b : board} {move : Nat} (hW : StrInvW b)
    (he : b.cells move = EMPTY) : playablePt b.size b.stride move := by
  by_contra hnp
  have := hW.cells_nonplay move hnp
  rw [he] at this
  simp [EMPTY, EDGE] at this

/-- Weak analogue of `counts_inv_step`: a cell write at a playable point with
matching count updates preserves count correctness at the playable points. -/
theorem countsP_step {b b' : board}
    (hinv : ∀ p, playablePt b.size b.stride p →
      b.neighborCounts p = countNbr b p)
    (hstride : b.stride = b.size + 1)
    {q v : Nat} (hq : playablePt b.size b.stride q)
    (hcell : b'.cells = setC b.cells q v) (hs : b'.stride = b.stride)
    (hsz : b'.size = b.size)
    (hcounts : ∀ p, b'.neighborCounts p = b.neighborCounts p +
      ((if v = EMPTY then 0 else 1) - (if b.cells q = EMPTY then (0:Int) else 1)) *
        hit4 b.stride q p) :
    ∀ p, playablePt b'.size b'.stride p →
      b'.neighborCounts p = countNbr b' p := by
  intro p hp
  rw [hsz, hs] at hp
  rw [hcounts p, countNbr_setC hcell hs p, hinv p hp,
    hit4_eq_nbrInd hstride hq p]

/-- Weak analogue of `counts_inv_capfold`. -/
theorem countsP_capfold :
    ∀ (R : List Nat) (b bfin : board),
      R.Nodup →
      (∀ q ∈ R, playablePt b.size b.stride q ∧ b.cells q ≠ EMPTY) →
      b.stride = b.size + 1 →
      (∀ p, playablePt b.size b.stride p →
        b.neighborCounts p = countNbr b p) →
      (∀ p, bfin.cells p = if p ∈ R then EMPTY else b.cells p) →
      bfin.neighborCounts =
        R.foldl (fun f q => dec4 f q b.stride) b.neighborCounts →
      bfin.stride = b.stride → bfin.size = b.size →
      ∀ p, playablePt bfin.size bfin.stride p →
        bfin.neighborCounts p = countNbr bfin p := by
  intro R
  induction R with
  | nil =>
    intro b bfin _ _ hstride hinv hcells hcounts hstr hsz p hp
    rw [hsz, hstr] at hp
    rw [hcounts]
    simp only [List.foldl_nil]
    rw [hinv p hp,
      countNbr_congr (fun p => by rw [hcells p, if_neg (by simp)]) hstr p]
  | cons q R ih =>
    intro b bfin hnd hprops hstride hinv hcells hcounts hstr hsz p hp
    rcases List.nodup_cons.mp hnd with ⟨hqR, hndR⟩
    have hq := hprops q (by simp)
    set bmid := removePoint b q with hbmid
    have hmidcells : bmid.cells = setC b.cells q EMPTY := rfl
    have hmidcounts : ∀ p, bmid.neighborCounts p = b.neighborCounts p +
        ((if EMPTY = EMPTY then 0 else 1) -
          (if b.cells q = EMPTY then (0:Int) else 1)) *
          hit4 b.stride q p := by
      intro p
      show dec4 b.neighborCounts q b.stride p = _
      rw [dec4_apply]
      rw [if_pos rfl, if_neg hq.2]
      ring
    have hmidinv : ∀ p, playablePt bmid.size bmid.stride p →
        bmid.neighborCounts p = countNbr bmid p :=
      countsP_step hinv hstride hq.1 hmidcells rfl rfl hmidcounts
    apply ih bmid bfin hndR ?_ hstride hmidinv ?_ ?_ hstr hsz p hp
    · intro r hr
      have hrq : r ≠ q := fun h => hqR (h ▸ hr)
      have := hprops r (by simp [hr])
      refine ⟨this.1, ?_⟩
      rw [hmidcells, setC_apply, if_neg hrq]
      exact this.2
    · intro p
      rw [hcells p, hmidcells, setC_apply]
      by_cases hpq : p = q
      · subst hpq
        rw [if_pos (by simp), if_pos rfl]
        by_cases hpR : p ∈ R
        · rw [if_pos hpR]
        · rw [if_neg hpR]
      · have hiff : (p ∈ q :: R) ↔ p ∈ R := by simp [hpq]
        rw [if_congr hiff rfl rfl, if_neg hpq]
    · rw [hcounts]
      simp only [List.foldl_cons]
      rfl

theorem strInvW_placeStone {b : board} {move f : Nat} (hW : StrInvW b)
    (hmove : playablePt b.size b.stride move) (hempty : b.cells move = EMPTY)
    (hf : f = WHITE ∨ f = BLACK) : StrInvW (placeStone b move f) := by
  have hcell : (placeStone b move f).cells = setC b.cells move f := rfl
  refine ⟨hW.stride_eq, ?_, ?_, ?_⟩
  · intro p hp
    rw [hcell, setC_apply]
    by_cases hpm : p = move
    · rw [if_pos hpm]
      rcases hf with h | h <;> rw [h] <;> simp [WHITE, BLACK]
    · rw [if_neg hpm]
      exact hW.cells_play p hp
  · intro p hp
    rw [hcell, setC_apply, if_neg (fun h => hp (by rw [h]; exact hmove))]
    exact hW.cells_nonplay p hp
  · apply countsP_step hW.counts_invP hW.stride_eq hmove hcell rfl rfl
    intro p
    rw [placeStone_counts, if_neg ?_, if_pos hempty]
    · ring_nf
    · rcases hf with h | h <;> rw [h] <;> simp [WHITE, BLACK, EMPTY]

theorem strInvW_capinv {b1 b2 : board} {e : Nat} {R : List Nat}
    (hW : StrInvW b1) (he : e = WHITE ∨ e = BLACK)
    (hinv : CapInv b1 e R b2) : StrInvW b2 := by
  obtain ⟨hnd, hprops, hcells, hcounts, hmoves, hmc, hcmc, hsz, hstr⟩ := hinv
  refine ⟨by rw [hsz, hstr]; exact hW.stride_eq, ?_, ?_, ?_⟩
  · intro p hp
    rw [hsz, hstr] at hp
    rw [hcells p]
    by_cases hpR : p ∈ R
    · rw [if_pos hpR]
      left
      rfl
    · rw [if_neg hpR]
      exact hW.cells_play p hp
  · intro p hp
    rw [hsz, hstr] at hp
    rw [hcells p, if_neg (fun h => hp (hprops p h).1)]
    exact hW.cells_nonplay p hp
  · apply countsP_capfold R b1 b2 hnd ?_ hW.stride_eq hW.counts_invP hcells
      (by rw [hcounts]) hstr hsz
    intro q hq
    refine ⟨(hprops q hq).1, ?_⟩
    rw [(hprops q hq).2]
    rcases he with h | h <;> rw [h] <;> simp [WHITE, BLACK, EMPTY]

theorem strInvW_congr {b b' : board} (hW : StrInvW b)
    (hcells : ∀ p, b'.cells p = b.cells p)
    (hcounts : ∀ p, b'.neighborCounts p = b.neighborCounts p)
    (hsz : b'.size = b.size) (hstr : b'.stride = b.stride) : StrInvW b' := by
  refine ⟨by rw [hsz, hstr]; exact hW.stride_eq, ?_, ?_, ?_⟩
  · intro p hp
    rw [hsz, hstr] at hp
    rw [hcells p]
    exact hW.cells_play p hp
  · intro p hp
    rw [hsz, hstr] at hp
    rw [hcells p]
    exact hW.cells_nonplay p hp
  · intro p hp
    rw [hsz, hstr] at hp
    rw [hcounts p, hW.counts_invP p hp, countNbr_congr hcells hstr p]

/-- `ChainReach` only reads the cells and the stride. -/
theorem chainReach_congr {bA bB : board}
    (hc : ∀ p, bA.cells p = bB.cells p) (hs : bA.stride = bB.stride)
    {c s q : Nat} : ChainReach bA c s q ↔ ChainReach bB c s q := by
  unfold ChainReach
  simp only [hc, hs]

/-- Under the lockstep relation the neighbor counts agree at playable
points. -/
theorem counts_eq_of_sim {bA bB : board} (hsim : SimB bA bB) {q : Nat}
    (hq : playablePt bA.size bA.stride q) :
    bA.neighborCounts q = bB.neighborCounts q := by
  obtain ⟨hsz, hstr, hcells, hWA, hWB⟩ := hsim
  rw [hWA.counts_invP q hq,
    hWB.counts_invP q (by rw [← hsz, ← hstr]; exact hq)]
  exact countNbr_congr hcells hstr q

/-- Semantic characterization of `capture`: either the chain had a liberty
(witnessed by a chain-reachable stone with neighbor count below 4) and the
visible board is unchanged, or the completed `markSurroundedChain` state is
exposed and exactly its collected chain is removed. -/
theorem capture_sem (borig : board) (target : Nat)
    (hc : borig.cells target = WHITE ∨ borig.cells target = BLACK)
    (hOK : CellsOK borig) (hstride : borig.stride = borig.size + 1) :
    ∃ b' n, capture borig target = (b', n) ∧
      ((n = 0 ∧ (∀ p, b'.cells p = borig.cells p) ∧
        b'.neighborCounts = borig.neighborCounts ∧ b'.moves = borig.moves ∧
        b'.moveCount = borig.moveCount ∧ b'.size = borig.size ∧
        b'.stride = borig.stride ∧
        ∃ q, ChainReach borig (borig.cells target) target q ∧
          borig.cells q = borig.cells target ∧
          borig.neighborCounts q ≠ 4) ∨
      (1 ≤ n ∧ ∃ b1, markSurroundedChain borig target = (b1, n) ∧
        MscSt borig b1 (borig.cells target) target n n ∧
        (∀ p, b'.cells p =
          if p ∈ chainList b1 n then EMPTY else borig.cells p) ∧
        b'.neighborCounts = (chainList b1 n).foldl
          (fun f q => dec4 f q borig.stride) borig.neighborCounts ∧
        b'.moves = borig.moves ∧ b'.moveCount = borig.moveCount ∧
        b'.size = borig.size ∧ b'.stride = borig.stride)) := by
  have hout := markSurroundedChain_spec borig target hc hOK hstride
  rcases hmsc : markSurroundedChain borig target with ⟨b1, n⟩
  rw [hmsc] at hout
  rcases remFold_spec b1 n with
    ⟨bout, hfold, hcells, hcounts, hmoves, hmc, hcmc, hsz, hstr, hcp⟩
  have hrun : capture borig target = (bout, n) := by
    rw [capture, hmsc]
    simp [hfold]
  rcases hout with
    ⟨hn0, h1cells, h1counts, h1moves, h1mc, h1cmc, h1sz, h1str, hw⟩ |
    ⟨hn1, hst⟩
  · subst hn0
    refine ⟨bout, 0, hrun, Or.inl ⟨rfl, ?_, ?_, ?_, ?_, ?_, ?_, hw⟩⟩
    · intro p
      rw [hcells p, if_neg (by simp [chainList]), h1cells p]
    · rw [hcounts]
      simp only [chainList, List.range_zero, List.map_nil, List.foldl_nil]
      exact h1counts
    · rw [hmoves, h1moves]
    · rw [hmc, h1mc]
    · rw [hsz, h1sz]
    · rw [hstr, h1str]
  · refine ⟨bout, n, hrun, Or.inr ⟨hn1, b1, rfl, hst, ?_, ?_, ?_, ?_, ?_,
      ?_⟩⟩
    · intro p
      rw [hcells p]
      by_cases hp : p ∈ chainList b1 n
      · rw [if_pos hp, if_pos hp]
      · rw [if_neg hp, if_neg hp, hst.cells_eq, if_neg hp]
    · rw [hcounts, hst.counts_eq, hst.stride_eq]
    · rw [hmoves, hst.moves_eq]
    · rw [hmc, hst.mc_eq]
    · rw [hsz, hst.size_eq]
    · rw [hstr, hst.stride_eq]

/-- The weak invariant survives the removal of a captured chain. -/
theorem strInvW_capture_out {b bout : board} {target : Nat} {cl : List Nat}
    (hW : StrInvW b) (hc : b.cells target = WHITE ∨ b.cells target = BLACK)
    (hnd : cl.Nodup)
    (hplay : ∀ q ∈ cl, playablePt b.size b.stride q)
    (hcell : ∀ q ∈ cl, b.cells q = b.cells target)
    (hcells : ∀ p, bout.cells p = if p ∈ cl then EMPTY else b.cells p)
    (hcounts : bout.neighborCounts =
      cl.foldl (fun f q => dec4 f q b.stride) b.neighborCounts)
    (hsz : bout.size = b.size) (hstr : bout.stride = b.stride) :
    StrInvW bout := by
  refine ⟨by rw [hsz, hstr]; exact hW.stride_eq, ?_, ?_, ?_⟩
  · intro p hp
    rw [hsz, hstr] at hp
    rw [hcells p]
    by_cases hpR : p ∈ cl
    · rw [if_pos hpR]
      left
      rfl
    · rw [if_neg hpR]
      exact hW.cells_play p hp
  · intro p hp
    rw [hsz, hstr] at hp
    rw [hcells p, if_neg (fun h => hp (hplay p h))]
    exact hW.cells_nonplay p hp
  · apply countsP_capfold cl b bout hnd ?_ hW.stride_eq hW.counts_invP hcells
      (by rw [hcounts]) hstr hsz
    intro q hq
    refine ⟨hplay q hq, ?_⟩
    rw [hcell q hq]
    rcases hc with h | h <;> rw [h] <;> simp [WHITE, BLACK, EMPTY]

/-- Lockstep congruence for `capture` on a full-count stone target: both
boards remove the same number of stones (the same chain), and the lockstep
relation survives. -/
theorem capture_congr {bA bB : board} (hsim : SimB bA bB) {target : Nat}
    (hc : bA.cells target = WHITE ∨ bA.cells target = BLACK)
    (h4 : bA.neighborCounts target = 4) :
    ∃ bA' bB' n, capture bA target = (bA', n) ∧ capture bB target = (bB', n) ∧
      SimB bA' bB' ∧
      bA'.moves = bA.moves ∧ bA'.moveCount = bA.moveCount ∧
      bA'.size = bA.size ∧ bA'.stride = bA.stride ∧
      bB'.moves = bB.moves ∧ bB'.moveCount = bB.moveCount ∧
      bB'.size = bB.size ∧ bB'.stride = bB.stride ∧
      (∀ p, bA.cells p ≠ bA.cells target → bA'.cells p = bA.cells p) := by
  obtain ⟨hsz, hstr, hcells, hWA, hWB⟩ := hsim
  have hcB : bB.cells target = WHITE ∨ bB.cells target = BLACK := by
    rw [← hcells]
    exact hc
  have htplayA : playablePt bA.size bA.stride target :=
    playable_of_cell_color hWA.cells_nonplay hc rfl
  have h4B : bB.neighborCounts target = 4 := by
    rw [← counts_eq_of_sim ⟨hsz, hstr, hcells, hWA, hWB⟩ htplayA]
    exact h4
  have hcol : bA.cells target = bB.cells target := hcells target
  rcases capture_sem bA target hc hWA.cells_nonplay hWA.stride_eq with
    ⟨bA', nA, hrunA, hcaseA⟩
  rcases capture_sem bB target hcB hWB.cells_nonplay hWB.stride_eq with
    ⟨bB', nB, hrunB, hcaseB⟩
  rcases hcaseA with
    ⟨hnA0, hAcells, hAcounts, hAmoves, hAmc, hAsz, hAstr, q, hreachA, hqA,
      hq4A⟩ |
    ⟨hnA1, b1A, hmscA, hstA, hAcells, hAcounts, hAmoves, hAmc, hAsz, hAstr⟩
  · rcases hcaseB with
      ⟨hnB0, hBcells, hBcounts, hBmoves, hBmc, hBsz, hBstr, _⟩ |
      ⟨hnB1, b1B, hmscB, hstB, hBcells, hBcounts, hBmoves, hBmc, hBsz, hBstr⟩
    · subst hnA0
      subst hnB0
      refine ⟨bA', bB', 0, hrunA, hrunB, ?_, hAmoves, hAmc, hAsz, hAstr,
        hBmoves, hBmc, hBsz, hBstr, fun p _ => hAcells p⟩
      exact ⟨by rw [hAsz, hBsz]; exact hsz, by rw [hAstr, hBstr]; exact hstr,
        fun p => by rw [hAcells p, hBcells p]; exact hcells p,
        strInvW_congr hWA hAcells (fun p => by rw [hAcounts]) hAsz hAstr,
        strInvW_congr hWB hBcells (fun p => by rw [hBcounts]) hBsz hBstr⟩
    · exfalso
      have hreachB : ChainReach bB (bB.cells target) target q := by
        rw [← hcol]
        exact (chainReach_congr hcells hstr).mp hreachA
      have hqmem := mscSt_reach_mem hstB q hreachB
      rcases mem_chainList.mp hqmem with ⟨i, hi, hpi⟩
      have hqplayA : playablePt bA.size bA.stride q :=
        playable_of_cell_color hWA.cells_nonplay hc hqA
      have hq4B : bB.neighborCounts q = 4 := by
        by_cases hi0 : i = 0
        · rw [← hpi, hi0, hstB.target0]
          exact h4B
        · rw [← hpi]
          exact hstB.counts4 i (by omega) hi
      apply hq4A
      rw [counts_eq_of_sim ⟨hsz, hstr, hcells, hWA, hWB⟩ hqplayA]
      exact hq4B
  · rcases hcaseB with
      ⟨hnB0, hBcells, hBcounts, hBmoves, hBmc, hBsz, hBstr, q, hreachB, hqB,
        hq4B⟩ |
      ⟨hnB1, b1B, hmscB, hstB, hBcells, hBcounts, hBmoves, hBmc, hBsz, hBstr⟩
    · exfalso
      have hreachA : ChainReach bA (bA.cells target) target q := by
        rw [hcol]
        exact (chainReach_congr hcells hstr).mpr hreachB
      have hqmem := mscSt_reach_mem hstA q hreachA
      rcases mem_chainList.mp hqmem with ⟨i, hi, hpi⟩
      have hq4A : bA.neighborCounts q = 4 := by
        by_cases hi0 : i = 0
        · rw [← hpi, hi0, hstA.target0]
          exact h4
        · rw [← hpi]
          exact hstA.counts4 i (by omega) hi
      have hqplayA : playablePt bA.size bA.stride q := hstA.mem_play q hqmem
      apply hq4B
      rw [← counts_eq_of_sim ⟨hsz, hstr, hcells, hWA, hWB⟩ hqplayA]
      exact hq4A
    · have hmemiff : ∀ x, x ∈ chainList b1A nA ↔ x ∈ chainList b1B nB := by
        intro x
        constructor
        · intro hx
          apply mscSt_reach_mem hstB
          rw [← hcol]
          exact (chainReach_congr hcells hstr).mp (hstA.reach x hx)
        · intro hx
          apply mscSt_reach_mem hstA
          rw [hcol]
          exact (chainReach_congr hcells hstr).mpr (hstB.reach x hx)
      have hlen : nA = nB := by
        have h1 : (chainList b1A nA).length ≤ (chainList b1B nB).length :=
          (hstA.nodup.subperm (fun x hx => (hmemiff x).mp hx)).length_le
        have h2 : (chainList b1B nB).length ≤ (chainList b1A nA).length :=
          (hstB.nodup.subperm (fun x hx => (hmemiff x).mpr hx)).length_le
        rw [chainList_length, chainList_length] at h1 h2
        omega
      subst hlen
      refine ⟨bA', bB', nA, hrunA, hrunB, ?_, hAmoves, hAmc, hAsz, hAstr,
        hBmoves, hBmc, hBsz, hBstr, ?_⟩
      have hcells' : ∀ p, bA'.cells p = bB'.cells p := by
        intro p
        rw [hAcells p, hBcells p]
        by_cases hp : p ∈ chainList b1A nA
        · rw [if_pos hp, if_pos ((hmemiff p).mp hp)]
        · rw [if_neg hp, if_neg (fun h => hp ((hmemiff p).mpr h))]
          exact hcells p
      refine ⟨by rw [hAsz, hBsz]; exact hsz, by rw [hAstr, hBstr]; exact hstr,
        hcells', ?_, ?_⟩
      · exact strInvW_capture_out hWA hc hstA.nodup hstA.mem_play
          hstA.mem_cell hAcells hAcounts hAsz hAstr
      · exact strInvW_capture_out hWB hcB hstB.nodup hstB.mem_play
          hstB.mem_cell hBcells hBcounts hBsz hBstr
      · intro p hpne
        rw [hAcells p, if_neg (fun h => hpne (hstA.mem_cell p h))]

/-- Lockstep congruence for one direction of the capture scan. -/
theorem captureStep_congr {bA bB : board} (hsim : SimB bA bB) {e : Nat}
    (he : e = WHITE ∨ e = BLACK) (npt : Nat) (acc : Nat) :
    ∃ bA' bB' d, captureStep e (bA, acc) npt = (bA', acc + d) ∧
      captureStep e (bB, acc) npt = (bB', acc + d) ∧ SimB bA' bB' ∧
      bA'.moves = bA.moves ∧ bA'.moveCount = bA.moveCount ∧
      bA'.size = bA.size ∧ bA'.stride = bA.stride ∧
      bB'.moves = bB.moves ∧ bB'.moveCount = bB.moveCount ∧
      bB'.size = bB.size ∧ bB'.stride = bB.stride ∧
      (∀ p, bA.cells p ≠ e → bA'.cells p = bA.cells p) := by
  have hstepA : captureStep e (bA, acc) npt =
      if bA.cells npt = e ∧ bA.neighborCounts npt = 4 then
        (match capture bA npt with | (b1, c) => (b1, acc + c))
      else (bA, acc) := rfl
  have hstepB : captureStep e (bB, acc) npt =
      if bB.cells npt = e ∧ bB.neighborCounts npt = 4 then
        (match capture bB npt with | (b1, c) => (b1, acc + c))
      else (bB, acc) := rfl
  obtain ⟨hsz, hstr, hcells, hWA, hWB⟩ := hsim
  by_cases hcond : bA.cells npt = e ∧ bA.neighborCounts npt = 4
  · have hplay : playablePt bA.size bA.stride npt :=
      playable_of_cell_color hWA.cells_nonplay he hcond.1
    have hcondB : bB.cells npt = e ∧ bB.neighborCounts npt = 4 :=
      ⟨by rw [← hcells]; exact hcond.1,
       by
        rw [← counts_eq_of_sim ⟨hsz, hstr, hcells, hWA, hWB⟩ hplay]
        exact hcond.2⟩
    have hcolor : bA.cells npt = WHITE ∨ bA.cells npt = BLACK := by
      rw [hcond.1]
      exact he
    rcases capture_congr ⟨hsz, hstr, hcells, hWA, hWB⟩ hcolor hcond.2 with
      ⟨bA', bB', n, hcapA, hcapB, hsim', hAmoves, hAmc, hAsz, hAstr, hBmoves,
        hBmc, hBsz, hBstr, hApres⟩
    refine ⟨bA', bB', n, ?_, ?_, hsim', hAmoves, hAmc, hAsz, hAstr, hBmoves,
      hBmc, hBsz, hBstr, ?_⟩
    · rw [hstepA, if_pos hcond, hcapA]
    · rw [hstepB, if_pos hcondB, hcapB]
    · intro p hpne
      exact hApres p (by rw [hcond.1]; exact hpne)
  · have hcondB : ¬ (bB.cells npt = e ∧ bB.neighborCounts npt = 4) := by
      intro hB
      apply hcond
      have hcell : bA.cells npt = e := by
        rw [hcells]
        exact hB.1
      refine ⟨hcell, ?_⟩
      have hplay : playablePt bA.size bA.stride npt :=
        playable_of_cell_color hWA.cells_nonplay he hcell
      rw [counts_eq_of_sim ⟨hsz, hstr, hcells, hWA, hWB⟩ hplay]
      exact hB.2
    refine ⟨bA, bB, 0, ?_, ?_, ⟨hsz, hstr, hcells, hWA, hWB⟩, rfl, rfl, rfl,
      rfl, rfl, rfl, rfl, rfl, fun p _ => rfl⟩
    · rw [hstepA, if_neg hcond]
      norm_num
    · rw [hstepB, if_neg hcondB]
      norm_num

/-- Lockstep congruence for the four-direction capture scan fold. -/
theorem captureSteps_congr {e : Nat} (he : e = WHITE ∨ e = BLACK) :
    ∀ (dirs : List Nat) {bA bB : board}, SimB bA bB → ∀ acc : Nat,
      ∃ bA' bB' d,
        dirs.foldl (captureStep e) (bA, acc) = (bA', acc + d) ∧
        dirs.foldl (captureStep e) (bB, acc) = (bB', acc + d) ∧ SimB bA' bB' ∧
        bA'.moves = bA.moves ∧ bA'.moveCount = bA.moveCount ∧
        bA'.size = bA.size ∧ bA'.stride = bA.stride ∧
        bB'.moves = bB.moves ∧ bB'.moveCount = bB.moveCount ∧
        bB'.size = bB.size ∧ bB'.stride = bB.stride ∧
        (∀ p, bA.cells p ≠ e → bA'.cells p = bA.cells p) := by
  intro dirs
  induction dirs with
  | nil =>
    intro bA bB hsim acc
    exact ⟨bA, bB, 0, by simp, by simp, hsim, rfl, rfl, rfl, rfl, rfl, rfl,
      rfl, rfl, fun p _ => rfl⟩
  | cons npt rest ih =>
    intro bA bB hsim acc
    rcases captureStep_congr hsim he npt acc with
      ⟨bA1, bB1, d1, hsA, hsB, hsim1, hA1moves, hA1mc, hA1sz, hA1str,
        hB1moves, hB1mc, hB1sz, hB1str, hA1pres⟩
    rcases ih hsim1 (acc + d1) with
      ⟨bA', bB', d2, hfA, hfB, hsim', hA'moves, hA'mc, hA'sz, hA'str,
        hB'moves, hB'mc, hB'sz, hB'str, hA'pres⟩
    refine ⟨bA', bB', d1 + d2, ?_, ?_, hsim', by rw [hA'moves, hA1moves],
      by rw [hA'mc, hA1mc], by rw [hA'sz, hA1sz], by rw [hA'str, hA1str],
      by rw [hB'moves, hB1moves], by rw [hB'mc, hB1mc],
      by rw [hB'sz, hB1sz], by rw [hB'str, hB1str], ?_⟩
    · simp only [List.foldl_cons]
      rw [hsA, hfA, Nat.add_assoc]
    · simp only [List.foldl_cons]
      rw [hsB, hfB, Nat.add_assoc]
    · intro p hpne
      rw [hA'pres p (by rw [hA1pres p hpne]; exact hpne)]
      exact hA1pres p hpne

/-- Lockstep congruence for `makeMove`'s capture scan. -/
theorem captureLoop_congr {bA bB : board} (hsim : SimB bA bB) {e : Nat}
    (he : e = WHITE ∨ e = BLACK) (move : Nat) :
    ∃ bA2 bB2 caps, captureLoop bA move e = (bA2, caps) ∧
      captureLoop bB move e = (bB2, caps) ∧ SimB bA2 bB2 ∧
      bA2.moves = bA.moves ∧ bA2.moveCount = bA.moveCount ∧
      bA2.size = bA.size ∧ bA2.stride = bA.stride ∧
      bB2.moves = bB.moves ∧ bB2.moveCount = bB.moveCount ∧
      bB2.size = bB.size ∧ bB2.stride = bB.stride ∧
      (∀ p, bA.cells p ≠ e → bA2.cells p = bA.cells p) := by
  have hstr : bA.stride = bB.stride := hsim.2.1
  rcases captureSteps_congr he
      [move + 1, move - 1, move + bA.stride, move - bA.stride] hsim 0 with
    ⟨bA2, bB2, d, hfA, hfB, hsim', hAmoves, hAmc, hAsz, hAstr, hBmoves, hBmc,
      hBsz, hBstr, hApres⟩
  rw [hstr] at hfB
  refine ⟨bA2, bB2, d, ?_, ?_, hsim', hAmoves, hAmc, hAsz, hAstr, hBmoves,
    hBmc, hBsz, hBstr, hApres⟩
  · rw [captureLoop, hfA]
    norm_num
  · rw [captureLoop, hfB]
    norm_num

/-- Lockstep congruence for the `hasLiberties` flag on a full-count stone:
the flag is determined by the semantic presence of a liberty in the chain. -/
theorem hasLiberties_congr {bA bB : board} (hsim : SimB bA bB) {target : Nat}
    (hc : bA.cells target = WHITE ∨ bA.cells target = BLACK)
    (h4 : bA.neighborCounts target = 4) :
    (hasLiberties bA target).1 = (hasLiberties bB target).1 := by
  obtain ⟨hsz, hstr, hcells, hWA, hWB⟩ := hsim
  have hcB : bB.cells target = WHITE ∨ bB.cells target = BLACK := by
    rw [← hcells]
    exact hc
  have htplayA : playablePt bA.size bA.stride target :=
    playable_of_cell_color hWA.cells_nonplay hc rfl
  have h4B : bB.neighborCounts target = 4 := by
    rw [← counts_eq_of_sim ⟨hsz, hstr, hcells, hWA, hWB⟩ htplayA]
    exact h4
  have hcol := hcells target
  rcases hasLiberties_spec bA target hc hWA.cells_nonplay hWA.stride_eq with
    ⟨hlA, b3A, hrunA, _, _, _, _, _, _, _, htrueA, hfalseA⟩
  rcases hasLiberties_spec bB target hcB hWB.cells_nonplay hWB.stride_eq with
    ⟨hlB, b3B, hrunB, _, _, _, _, _, _, _, htrueB, hfalseB⟩
  rw [hrunA, hrunB]
  show hlA = hlB
  rcases Bool.eq_false_or_eq_true hlA with hA | hA <;>
    rcases Bool.eq_false_or_eq_true hlB with hB | hB
  · rw [hA, hB]
  · exfalso
    rcases htrueA hA with ⟨q, hreachA, hqA, hq4A⟩
    rcases hfalseB hB with ⟨b1B, n, hmscB, hn1, hstB⟩
    have hreachB : ChainReach bB (bB.cells target) target q := by
      rw [← hcol]
      exact (chainReach_congr hcells hstr).mp hreachA
    have hqmem := mscSt_reach_mem hstB q hreachB
    rcases mem_chainList.mp hqmem with ⟨i, hi, hpi⟩
    have hqplayA : playablePt bA.size bA.stride q :=
      playable_of_cell_color hWA.cells_nonplay hc hqA
    have hq4B : bB.neighborCounts q = 4 := by
      by_cases hi0 : i = 0
      · rw [← hpi, hi0, hstB.target0]
        exact h4B
      · rw [← hpi]
        exact hstB.counts4 i (by omega) hi
    apply hq4A
    rw [counts_eq_of_sim ⟨hsz, hstr, hcells, hWA, hWB⟩ hqplayA]
    exact hq4B
  · exfalso
    rcases htrueB hB with ⟨q, hreachB, hqB, hq4B⟩
    rcases hfalseA hA with ⟨b1A, n, hmscA, hn1, hstA⟩
    have hreachA : ChainReach bA (bA.cells target) target q := by
      rw [hcol]
      exact (chainReach_congr hcells hstr).mpr hreachB
    have hqmem := mscSt_reach_mem hstA q hreachA
    rcases mem_chainList.mp hqmem with ⟨i, hi, hpi⟩
    have hq4A : bA.neighborCounts q = 4 := by
      by_cases hi0 : i = 0
      · rw [← hpi, hi0, hstA.target0]
        exact h4
      · rw [← hpi]
        exact hstA.counts4 i (by omega) hi
    have hqplayA : playablePt bA.size bA.stride q := hstA.mem_play q hqmem
    apply hq4B
    rw [← counts_eq_of_sim ⟨hsz, hstr, hcells, hWA, hWB⟩ hqplayA]
    exact hq4A
  · rw [hA, hB]

/-- Lockstep congruence for `makeMove` outcomes: on two boards with equal
cells, equal playable counts and equal move counts, whose last recorded moves
agree whenever the second board's carries the one-capture flag, an accepted
move on the first board is accepted on the second. -/
theorem makeMove_ok_congr {bA bB : board} (hsim : SimB bA bB)
    (hmc : bA.moveCount = bB.moveCount)
    (hflag : (bB.moves (bB.moveCount - 1)).testBit 10 = true →
      bA.moves (bA.moveCount - 1) = bB.moves (bB.moveCount - 1))
    (move : Nat)
    (hok : (makeMove bA move).1.ok = true) :
    (makeMove bB move).1.ok = true := by
  obtain ⟨hsz, hstr, hcells, hWA, hWB⟩ := hsim
  by_cases hpass : move = PASS
  · subst hpass
    rw [makeMove_pass]
    rfl
  by_cases he : bA.cells move = EMPTY
  case neg =>
    rw [makeMove_occupied hpass he] at hok
    exact nomatch hok
  have heB : bB.cells move = EMPTY := by
    rw [← hcells]
    exact he
  have hplayA : playablePt bA.size bA.stride move := playableW_of_empty hWA he
  have hplayB : playablePt bB.size bB.stride move := by
    rw [← hsz, ← hstr]
    exact hplayA
  have hfc := friendly_cases bA.moveCount
  have hec := enemy_cases bA.moveCount
  have hfB : 2 - bB.moveCount % 2 = 2 - bA.moveCount % 2 := by rw [hmc]
  have hsim1 : SimB (placeStone bA move (2 - bA.moveCount % 2))
      (placeStone bB move (2 - bA.moveCount % 2)) := by
    refine ⟨hsz, hstr, ?_, strInvW_placeStone hWA hplayA he hfc,
      strInvW_placeStone hWB hplayB heB hfc⟩
    intro p
    show setC bA.cells move _ p = setC bB.cells move _ p
    rw [setC_apply, setC_apply]
    by_cases hp : p = move
    · rw [if_pos hp, if_pos hp]
    · rw [if_neg hp, if_neg hp]
      exact hcells p
  rcases captureLoop_congr hsim1 hec move with
    ⟨bA2, bB2, caps, hcapA, hcapB0, hsim2, hA2moves, hA2mc, hA2sz, hA2str,
      hB2moves, hB2mc, hB2sz, hB2str, hApres⟩
  have hcapB : captureLoop (placeStone bB move (2 - bB.moveCount % 2)) move
      ((2 - bB.moveCount % 2) ^^^ 3) = (bB2, caps) := by
    rw [hfB]
    exact hcapB0
  rw [makeMove_main hpass he hcapA] at hok
  rw [makeMove_main hpass heB hcapB]
  have hA2moves' : bA2.moves = bA.moves := hA2moves
  have hB2moves' : bB2.moves = bB.moves := hB2moves
  have hA2mc' : bA2.moveCount = bA.moveCount := hA2mc
  have hB2mc' : bB2.moveCount = bB.moveCount := hB2mc
  have hA2move : bA2.cells move = 2 - bA.moveCount % 2 := by
    rw [hApres move ?_]
    · show setC bA.cells move _ move = _
      rw [setC_apply, if_pos rfl]
    · show setC bA.cells move _ move ≠ _
      rw [setC_apply, if_pos rfl]
      exact friendly_ne_enemy bA.moveCount
  have hplayA2 : playablePt bA2.size bA2.stride move := by
    rw [hA2sz, hA2str]
    exact hplayA
  by_cases hc0 : caps = 0
  · rw [if_pos hc0] at hok ⊢
    have h4iff : bA2.neighborCounts move = 4 ↔ bB2.neighborCounts move = 4 := by
      rw [counts_eq_of_sim hsim2 hplayA2]
    by_cases h4A : bA2.neighborCounts move = 4
    · rw [if_pos h4A] at hok
      rw [if_pos (h4iff.mp h4A)]
      have hflagEq := hasLiberties_congr hsim2
        (by rw [hA2move]; exact hfc) h4A
      rcases hhlA : hasLiberties bA2 move with ⟨hlA, b3A⟩
      rcases hhlB : hasLiberties bB2 move with ⟨hlB, b3B⟩
      rw [hhlA] at hok
      rw [hhlA, hhlB] at hflagEq
      have hl : hlA = hlB := hflagEq
      subst hl
      cases hlA
      · exact nomatch hok
      · rfl
    · rw [if_neg h4A] at hok
      rw [if_neg (fun h => h4A (h4iff.mpr h))]
      rfl
  · rw [if_neg hc0] at hok ⊢
    by_cases hc1 : caps = 1
    · rw [if_pos hc1] at hok ⊢
      by_cases hkB : (bB2.moves (bB2.moveCount - 1)).testBit 10 = true ∧
          bB2.cells (bB2.moves (bB2.moveCount - 1) % 1024) = EMPTY
      · exfalso
        have hflagB : (bB.moves (bB.moveCount - 1)).testBit 10 = true := by
          rw [← hB2moves', ← hB2mc']
          exact hkB.1
        have hmveq := hflag hflagB
        have hkB' : bB2.cells (bB.moves (bB.moveCount - 1) % 1024) = EMPTY := by
          rw [← hB2moves', ← hB2mc']
          exact hkB.2
        have hkA : (bA2.moves (bA2.moveCount - 1)).testBit 10 = true ∧
            bA2.cells (bA2.moves (bA2.moveCount - 1) % 1024) = EMPTY := by
          constructor
          · rw [hA2moves', hA2mc', hmveq]
            exact hflagB
          · rw [hA2moves', hA2mc', hmveq, hsim2.2.2.1]
            exact hkB'
        rw [if_pos hkA] at hok
        exact nomatch hok
      · rw [if_neg hkB]
        rfl
    · rw [if_neg hc1]
      rfl

/-- The board produced by `copyFrom` on same-sized well-formed boards is
lockstep-equivalent to the source board, and its move list is the source's
below the move count (using the shared history below `commonMoveCount`). -/
theorem copyFrom_spec {sb rb : board} (hWsb : StrInvW sb) (hWrb : StrInv rb)
    (hsz : sb.size = rb.size) (hstr : sb.stride = rb.stride) :
    SimB (copyFrom sb rb) rb ∧
    (copyFrom sb rb).moveCount = rb.moveCount ∧
    (∀ i, sb.commonMoveCount ≤ i → i < rb.moveCount →
      (copyFrom sb rb).moves i = rb.moves i) ∧
    (∀ i, ¬ (sb.commonMoveCount ≤ i ∧ i < rb.moveCount) →
      (copyFrom sb rb).moves i = sb.moves i) := by
  have hcells : ∀ p, (copyFrom sb rb).cells p = rb.cells p := by
    intro p
    show (if playablePt sb.size sb.stride p then rb.cells p else sb.cells p) =
      rb.cells p
    by_cases hp : playablePt sb.size sb.stride p
    · rw [if_pos hp]
    · rw [if_neg hp, hWsb.cells_nonplay p hp,
        hWrb.cells_nonplay p (by rw [← hsz, ← hstr]; exact hp)]
  have hW : StrInvW (copyFrom sb rb) := by
    refine ⟨hWsb.stride_eq, ?_, ?_, ?_⟩
    · intro p hp
      rw [hcells p]
      exact hWrb.cells_play p (by rw [← hsz, ← hstr]; exact hp)
    · intro p hp
      have hp' : ¬ playablePt sb.size sb.stride p := hp
      show (if playablePt sb.size sb.stride p then rb.cells p else sb.cells p)
        = EDGE
      rw [if_neg hp']
      exact hWsb.cells_nonplay p hp'
    · intro p hp
      have hp' : playablePt sb.size sb.stride p := hp
      show (if playablePt sb.size sb.stride p then rb.neighborCounts p
        else sb.neighborCounts p) = countNbr (copyFrom sb rb) p
      rw [if_pos hp']
      have hprb : playablePt rb.size rb.stride p := by
        rw [← hsz, ← hstr]
        exact hp'
      rw [hWrb.counts_inv p (by
        have := playable_bounds hWrb.stride_eq hprb
        unfold boardLen
        omega)]
      exact (countNbr_congr hcells (show (copyFrom sb rb).stride = rb.stride
        from hstr) p).symm
  refine ⟨⟨hsz, hstr, hcells, hW, hWrb.toW⟩, rfl, ?_, ?_⟩
  · intro i h1 h2
    show (if sb.commonMoveCount ≤ i ∧ i < rb.moveCount then rb.moves i
      else sb.moves i) = rb.moves i
    rw [if_pos ⟨h1, h2⟩]
  · intro i h
    show (if sb.commonMoveCount ≤ i ∧ i < rb.moveCount then rb.moves i
      else sb.moves i) = sb.moves i
    rw [if_neg h]

/-! ## The claims -/

/-- C1: for every board state and point, if `board.makeMove` returns a
rejection outcome (`occupied`, `suicide` or `ko` — anything not ok), the
board's cells, neighbor counts, move history and move count are unchanged;
and whenever the robot's strict `makeMove` rejects a move (including
`superko`), the hash history (and the real board) is also unchanged. -/
theorem gongo_c1 {b : board} {move : Nat} (hS : StrInv b) (hK : KoInv b)
    (hrej : (makeMove b move).1.ok = false) :
    EqG (makeMove b move).2.2 b ∧
    ∀ (r : robot) (mv : Nat) (res : moveResult) (caps : Nat) (r' : robot),
      robot.makeMove r mv = some (res, caps, r') → res.ok = false →
      r'.boardHashes = r.boardHashes ∧ r'.rboard = r.rboard :=
  ⟨makeMove_reject_eqg hS hK hrej,
    fun _ _ _ _ _ hrun hres => robot_makeMove_reject hrun hres⟩

set_option maxHeartbeats 4000000 in
/-- Witness for C1: replaying the occupied point 15 on a small position is
rejected and changes nothing. -/
theorem gongo_c1_witness :
    (makeMove (playSeq (clearBoard 3) [5, 14, 15]) 15).1.ok = false ∧
    EqG (makeMove (playSeq (clearBoard 3) [5, 14, 15]) 15).2.2
      (playSeq (clearBoard 3) [5, 14, 15]) :=
  ⟨by decide,
    (gongo_c1
      (strKoInv_reachG (reachG_playSeq (ReachG.base (by decide)) [5, 14, 15])).1
      (strKoInv_reachG (reachG_playSeq (ReachG.base (by decide)) [5, 14, 15])).2
      (by decide)).1⟩

/-- C2: on every state reachable from `clearBoard` by `makeMove`, `capture`
(on occupied targets, its documented precondition) and `playRandomGame`, each
entry of `neighborCounts` equals the number of non-`EMPTY` orthogonal
neighbors (`countNbr`, which counts `EDGE` cells as non-empty). -/
theorem gongo_c2 {b : board} (h : Reach b) :
    ∀ p, p < boardLen b → b.neighborCounts p = countNbr b p :=
  (strInv_reach h).counts_inv

set_option maxHeartbeats 4000000 in
/-- Witness for C2: the invariant on a cleared board after one move. -/
theorem gongo_c2_witness :
    Reach (makeMove (clearBoard 2) 4).2.2 ∧
    ∀ p, p < boardLen (makeMove (clearBoard 2) 4).2.2 →
      (makeMove (clearBoard 2) 4).2.2.neighborCounts p =
        countNbr (makeMove (clearBoard 2) 4).2.2 p :=
  ⟨Reach.mk 4 (Reach.base (by decide)),
    gongo_c2 (Reach.mk 4 (Reach.base (by decide)))⟩

/-- C5: `checkLegalMove` copies the real board onto the scratch board, plays
the move there, and returns `superko` exactly when the scratch outcome is
`played` and the scratch hash equals `boardHashes[i]` for some
`i < moveCount`; otherwise it returns the scratch outcome. -/
theorem gongo_c5 (r : robot) (move : Nat) :
    (checkLegalMove r move).2.scratchBoard =
      (makeMove (copyFrom r.scratchBoard r.rboard) move).2.2 ∧
    ((checkLegalMove r move).1 = .superko ↔
      ((makeMove (copyFrom r.scratchBoard r.rboard) move).1 = .played ∧
        ∃ i, i < r.rboard.moveCount ∧
          getHash (makeMove (copyFrom r.scratchBoard r.rboard) move).2.2 =
            r.boardHashes i)) ∧
    ((checkLegalMove r move).1 ≠ .superko →
      (checkLegalMove r move).1 =
        (makeMove (copyFrom r.scratchBoard r.rboard) move).1) := by
  rcases hmk : makeMove (copyFrom r.scratchBoard r.rboard) move with
    ⟨res, caps, sb2⟩
  have hrun := checkLegalMove_run r move hmk
  by_cases hres : res = .played
  · by_cases hany : ((List.range r.rboard.moveCount).any
        fun i => getHash sb2 == r.boardHashes i) = true
    · rw [hrun, if_pos hres, if_pos hany]
      refine ⟨rfl, ?_, ?_⟩
      · refine iff_of_true rfl ⟨hres, ?_⟩
        rcases List.any_eq_true.mp hany with ⟨i, hi, hbeq⟩
        exact ⟨i, List.mem_range.mp hi, by simpa using hbeq⟩
      · intro h
        exact absurd rfl h
    · rw [hrun, if_pos hres, if_neg hany]
      refine ⟨rfl, ?_, fun _ => rfl⟩
      refine iff_of_false ?_ ?_
      · rw [show ((res, { r with scratchBoard := sb2 }) :
            moveResult × robot).1 = res from rfl, hres]
        exact fun h => nomatch h
      · rintro ⟨_, i, hi, heq⟩
        exact hany (List.any_eq_true.mpr
          ⟨i, List.mem_range.mpr hi, by simpa using heq⟩)
  · rw [hrun, if_neg hres]
    refine ⟨rfl, ?_, fun _ => rfl⟩
    refine iff_of_false ?_ (fun h => hres h.1)
    intro h
    have hns := makeMove_ne_superko (copyFrom r.scratchBoard r.rboard) move
    rw [hmk] at hns
    exact hns h

set_option maxHeartbeats 4000000 in
/-- C6 counterexample: starting `playRandomGame` from a position whose move
count already exceeds `3 * size²` (twelve passes and one played stone on a
2×2 board), the function returns immediately with `moveCount = 13 > 12` and
the last two recorded moves are not both passes, refuting the claimed
unconditional bound. -/
theorem gongo_c6_cex :
    ¬ (lastTwoPass (playRandomGame
          (playSeq (clearBoard 2) [0, 0, 0, 0, 0, 0, 0, 0, 0, 0, 0, 0, 4])
          ⟨fun _ _ => 0⟩ 0).1 ∨
        (playRandomGame
            (playSeq (clearBoard 2) [0, 0, 0, 0, 0, 0, 0, 0, 0, 0, 0, 0, 4])
            ⟨fun _ _ => 0⟩ 0).1.moveCount ≤
          3 * ((playSeq (clearBoard 2)
              [0, 0, 0, 0, 0, 0, 0, 0, 0, 0, 0, 0, 4]).size *
            (playSeq (clearBoard 2)
              [0, 0, 0, 0, 0, 0, 0, 0, 0, 0, 0, 0, 4]).size)) := by
  decide

/-- C6 (amended): `playRandomGame` terminates by itself (the fuelled loop
returns `some` before the fuel runs out), and on return either the last two
recorded moves are both passes or the move count is at most the larger of the
starting move count and `3 * size²` (the safety bound only caps the moves
added by the playout). -/
theorem gongo_c6 {b : board} (hS : StrInv b) (rng : Rng) (t : Nat) :
    (∃ out, prgCollect rng ((allPoints b.size b.stride).length * 3)
        ((allPoints b.size b.stride).length * 3 + 1) b t = some out ∧
      playRandomGame b rng t = out) ∧
    (lastTwoPass (playRandomGame b rng t).1 ∨
      (playRandomGame b rng t).1.moveCount ≤
        max b.moveCount (3 * (b.size * b.size))) := by
  rcases prgPlayed_spec StrInv (fun _ move h => strInv_makeMove h move)
      (fun _ h => h) rng ((allPoints b.size b.stride).length * 3)
      ((allPoints b.size b.stride).length * 3 + 1)
      ((allPoints b.size b.stride).filter fun p => b.cells p == EMPTY).length
      (fun i => ((allPoints b.size b.stride).filter
        fun p => b.cells p == EMPTY).getD i 0) 0 0 b t hS (by omega)
      (cands_ne_pass hS) (by omega) (by omega) with
    ⟨b', t', hrun, hS', hbound⟩
  have hcol : prgCollect rng ((allPoints b.size b.stride).length * 3)
      ((allPoints b.size b.stride).length * 3 + 1) b t = some (b', t') := by
    simp only [prgCollect]
    exact hrun
  have hred : playRandomGame b rng t = (b', t') := by
    simp only [playRandomGame, prgCollect]
    rw [hrun]
  refine ⟨⟨(b', t'), hcol, hred⟩, ?_⟩
  rw [hred]
  rcases hbound with h | h
  · exact Or.inl h
  · right
    rw [allPoints_length] at h
    show b'.moveCount ≤ max b.moveCount (3 * (b.size * b.size))
    omega

set_option maxHeartbeats 4000000 in
/-- Witness for C6: the amended bound on a cleared 1×1 board. -/
theorem gongo_c6_witness :
    StrInv (clearBoard 1) ∧
    ((∃ out, prgCollect ⟨fun _ _ => 0⟩
        ((allPoints (clearBoard 1).size (clearBoard 1).stride).length * 3)
        ((allPoints (clearBoard 1).size (clearBoard 1).stride).length * 3 + 1)
        (clearBoard 1) 0 = some out ∧
      playRandomGame (clearBoard 1) ⟨fun _ _ => 0⟩ 0 = out) ∧
    (lastTwoPass (playRandomGame (clearBoard 1) ⟨fun _ _ => 0⟩ 0).1 ∨
      (playRandomGame (clearBoard 1) ⟨fun _ _ => 0⟩ 0).1.moveCount ≤
        max (clearBoard 1).moveCount
          (3 * ((clearBoard 1).size * (clearBoard 1).size)))) :=
  ⟨strInv_clearBoard (by decide),
    gongo_c6 (strInv_clearBoard (by decide)) ⟨fun _ _ => 0⟩ 0⟩

/-- C7: for a playable point, `wouldFillEye` returns true iff all four
orthogonal neighbors are `EDGE` or the current player's stones and the number
of diagonal enemy stones plus one (if any diagonal neighbor is `EDGE`) is
below two; and `wouldFillEye(PASS)` is false. -/
theorem gongo_c7 {b : board} {move : Nat}
    (hp : playablePt b.size b.stride move) :
    (wouldFillEye b move = true ↔
      ((∀ n ∈ orthNbrs b.stride move,
          b.cells n = EDGE ∨ b.cells n = 2 - b.moveCount % 2) ∧
        (diagNbrs b.stride move).countP
            (fun n => b.cells n == (2 - b.moveCount % 2) ^^^ 3) +
          (if ∃ n ∈ diagNbrs b.stride move, b.cells n = EDGE then 1 else 0)
          < 2)) ∧
    wouldFillEye b PASS = false := by
  have hmove0 : move ≠ PASS := by
    intro h
    rw [h] at hp
    rcases hp with ⟨h1, _, _, _⟩
    simp [PASS] at h1
  refine ⟨?_, rfl⟩
  simp only [wouldFillEye]
  rw [if_neg hmove0]
  have hiff : ((diagNbrs b.stride move).any
      (fun n => b.cells n == EDGE) = true) ↔
      (∃ n ∈ diagNbrs b.stride move, b.cells n = EDGE) := by
    simp [List.any_eq_true]
  by_cases hC : (b.cells (move + 1) = EDGE ∨
        b.cells (move + 1) = 2 - b.moveCount % 2) ∧
      (b.cells (move - 1) = EDGE ∨
        b.cells (move - 1) = 2 - b.moveCount % 2) ∧
      (b.cells (move + b.stride) = EDGE ∨
        b.cells (move + b.stride) = 2 - b.moveCount % 2) ∧
      (b.cells (move - b.stride) = EDGE ∨
        b.cells (move - b.stride) = 2 - b.moveCount % 2)
  · rw [if_pos hC, decide_eq_true_eq]
    constructor
    · intro harith
      constructor
      · intro n hn
        have hn' : n = move + 1 ∨ n = move - 1 ∨ n = move + b.stride ∨
            n = move - b.stride := by simpa [orthNbrs] using hn
        rcases hn' with rfl | rfl | rfl | rfl
        · exact hC.1
        · exact hC.2.1
        · exact hC.2.2.1
        · exact hC.2.2.2
      · rwa [if_congr hiff rfl rfl] at harith
    · rintro ⟨_, harith⟩
      rw [if_congr hiff rfl rfl]
      exact harith
  · rw [if_neg hC]
    constructor
    · intro h
      exact nomatch h
    · rintro ⟨horth, _⟩
      exact absurd ⟨horth _ (by simp [orthNbrs]), horth _ (by simp [orthNbrs]),
        horth _ (by simp [orthNbrs]), horth _ (by simp [orthNbrs])⟩ hC

set_option maxHeartbeats 4000000 in
/-- Witness for C7: the single point of a 1×1 board is an eye for Black. -/
theorem gongo_c7_witness :
    playablePt (clearBoard 1).size (clearBoard 1).stride 3 ∧
    ((wouldFillEye (clearBoard 1) 3 = true ↔
      ((∀ n ∈ orthNbrs (clearBoard 1).stride 3,
          (clearBoard 1).cells n = EDGE ∨
            (clearBoard 1).cells n = 2 - (clearBoard 1).moveCount % 2) ∧
        (diagNbrs (clearBoard 1).stride 3).countP
            (fun n => (clearBoard 1).cells n ==
              (2 - (clearBoard 1).moveCount % 2) ^^^ 3) +
          (if ∃ n ∈ diagNbrs (clearBoard 1).stride 3,
              (clearBoard 1).cells n = EDGE then 1 else 0)
          < 2)) ∧
    wouldFillEye (clearBoard 1) PASS = false) :=
  ⟨by decide, gongo_c7 (by decide)⟩

/-- C9: on every reachable state no cell carries the in-chain mark
(`CELL_IN_CHAIN`), both as the entry state of any top-level operation and
after `makeMove` or `playRandomGame` (the other top-level operations
`getEasyScore`, `getHash` and `wouldFillEye` do not write to the board). -/
theorem gongo_c9 {b : board} (h : Reach b) :
    (∀ p, b.cells p &&& CELL_IN_CHAIN = 0) ∧
    (∀ move p, (makeMove b move).2.2.cells p &&& CELL_IN_CHAIN = 0) ∧
    (∀ rng t p, (playRandomGame b rng t).1.cells p &&& CELL_IN_CHAIN = 0) :=
  ⟨noMark_of_strInv (strInv_reach h),
    fun move p => noMark_of_strInv (strInv_makeMove (strInv_reach h) move) p,
    fun rng t p =>
      noMark_of_strInv (strInv_playRandomGame (strInv_reach h) rng t) p⟩

/-- On a well-formed board an empty point is playable, hence not `PASS`. -/
theorem ne_pass_of_empty {b : board} {move : Nat} (hS : StrInv b)
    (he : b.cells move = EMPTY) : move ≠ PASS := by
  intro h
  have h0 : ¬ playablePt b.size b.stride move := by
    rw [h]
    intro hp
    rcases hp with ⟨h1, _, _, _⟩
    simp [PASS] at h1
  rw [hS.cells_nonplay move h0] at he
  simp [EDGE, EMPTY] at he

/-- C3: when playing `move` captures exactly one stone, the move is rejected
as simple ko (with 0 captures and the board restored) exactly when the
previously recorded move carries the one-capture flag and the point it
records is empty after our capture; otherwise the move is played with one
capture and recorded with the one-capture flag set. -/
theorem gongo_c3 {b : board} {move : Nat} (hS : StrInv b) (hK : KoInv b)
    (he : b.cells move = EMPTY)
    (hcap1 : (captureLoop (placeStone b move (2 - b.moveCount % 2)) move
      ((2 - b.moveCount % 2) ^^^ 3)).2 = 1) :
    (((b.moves (b.moveCount - 1)).testBit 10 = true ∧
        (captureLoop (placeStone b move (2 - b.moveCount % 2)) move
          ((2 - b.moveCount % 2) ^^^ 3)).1.cells
            (b.moves (b.moveCount - 1) % 1024) = EMPTY) →
      (makeMove b move).1 = .ko ∧ (makeMove b move).2.1 = 0 ∧
        EqG (makeMove b move).2.2 b) ∧
    (¬ ((b.moves (b.moveCount - 1)).testBit 10 = true ∧
        (captureLoop (placeStone b move (2 - b.moveCount % 2)) move
          ((2 - b.moveCount % 2) ^^^ 3)).1.cells
            (b.moves (b.moveCount - 1) % 1024) = EMPTY) →
      (makeMove b move).1 = .played ∧ (makeMove b move).2.1 = 1 ∧
        (makeMove b move).2.2.moves b.moveCount = ONE_CAPTURE + move ∧
        ((makeMove b move).2.2.moves b.moveCount).testBit 10 = true ∧
        (makeMove b move).2.2.moves b.moveCount % 1024 = move) := by
  have hpass : move ≠ PASS := ne_pass_of_empty hS he
  have hm1024 : move < 1024 :=
    playable_lt_1024 hS.stride_eq hS.size_le (playable_of_empty hS he)
  rcases makeMove_master hS hpass he with
    ⟨b2, R, hcap, hinv, hb2S, hb2move, hmoves2, hmc2, hsz2, hstr2, hout⟩
  have hR1 : R.length = 1 := by
    rw [hcap] at hcap1
    exact hcap1
  rw [hcap]
  rcases hout with ⟨h0, _⟩ | ⟨h0, _⟩ | ⟨_, hko, heqmk⟩ | ⟨_, hko, heqmk⟩ |
    ⟨h2, _⟩
  · omega
  · omega
  · constructor
    · intro _
      refine ⟨by rw [heqmk], by rw [heqmk], ?_⟩
      exact makeMove_reject_eqg hS hK (by rw [heqmk]; rfl)
    · intro hn
      exfalso
      apply hn
      constructor
      · rw [← hmoves2, ← hmc2]
        exact hko.1
      · rw [← hmoves2, ← hmc2]
        exact hko.2
  · constructor
    · intro hcond
      exfalso
      apply hko
      constructor
      · rw [hmoves2, hmc2]
        exact hcond.1
      · rw [hmoves2, hmc2]
        exact hcond.2
    · intro _
      refine ⟨by rw [heqmk], by rw [heqmk], ?_, ?_, ?_⟩
      · rw [heqmk]
        show setC b2.moves b2.moveCount (ONE_CAPTURE + move) b.moveCount =
          ONE_CAPTURE + move
        rw [setC_apply, if_pos (by rw [hmc2])]
      · rw [heqmk]
        show (setC b2.moves b2.moveCount (ONE_CAPTURE + move)
          b.moveCount).testBit 10 = true
        rw [setC_apply, if_pos (by rw [hmc2])]
        exact testBit10_add hm1024
      · rw [heqmk]
        show setC b2.moves b2.moveCount (ONE_CAPTURE + move) b.moveCount %
          1024 = move
        rw [setC_apply, if_pos (by rw [hmc2])]
        exact mod1024_add hm1024
  · omega

set_option maxHeartbeats 4000000 in
/-- Witness for C3: the simple-ko position of the ko test — after
`B12 W13 B6 W9 B8 W7(captures one)`, retaking at 8 captures exactly one,
the ko condition holds, and the move is rejected with the board restored. -/
theorem gongo_c3_witness :
    (playSeq (clearBoard 4) [12, 13, 6, 9, 8, 7]).cells 8 = EMPTY ∧
    (captureLoop (placeStone (playSeq (clearBoard 4) [12, 13, 6, 9, 8, 7]) 8
        (2 - (playSeq (clearBoard 4) [12, 13, 6, 9, 8, 7]).moveCount % 2)) 8
      ((2 - (playSeq (clearBoard 4) [12, 13, 6, 9, 8, 7]).moveCount % 2) ^^^
        3)).2 = 1 ∧
    ((makeMove (playSeq (clearBoard 4) [12, 13, 6, 9, 8, 7]) 8).1 = .ko ∧
      (makeMove (playSeq (clearBoard 4) [12, 13, 6, 9, 8, 7]) 8).2.1 = 0 ∧
      EqG (makeMove (playSeq (clearBoard 4) [12, 13, 6, 9, 8, 7]) 8).2.2
        (playSeq (clearBoard 4) [12, 13, 6, 9, 8, 7])) :=
  ⟨by decide, by decide,
    (gongo_c3
      (strKoInv_reachG (reachG_playSeq (ReachG.base (by decide))
        [12, 13, 6, 9, 8, 7])).1
      (strKoInv_reachG (reachG_playSeq (ReachG.base (by decide))
        [12, 13, 6, 9, 8, 7])).2
      (by decide) (by decide)).1 (by decide)⟩

/-- C4: when playing an empty point captures nothing, the move is rejected
as suicide exactly when the neighbor count of the point after placement is 4
and the placed stone's chain has no liberty (no chain stone has an empty
orthogonal neighbor); on suicide the placement is reverted and 0 captures
are reported. -/
theorem gongo_c4 {b : board} {move : Nat} (hS : StrInv b)
    (he : b.cells move = EMPTY)
    (hcap0 : (captureLoop (placeStone b move (2 - b.moveCount % 2)) move
      ((2 - b.moveCount % 2) ^^^ 3)).2 = 0) :
    ((makeMove b move).1 = .suicide ↔
      ((placeStone b move (2 - b.moveCount % 2)).neighborCounts move = 4 ∧
        ¬ ChainHasLiberty (placeStone b move (2 - b.moveCount % 2)) move)) ∧
    ((makeMove b move).1 = .suicide →
      (makeMove b move).2.1 = 0 ∧ EqG (makeMove b move).2.2 b) := by
  have hpass : move ≠ PASS := ne_pass_of_empty hS he
  rcases makeMove_master hS hpass he with
    ⟨b2, R, hcap, hinv, hb2S, hb2move, hmoves2, hmc2, hsz2, hstr2, hout⟩
  obtain ⟨hnd, hprops, hcells, hcounts, hmoves, hmc, hcmc, hsz, hstr⟩ := hinv
  have hR0 : R.length = 0 := by
    rw [hcap] at hcap0
    exact hcap0
  have hRnil : R = [] := List.length_eq_zero.mp hR0
  subst hRnil
  have hcells21 : ∀ p, b2.cells p =
      (placeStone b move (2 - b.moveCount % 2)).cells p := by
    intro p
    rw [hcells p, if_neg (by simp)]
  have hcounts21 : b2.neighborCounts =
      (placeStone b move (2 - b.moveCount % 2)).neighborCounts := by
    rw [hcounts]
    rfl
  have hfc := friendly_cases b.moveCount
  have hb2cell : b2.cells move = 2 - b.moveCount % 2 := hb2move
  have hchl : ChainHasLiberty b2 move ↔
      ChainHasLiberty (placeStone b move (2 - b.moveCount % 2)) move :=
    chainHasLiberty_congr hcells21 hstr move
  rcases hout with ⟨_, h4, b3, hhl, heqmk, heqg, _, _⟩ |
      ⟨_, b3, heqmk, _, _, _, _, _, _⟩ | ⟨h1, _, _⟩ | ⟨h1, _, _⟩ | ⟨h2, _⟩
  · refine ⟨⟨fun _ => ⟨?_, ?_⟩, fun _ => by rw [heqmk]⟩, fun _ => ?_⟩
    · rw [← congrFun hcounts21 move]
      exact h4
    · rw [← hchl]
      rcases hasLiberties_spec b2 move (by rw [hb2cell]; exact hfc)
          hb2S.cells_nonplay hb2S.stride_eq with
        ⟨hl, b3', hrun', _, _, _, _, _, _, _, _, hfalse⟩
      have hlf : hl = false := by
        have h12 := hhl.symm.trans hrun'
        injection h12 with ha hb
        exact ha.symm
      rcases hfalse hlf with ⟨b1m, n, hmsc, hn1, hst⟩
      exact mscSt_no_liberty hb2S rfl h4 hst
    · rw [heqmk]
      exact ⟨rfl, heqg⟩
  · refine ⟨⟨fun hsc => ?_, fun hrhs => ?_⟩, fun hsc => ?_⟩
    · rw [heqmk] at hsc
      exact nomatch hsc
    · exfalso
      rcases hrhs with ⟨h4b1, hnolib⟩
      have h4b2 : b2.neighborCounts move = 4 := by
        rw [congrFun hcounts21 move]
        exact h4b1
      rcases hasLiberties_spec b2 move (by rw [hb2cell]; exact hfc)
          hb2S.cells_nonplay hb2S.stride_eq with
        ⟨hl, b3', hrun', _, _, _, _, _, _, _, htrue, hfalse⟩
      rcases Bool.eq_false_or_eq_true hl with hlt | hlf
      · subst hlt
        rcases htrue rfl with ⟨q, hreach, hq, hq4⟩
        exact hnolib (hchl.mp
          (liberty_of_counts hb2S rfl (by rw [hb2cell]; exact hfc) hreach hq
            hq4))
      · subst hlf
        rw [makeMove_main hpass he hcap,
          if_pos (show List.length ([] : List Nat) = 0 from rfl),
          if_pos h4b2, hrun'] at heqmk
        have heq2 : ((moveResult.suicide, 0, revertPlace b3' move) :
            moveResult × Nat × board) =
            (moveResult.played, 0, recordMove b3 move) := heqmk
        injection heq2 with ha hb
        exact nomatch ha
    · rw [heqmk] at hsc
      exact nomatch hsc
  · simp at h1
  · simp at h1
  · simp at h2

set_option maxHeartbeats 4000000 in
/-- Witness for C4: the suicide position of the capture test — after
`B5 W14 B15 W11`, Black 15 was just captured, and White... the point 15
replayed by Black is a suicide: the placement's neighbor count is 4, the
chain has no liberty, and the move is rejected with 0 captures. -/
theorem gongo_c4_witness :
    (playSeq (clearBoard 3) [5, 14, 15, 11]).cells 15 = EMPTY ∧
    (captureLoop (placeStone (playSeq (clearBoard 3) [5, 14, 15, 11]) 15
        (2 - (playSeq (clearBoard 3) [5, 14, 15, 11]).moveCount % 2)) 15
      ((2 - (playSeq (clearBoard 3) [5, 14, 15, 11]).moveCount % 2) ^^^
        3)).2 = 0 ∧
    ((makeMove (playSeq (clearBoard 3) [5, 14, 15, 11]) 15).1 = .suicide ↔
      ((placeStone (playSeq (clearBoard 3) [5, 14, 15, 11]) 15
          (2 - (playSeq (clearBoard 3) [5, 14, 15, 11]).moveCount % 2)
          ).neighborCounts 15 = 4 ∧
        ¬ ChainHasLiberty
          (placeStone (playSeq (clearBoard 3) [5, 14, 15, 11]) 15
            (2 - (playSeq (clearBoard 3) [5, 14, 15, 11]).moveCount % 2))
          15)) :=
  ⟨by decide, by decide,
    (gongo_c4
      (strKoInv_reachG (reachG_playSeq (ReachG.base (by decide))
        [5, 14, 15, 11])).1
      (by decide) (by decide)).1⟩

set_option maxHeartbeats 4000000 in
/-- C8 counterexample: the "skip passes" filter of the AMAF walk is commented
out in the source, so the `PASS` sentinel (point 0) is credited like any
point.  One playout on an empty 1×1 board records `[PASS, PASS]`; the walk's
first index records a pass, yet `hits[PASS]` ends at 1 instead of the 0 the
specified pass-ignoring walk would produce from the zeroed statistics. -/
theorem gongo_c8_cex :
    (playRandomGame (copyFrom (clearBoard 1) (clearBoard 1)) ⟨fun _ _ => 0⟩
      0).1.moves 0 = PASS ∧
    (findWins
      { rboard := clearBoard 1
        randomness := ⟨fun _ _ => 0⟩
        rngT := 0
        komi := 0
        sampleCount := 1
        boardHashes := fun _ => 0
        scratchBoard := clearBoard 1
        candidates := fun _ => 0
        wins := fun _ => 0
        hits := fun _ => 0
        updated := fun _ => 0 } 1).hits PASS = 1 := by
  constructor <;> decide

/-- C8 (amended): one `findWins` sample walks the scratch move history from
the real board's `moveCount` to its end with stride 2 and, for each first
occurrence of a recorded point — including the `PASS` sentinel, whose
skipping is commented out in the source — adds the playout's win amount to
`wins[p]` and 1 to `hits[p]`; later occurrences are skipped via
`updated[]`. -/
theorem gongo_c8 (r : robot) (p : Nat) :
    (findWinsSample r).hits p = r.hits p +
      (if ∃ i ∈ amafIndices r.rboard.moveCount
            (playRandomGame (copyFrom r.scratchBoard r.rboard) r.randomness
              r.rngT).1.moveCount,
          (playRandomGame (copyFrom r.scratchBoard r.rboard) r.randomness
            r.rngT).1.moves i % 1024 = p
        then 1 else 0) ∧
    (findWinsSample r).wins p = r.wins p +
      (if ∃ i ∈ amafIndices r.rboard.moveCount
            (playRandomGame (copyFrom r.scratchBoard r.rboard) r.randomness
              r.rngT).1.moveCount,
          (playRandomGame (copyFrom r.scratchBoard r.rboard) r.randomness
            r.rngT).1.moves i % 1024 = p
        then winAmountOf r
          (playRandomGame (copyFrom r.scratchBoard r.rboard) r.randomness
            r.rngT).1
        else 0) := by
  rcases hprg : playRandomGame (copyFrom r.scratchBoard r.rboard) r.randomness
      r.rngT with ⟨sb2, t2⟩
  rcases hfold2 : (amafIndices r.rboard.moveCount sb2.moveCount).foldl
      (fun st i => amafUpdate (winAmountOf r sb2) st (sb2.moves i))
      (fun _ => 0, r.wins, r.hits) with ⟨upd, w2, h2⟩
  have hsample : findWinsSample r =
      { r with
          scratchBoard := sb2
          rngT := t2
          wins := w2
          hits := h2
          updated := upd } := by
    simp only [findWinsSample]
    rw [hprg, hfold2]
  rw [hsample]
  show h2 p = r.hits p +
      (if ∃ i ∈ amafIndices r.rboard.moveCount sb2.moveCount,
          sb2.moves i % 1024 = p then 1 else 0) ∧
    w2 p = r.wins p +
      (if ∃ i ∈ amafIndices r.rboard.moveCount sb2.moveCount,
          sb2.moves i % 1024 = p then winAmountOf r sb2 else 0)
  have key := amafFold_apply (winAmountOf r sb2)
      ((amafIndices r.rboard.moveCount sb2.moveCount).map sb2.moves)
      (fun _ => 0) r.wins r.hits p
  rw [List.foldl_map, hfold2] at key
  rcases key with ⟨_, k2, k3⟩
  dsimp only at k2 k3
  have hcond : ((0 : Nat) = 0 ∧
      ∃ m ∈ (amafIndices r.rboard.moveCount sb2.moveCount).map sb2.moves,
        m % 1024 = p) ↔
      (∃ i ∈ amafIndices r.rboard.moveCount sb2.moveCount,
        sb2.moves i % 1024 = p) := by
    simp
  constructor
  · rw [k3, if_congr hcond rfl rfl]
  · rw [k2, if_congr hcond rfl rfl]

set_option maxHeartbeats 4000000 in
/-- Witness for C9 on a small reachable position. -/
theorem gongo_c9_witness :
    Reach (makeMove (clearBoard 2) 7).2.2 ∧
    (∀ p, (makeMove (clearBoard 2) 7).2.2.cells p &&& CELL_IN_CHAIN = 0) :=
  ⟨Reach.mk 7 (Reach.base (by decide)),
    (gongo_c9 (Reach.mk 7 (Reach.base (by decide)))).1⟩

/-- C10: on a robot whose real board is well-formed and whose scratch board
satisfies the weak invariant `StrInvW` (cells well typed, neighbor counts
correct at playable points — exactly what `copyFrom` maintains, since it
copies counts only over playable points and leaves edge-cell counts stale),
with boards of equal size, whose scratch move history agrees with the real
one below `commonMoveCount` (the scratch board was last synchronized via
`copyFrom` and the shared history is append-only), and whose real move list
is blank past `moveCount`, an ok outcome from `checkLegalMove` implies the
real `board.makeMove` is also ok — so the strict `robot.makeMove` never
reaches its `panic` branch (the `none` result). -/
theorem gongo_c10 {r : robot}
    (hSb : StrInv r.rboard) (hSsb : StrInvW r.scratchBoard)
    (hsz : r.scratchBoard.size = r.rboard.size)
    (hstr : r.scratchBoard.stride = r.rboard.stride)
    (hsync : ∀ i, i < r.scratchBoard.commonMoveCount →
      r.scratchBoard.moves i = r.rboard.moves i)
    (hclean : ∀ i, r.rboard.moveCount ≤ i → r.rboard.moves i = PASS)
    (move : Nat) :
    ((checkLegalMove r move).1.ok = true →
      (makeMove r.rboard move).1.ok = true) ∧
    robot.makeMove r move ≠ none := by
  have himp : (makeMove (copyFrom r.scratchBoard r.rboard) move).1.ok = true →
      (makeMove r.rboard move).1.ok = true := by
    rcases copyFrom_spec hSsb hSb hsz hstr with ⟨hsim, hmc, hin, hout⟩
    apply makeMove_ok_congr hsim hmc
    intro hflagB
    by_cases hmc0 : r.rboard.moveCount = 0
    · exfalso
      rw [hclean (r.rboard.moveCount - 1) (by omega)] at hflagB
      exact absurd hflagB
        (by rw [show (PASS : Nat).testBit 10 = false from rfl]; simp)
    · have hlt : r.rboard.moveCount - 1 < r.rboard.moveCount := by omega
      rw [hmc]
      by_cases hcm : r.scratchBoard.commonMoveCount ≤ r.rboard.moveCount - 1
      · exact hin (r.rboard.moveCount - 1) hcm hlt
      · rw [hout (r.rboard.moveCount - 1) (fun h => hcm h.1)]
        exact hsync (r.rboard.moveCount - 1) (by omega)
  have hmain : (checkLegalMove r move).1.ok = true →
      (makeMove r.rboard move).1.ok = true := by
    intro hchk
    rcases hmk : makeMove (copyFrom r.scratchBoard r.rboard) move with
      ⟨res, caps, sb2⟩
    have hrun := checkLegalMove_run r move hmk
    have hres : res.ok = true := by
      by_cases h1 : res = .played
      · subst h1
        rfl
      · rw [hrun, if_neg h1] at hchk
        exact hchk
    apply himp
    rw [hmk]
    exact hres
  refine ⟨hmain, ?_⟩
  intro hnone
  rcases hchk2 : checkLegalMove r move with ⟨chk, r1⟩
  rcases hmk2 : makeMove r.rboard move with ⟨res1, caps1, b2⟩
  have hr1b : r1.rboard = r.rboard := by
    have hsnd := checkLegalMove_snd r move
    rw [hchk2] at hsnd
    rw [show r1 = { r with scratchBoard :=
        (makeMove (copyFrom r.scratchBoard r.rboard) move).2.2 } from hsnd]
  have hmk2' : makeMove r1.rboard move = (res1, caps1, b2) := by
    rw [hr1b]
    exact hmk2
  rw [robot_makeMove_run r move hchk2 hmk2'] at hnone
  by_cases hco : chk.ok = false
  · rw [if_pos hco] at hnone
    exact nomatch hnone
  · rw [if_neg hco] at hnone
    have hchkok : (checkLegalMove r move).1.ok = true := by
      rw [hchk2]
      rcases Bool.eq_false_or_eq_true chk.ok with h | h
      · exact h
      · exact absurd h hco
    have hreal := hmain hchkok
    rw [hmk2] at hreal
    have hr1ok : ¬ res1.ok = false := by
      rw [show res1.ok = true from hreal]
      simp
    rw [if_neg hr1ok] at hnone
    exact nomatch hnone

/-- Witness for C10: a freshly set up robot (both boards cleared at size 1)
satisfies the synchronization hypotheses, and its strict `makeMove` never
panics. -/
theorem gongo_c10_witness :
    StrInv (clearBoard 1) ∧
    (((checkLegalMove
        { rboard := clearBoard 1
          randomness := ⟨fun _ _ => 0⟩
          rngT := 0
          komi := 0
          sampleCount := 1
          boardHashes := fun _ => 0
          scratchBoard := clearBoard 1
          candidates := fun _ => 0
          wins := fun _ => 0
          hits := fun _ => 0
          updated := fun _ => 0 } 3).1.ok = true →
      (makeMove (clearBoard 1) 3).1.ok = true) ∧
    robot.makeMove
        { rboard := clearBoard 1
          randomness := ⟨fun _ _ => 0⟩
          rngT := 0
          komi := 0
          sampleCount := 1
          boardHashes := fun _ => 0
          scratchBoard := clearBoard 1
          candidates := fun _ => 0
          wins := fun _ => 0
          hits := fun _ => 0
          updated := fun _ => 0 } 3 ≠ none) :=
  ⟨strInv_clearBoard (by decide),
    gongo_c10 (strInv_clearBoard (by decide))
      (strInv_clearBoard (by decide)).toW
      rfl rfl (fun i hi => absurd hi (by simp [clearBoard]))
      (fun i _ => rfl) 3⟩

end Gongo
